import Mathlib

/-!
Array scalarization and pointer reduction (tsar).

A shallow embedding of `lib/Transform/IR/ArrayScalarize.cpp` and
`lib/Transform/IR/PointerReduction.cpp`.

The compiler IR is modelled as a function made of basic blocks made of
instructions.  Instructions and blocks are named by numbers (the embedding of
their addresses); an operation that mutates the IR in place is a function from
the old `Func` to the new one.  A null pointer dereference, an access
outside a container or the overflow of a signed loop counter is the result
`none`.  Types are carried by the
instructions but not checked: replacing the uses of a value by a value of
another type is not a fault.

Conventions for the library the passes are written against:
* the users of a value and the predecessors of a block are enumerated in
  layout order, one entry per use;
* a debug intrinsic refers to its value through metadata, so it is not among
  the users of that value, but replacing the value rewrites the intrinsic;
* integer constants are a bit width and a natural number; the constants the
  passes create are reduced modulo two to the width.
-/

namespace Tsar

/-! ## Data model -/

/-- IR types. -/
inductive Ty where
  | int (bits : Nat)
  | double
  | ptr (pointee : Ty)
  | array (n : Nat) (elem : Ty)
  | void
  deriving DecidableEq, Repr

/-- Values an operand can name. -/
inductive Value where
  | inst (id : Nat)
  | global (id : Nat)
  | arg (id : Nat)
  | constInt (bits : Nat) (v : Nat)
  | gepExpr (base : Nat) (idx : List Nat)
  | undef
  deriving DecidableEq, Repr

/-- Debug type descriptors: a basic type or a type derived from a base. -/
inductive DIType where
  | basic (id : Nat)
  | derived (base : DIType)
  deriving DecidableEq, Repr

/-- Debug variable: the source name, how many times `deref.` was put in
front of it, its line and its type. -/
structure DIVariable where
  name : Nat
  deref : Nat
  line : Nat
  type : DIType
  deriving DecidableEq, Repr

/-- Source location. -/
structure DILocation where
  line : Nat
  col : Nat
  scope : Nat
  deriving DecidableEq, Repr

/-- Instruction kinds with their operands. -/
inductive Kind where
  | alloca (allocTy : Ty) (arraySize : Value)
  | load (ptr : Value) (isVolatile : Bool)
  | store (val : Value) (ptr : Value)
  | gep (srcTy : Ty) (ptr : Value) (idx : List Value)
  | call (callee : Nat) (args : List Value)
  | dbgValue (val : Value) (var : Option DIVariable) (expr : List Nat)
  | dbgDeclare (addr : Value) (var : DIVariable)
  | lifetime (isStart : Bool) (ptr : Value)
  | phi (incoming : List (Value × Nat))
  | add (a : Value) (b : Value)
  | sub (a : Value) (b : Value)
  | cast (a : Value)
  | icmpSlt (a : Value) (b : Value)
  | br (dest : Nat)
  | condBr (cond : Value) (ifTrue : Nat) (ifFalse : Nat)
  | switch (cond : Value) (dflt : Nat) (cases : List (Value × Nat))
  | ret
  deriving DecidableEq, Repr

/-- An instruction: its identity, result type, kind and debug location. -/
structure Inst where
  id : Nat
  ty : Ty
  kind : Kind
  dbg : Option DILocation
  deriving DecidableEq, Repr

/-- A basic block: its identity and its instruction list. -/
structure BasicBlock where
  id : Nat
  insts : List Inst
  deriving DecidableEq, Repr

/-- A global variable: value type and, when it has one, the type of its
initializer (operand 0). -/
structure GlobalVariable where
  id : Nat
  valueTy : Ty
  init : Option Ty
  deriving DecidableEq, Repr

/-- A function: block list in layout order, the globals of its module, and
the next unused instruction and block identities. -/
structure Func where
  blocks : List BasicBlock
  globals : List GlobalVariable
  nextInst : Nat
  nextBlock : Nat
  deriving DecidableEq, Repr

/-- A loop as the loop oracle reports it: its block list. -/
structure Loop where
  blocks : List Nat
  deriving DecidableEq, Repr

/-! ## IR queries -/

def Kind.operands : Kind → List Value
  | .alloca _ n => [n]
  | .load p _ => [p]
  | .store v p => [v, p]
  | .gep _ p idx => p :: idx
  | .call _ args => args
  | .dbgValue _ _ _ => []
  | .dbgDeclare _ _ => []
  | .lifetime _ p => [p]
  | .phi inc => inc.map (fun p => p.1)
  | .add a b => [a, b]
  | .sub a b => [a, b]
  | .cast a => [a]
  | .icmpSlt a b => [a, b]
  | .br _ => []
  | .condBr c _ _ => [c]
  | .switch c _ cases => c :: cases.map (fun p => p.1)
  | .ret => []

def Kind.successors : Kind → List Nat
  | .br d => [d]
  | .condBr _ t f => [t, f]
  | .switch _ d cases => d :: cases.map (fun p => p.2)
  | _ => []

def Kind.isLoad : Kind → Bool
  | .load _ _ => true
  | _ => false

def Kind.isStore : Kind → Bool
  | .store _ _ => true
  | _ => false

def Kind.isGEP : Kind → Bool
  | .gep _ _ _ => true
  | _ => false

def Kind.isPHI : Kind → Bool
  | .phi _ => true
  | _ => false

/-- The kinds that are `CallInst`s and can be users of a value. -/
def Kind.isCall : Kind → Bool
  | .call _ _ => true
  | .lifetime _ _ => true
  | _ => false

/-- Debug-info intrinsics. -/
def Kind.isDbgInfoIntrinsic : Kind → Bool
  | .dbgValue _ _ _ => true
  | .dbgDeclare _ _ => true
  | _ => false

/-- Lifetime markers. -/
def Kind.isMemoryMarkerIntrinsic : Kind → Bool
  | .lifetime _ _ => true
  | _ => false

/-- Pointer operand of a load, a store or an indexing instruction. -/
def Kind.getPointerOperand : Kind → Option Value
  | .load p _ => some p
  | .store _ p => some p
  | .gep _ p _ => some p
  | _ => none

def substVal (old new v : Value) : Value := if v = old then new else v

/-- Rewrite every use of `old` in an instruction by `new`, the metadata use
of a debug value included. -/
def Kind.subst (old new : Value) : Kind → Kind
  | .alloca t n => .alloca t (substVal old new n)
  | .load p v => .load (substVal old new p) v
  | .store v p => .store (substVal old new v) (substVal old new p)
  | .gep t p idx => .gep t (substVal old new p) (idx.map (substVal old new))
  | .call c args => .call c (args.map (substVal old new))
  | .dbgValue v var e => .dbgValue (substVal old new v) var e
  | .dbgDeclare a var => .dbgDeclare a var
  | .lifetime s p => .lifetime s (substVal old new p)
  | .phi inc => .phi (inc.map (fun p => (substVal old new p.1, p.2)))
  | .add a b => .add (substVal old new a) (substVal old new b)
  | .sub a b => .sub (substVal old new a) (substVal old new b)
  | .cast a => .cast (substVal old new a)
  | .icmpSlt a b => .icmpSlt (substVal old new a) (substVal old new b)
  | .br d => .br d
  | .condBr c t f => .condBr (substVal old new c) t f
  | .switch c d cases => .switch (substVal old new c) d cases
  | .ret => .ret

def Ty.getPointerElementType : Ty → Option Ty
  | .ptr t => some t
  | _ => none

def BasicBlock.successors (b : BasicBlock) : List Nat :=
  match b.insts.getLast? with
  | some t => t.kind.successors
  | none => []

def Func.findBlock (F : Func) (bb : Nat) : Option BasicBlock :=
  F.blocks.find? (fun b => b.id == bb)

def Func.blockInsts (F : Func) (bb : Nat) : List Inst :=
  match F.findBlock bb with
  | some b => b.insts
  | none => []

/-- Every instruction together with the block that holds it. -/
def Func.instsWithParent (F : Func) : List (Nat × Inst) :=
  F.blocks.flatMap (fun b => b.insts.map (fun i => (b.id, i)))

def Func.findInst (F : Func) (id : Nat) : Option Inst :=
  (F.instsWithParent.find? (fun p => p.2.id == id)).map (fun p => p.2)

/-- Block holding the instruction, `Instruction::getParent`. -/
def Func.parentOf (F : Func) (id : Nat) : Option Nat :=
  (F.instsWithParent.find? (fun p => p.2.id == id)).map (fun p => p.1)

def Func.successors (F : Func) (bb : Nat) : List Nat :=
  match F.findBlock bb with
  | some b => b.successors
  | none => []

/-- Predecessors, one entry per use of the block by a terminator. -/
def Func.predecessors (F : Func) (bb : Nat) : List Nat :=
  F.instsWithParent.flatMap
    (fun p => (p.2.kind.successors.filter (fun s => s == bb)).map (fun _ => p.1))

def Func.pred_size (F : Func) (bb : Nat) : Nat := (F.predecessors bb).length

def Func.getSinglePredecessor (F : Func) (bb : Nat) : Option Nat :=
  match F.predecessors bb with
  | [p] => some p
  | _ => none

/-- Users of a value with their parent block, one entry per use. -/
def Func.users (F : Func) (v : Value) : List (Nat × Inst) :=
  F.instsWithParent.flatMap
    (fun p => (p.2.kind.operands.filter (fun o => o == v)).map (fun _ => p))

def Func.user_empty (F : Func) (v : Value) : Bool := (F.users v).isEmpty

def Func.typeOf (F : Func) : Value → Option Ty
  | .inst id => (F.findInst id).map (fun i => i.ty)
  | .global g => (F.globals.find? (fun x => x.id == g)).map (fun x => Ty.ptr x.valueTy)
  | .constInt bits _ => some (.int bits)
  | _ => none

/-! ## IR mutation -/

def BasicBlock.mapInsts (f : Inst → Inst) (b : BasicBlock) : BasicBlock :=
  { b with insts := b.insts.map f }

def Func.mapBlocks (F : Func) (f : BasicBlock → BasicBlock) : Func :=
  { F with blocks := F.blocks.map f }

def Func.mapInsts (F : Func) (f : Inst → Inst) : Func :=
  F.mapBlocks (BasicBlock.mapInsts f)

/-- `Value::replaceAllUsesWith`. -/
def Func.replaceAllUsesWith (F : Func) (old new : Value) : Func :=
  F.mapInsts (fun i => { i with kind := i.kind.subst old new })

/-- `dropAllReferences` followed by `eraseFromParent`. -/
def Func.erase (F : Func) (id : Nat) : Func :=
  F.mapBlocks (fun b => { b with insts := b.insts.filter (fun i => i.id != id) })

def insertBeforeList (pos : Nat) (n : Inst) : List Inst → List Inst
  | [] => []
  | i :: rest => if i.id == pos then n :: i :: rest else i :: insertBeforeList pos n rest

/-- Insert `n` right before the instruction `pos`. -/
def Func.insertBefore (F : Func) (pos : Nat) (n : Inst) : Func :=
  F.mapBlocks (fun b => { b with insts := insertBeforeList pos n b.insts })

/-- Append `n` at the end of block `bb`. -/
def Func.insertAtEnd (F : Func) (bb : Nat) (n : Inst) : Func :=
  F.mapBlocks (fun b => if b.id == bb then { b with insts := b.insts ++ [n] } else b)

def Func.setDebugLoc (F : Func) (id : Nat) (loc : Option DILocation) : Func :=
  F.mapInsts (fun i => if i.id == id then { i with dbg := loc } else i)

def Func.setKind (F : Func) (id : Nat) (k : Kind) : Func :=
  F.mapInsts (fun i => if i.id == id then { i with kind := k } else i)

/-- Reserve a new instruction identity. -/
def Func.fresh (F : Func) : Nat × Func := (F.nextInst, { F with nextInst := F.nextInst + 1 })

def BasicBlock.getFirstNonPHI (b : BasicBlock) : Option Inst :=
  b.insts.find? (fun i => !i.kind.isPHI)

def BasicBlock.getFirstNonPHIOrDbgOrLifetime (b : BasicBlock) : Option Inst :=
  b.insts.find? (fun i => !(i.kind.isPHI || i.kind.isDbgInfoIntrinsic
    || i.kind.isMemoryMarkerIntrinsic))

/-! ## Loop oracle -/

def Loop.contains (L : Loop) (bb : Nat) : Bool := L.blocks.contains bb

/-- `getExitBlocks`: one entry per edge that leaves the loop. -/
def Loop.getExitBlocks (L : Loop) (F : Func) : List Nat :=
  L.blocks.flatMap (fun b => (F.successors b).filter (fun s => !L.contains s))

/-- `getExitingBlocks`: the loop blocks with a successor outside the loop. -/
def Loop.getExitingBlocks (L : Loop) (F : Func) : List Nat :=
  L.blocks.filter (fun b => (F.successors b).any (fun s => !L.contains s))

/-- `getExitingBlock`: the exiting block when there is exactly one. -/
def Loop.getExitingBlock (L : Loop) (F : Func) : Option Nat :=
  match L.getExitingBlocks F with
  | [b] => some b
  | _ => none

def Loop.getHeader (L : Loop) : Option Nat := L.blocks.head?

/-- `getLoopPredecessor`: the only block outside the loop that branches to
the header, when there is exactly one such block. -/
def Loop.getLoopPredecessor (L : Loop) (F : Func) : Option Nat :=
  match L.getHeader with
  | none => none
  | some h =>
    match (F.predecessors h).filter (fun p => !L.contains p) with
    | [] => none
    | p :: rest => if rest.all (fun q => q == p) then some p else none

def Kind.isTerminator : Kind → Bool
  | .br _ => true
  | .condBr _ _ _ => true
  | .switch _ _ _ => true
  | .ret => true
  | _ => false

/-- `getTerminator`: the last instruction when it is a terminator. -/
def BasicBlock.getTerminator (b : BasicBlock) : Option Inst :=
  match b.insts.getLast? with
  | some t => if t.kind.isTerminator then some t else none
  | none => none

/-- `SetVector::insert`: append unless already present. -/
def setInsert (xs : List Nat) (x : Nat) : List Nat :=
  if xs.contains x then xs else xs ++ [x]

/-- Redirect the incoming block `old` of a merge node to `new`. -/
def Kind.replaceIncomingBlock (old new : Nat) : Kind → Kind
  | .phi inc => .phi (inc.map (fun p => (p.1, if p.2 == old then new else p.2)))
  | k => k

def splitAtInst (pos : Nat) : List Inst → List Inst × List Inst
  | [] => ([], [])
  | i :: rest =>
    if i.id == pos then ([], i :: rest)
    else (i :: (splitAtInst pos rest).1, (splitAtInst pos rest).2)

/-- `BasicBlock::splitBasicBlock(I)`: the instructions from `I` on move to a
new block placed right after `bb`; `bb` ends with a branch to it carrying the
debug location of `I`; merge nodes in the successors of the new block now
name the new block as origin.  Returns the new block. -/
def Func.splitBasicBlock (F : Func) (bb : Nat) (pos : Inst) : Nat × Func :=
  let newBB := F.nextBlock
  let brId := F.nextInst
  let br : Inst := { id := brId, ty := .void, kind := .br newBB, dbg := pos.dbg }
  let moved := (splitAtInst pos.id (F.blockInsts bb)).2
  let succs := (BasicBlock.mk newBB moved).successors
  let blocks1 := F.blocks.flatMap (fun b =>
    if b.id == bb then
      [{ b with insts := (splitAtInst pos.id b.insts).1 ++ [br] },
       { id := newBB, insts := (splitAtInst pos.id b.insts).2 }]
    else [b])
  let blocks2 := blocks1.map (fun b =>
    if succs.contains b.id then
      BasicBlock.mapInsts (fun i => { i with kind := i.kind.replaceIncomingBlock bb newBB }) b
    else b)
  (newBB, { F with blocks := blocks2, nextInst := brId + 1, nextBlock := newBB + 1 })

/-! ## ArrayScalarize.cpp -/

/-- Array type seen through `dyn_cast<ArrayType>`: element count and element
type, or `none` for the null result. -/
def Ty.asArrayType : Ty → Option (Nat × Ty)
  | .array n e => some (n, e)
  | _ => none

/-- Per-candidate context of the array scalarizer. -/
structure arrayScalarizeContext where
  V : Value
  ArrType : Option (Nat × Ty)
  ScalarGEPList : List Nat
  deriving DecidableEq, Repr

/-- The largest value of the type `int` of the loop counters. -/
def INT_MAX : Nat := 2 ^ 31 - 1

/-- Loop `for (int i = 0; i < ArrType->getNumElements(); ++i)` of
`insertScalars` from index `i` for `k` more elements.  The index constant is
made in the 64-bit integer type.  The counter is an `int`: the increment
`++i` at the end of an iteration overflows when `i` is `INT_MAX`, which is the
result `none`. -/
def insertScalarsFrom (V : Value) (n : Nat) (elem : Ty) (term : Option Nat) :
    Nat → Nat → Func → List Nat → Option (Func × List Nat)
  | _, 0, F, acc => some (F, acc)
  | i, k + 1, F, acc =>
    let gep : Inst :=
      { id := F.nextInst, ty := .ptr elem,
        kind := .gep (.array n elem) V [.constInt 64 0, .constInt 64 (i % 2 ^ 64)],
        dbg := none }
    let F1 := (F.fresh).2
    let F2 := match term with
      | some t => F1.insertBefore t gep
      | none => F1
    if i + 1 ≤ INT_MAX then
      insertScalarsFrom V n elem term (i + 1) k F2 (setInsert acc gep.id)
    else none

/-- `arrayScalarizeContext::insertScalars`: one element access per index,
placed before the terminator of `InsertAtEnd`. -/
def arrayScalarizeContext.insertScalars (Ctx : arrayScalarizeContext) (F : Func)
    (InsertAtEnd : Option Nat) : Option (Func × arrayScalarizeContext) :=
  match InsertAtEnd, Ctx.ArrType with
  | some bb, some (n, elem) =>
    match F.findBlock bb with
    | none => none
    | some b =>
      match insertScalarsFrom Ctx.V n elem (b.getTerminator.map (fun t => t.id))
          0 n F Ctx.ScalarGEPList with
      | none => none
      | some r => some (r.1, { Ctx with ScalarGEPList := r.2 })
  | _, _ => none

/-- Split record: the block before the split, the block after it and the
run-time index. -/
structure splitBBInfo where
  Begin : Nat
  End : Nat
  IdxValue : Value
  deriving DecidableEq, Repr

/-- `SwitchInst::addCase`. -/
def Kind.addCase (val : Value) (dest : Nat) : Kind → Kind
  | .switch c d cases => .switch c d (cases ++ [(val, dest)])
  | k => k

def Func.addCase (F : Func) (sw : Nat) (val : Value) (dest : Nat) : Func :=
  F.mapInsts (fun i => if i.id == sw then { i with kind := i.kind.addCase val dest } else i)


/-- `BasicBlock::Create(.., &F)`: a new empty block at the end of the
function. -/
def Func.createBlock (F : Func) : Nat × Func :=
  (F.nextBlock, { F with blocks := F.blocks ++ [{ id := F.nextBlock, insts := [] }],
                         nextBlock := F.nextBlock + 1 })

/-- Case loop `for (int i = 0; i < Ctx.ArrType->getNumElements(); ++i)` of
`createBBSwitch`, at index `i` with `k` iterations left: a new block that
branches to `End`, a load of slot `i` in front of that branch, and the case
`i`, a constant of the type of the index value, on the dispatch.  Returns the
function and the inserted loads.  The counter is an `int`: the increment
`++i` at the end of an iteration overflows when `i` is `INT_MAX`, which is the
result `none`. -/
def createCases (Ctx : arrayScalarizeContext) (Info : splitBBInfo) (sw : Nat)
    (idxBits : Nat) : Nat → Nat → Func → List Nat → Option (Func × List Nat)
  | _, 0, F, loads => some (F, loads)
  | i, k + 1, F, loads =>
    let val := Value.constInt idxBits (i % 2 ^ idxBits)
    let newBB := (F.createBlock).1
    let F1 := (F.createBlock).2
    let br : Inst := { id := F1.nextInst, ty := .void, kind := .br Info.End, dbg := none }
    let F2 := ((F1.fresh).2).insertAtEnd newBB br
    match Ctx.ScalarGEPList[i]? with
    | none => none
    | some slot =>
      match (F2.typeOf (.inst slot)).bind Ty.getPointerElementType with
      | none => none
      | some elemTy =>
        let load : Inst :=
          { id := F2.nextInst, ty := elemTy, kind := .load (.inst slot) false, dbg := none }
        let F3 := ((F2.fresh).2).insertBefore br.id load
        let F4 := F3.addCase sw val newBB
        if i + 1 ≤ INT_MAX then
          createCases Ctx Info sw idxBits (i + 1) k F4 (setInsert loads load.id)
        else none

/-- The function after one iteration of the case loop of `createCases`, for
a slot whose element type is known. -/
def caseStep (F : Func) (End sw : Nat) (val : Value) (slot : Nat) (elemTy : Ty) : Func :=
  let newBB := (F.createBlock).1
  let F1 := (F.createBlock).2
  let br : Inst := { id := F1.nextInst, ty := .void, kind := .br End, dbg := none }
  let F2 := ((F1.fresh).2).insertAtEnd newBB br
  let load : Inst :=
    { id := F2.nextInst, ty := elemTy, kind := .load (.inst slot) false, dbg := none }
  let F3 := ((F2.fresh).2).insertBefore br.id load
  F3.addCase sw val newBB

/-- Loop `while (!GEP->user_empty())`: the first user is replaced by the
merge node everywhere and erased. -/
def eraseUsers (gep : Nat) (phi : Nat) : Nat → Func → Option Func
  | 0, _ => none
  | fuel + 1, F =>
    match F.users (.inst gep) with
    | [] => some F
    | (_, u) :: _ =>
      eraseUsers gep phi fuel ((F.replaceAllUsesWith (.inst u.id) (.inst phi)).erase u.id)

/-- Loop `phiNode->addIncoming(load, load->getParent())`. -/
def incomingOfLoads (F : Func) : List Nat → Option (List (Value × Nat))
  | [] => some []
  | l :: rest =>
    match F.parentOf l, incomingOfLoads F rest with
    | some bb, some inc => some ((.inst l, bb) :: inc)
    | _, _ => none

/-- Bit width of the integer type of a value. -/
def Func.typeBits (F : Func) (v : Value) : Option Nat :=
  match F.typeOf v with
  | some (.int b) => some b
  | _ => none

/-- `createBBSwitch`. -/
def createBBSwitch (F : Func) (Ctx : arrayScalarizeContext) (Info : splitBBInfo) :
    Option Func :=
  if Ctx.ScalarGEPList.isEmpty then some F else
  match F.findBlock Info.Begin with
  | none => none
  | some begin =>
    match begin.insts.getLast?, Ctx.ArrType, F.typeBits Info.IdxValue with
    | some back, some (n, _), some idxBits =>
      let F1 := F.erase back.id
      let sw : Inst :=
        { id := F1.nextInst, ty := .void, kind := .switch Info.IdxValue Info.End [],
          dbg := none }
      let F2 := ((F1.fresh).2).insertAtEnd Info.Begin sw
      match createCases Ctx Info sw.id idxBits 0 n F2 [] with
      | none => none
      | some (F3, insertedLoads) =>
        match Ctx.ScalarGEPList.head?.bind
            (fun s => (F3.typeOf (.inst s)).bind Ty.getPointerElementType),
          (F3.findBlock Info.End).bind BasicBlock.getFirstNonPHIOrDbgOrLifetime with
        | some phiType, some GEP =>
          let phiId := F3.nextInst
          let F4 := (F3.fresh).2
          match eraseUsers GEP.id phiId (F4.instsWithParent.length + 1) F4 with
          | none => none
          | some F5 =>
            let F6 := F5.erase GEP.id
            match (F6.blockInsts Info.End).head?, incomingOfLoads F6 insertedLoads with
            | some front, some inc =>
              some (F6.insertBefore front.id
                { id := phiId, ty := phiType, kind := .phi inc, dbg := none })
            | _, _ => none
        | _, _ => none
    | _, _, _ => none

/-- One memory location of a def/use summary. -/
structure MemoryLocation where
  Ptr : Value
  deriving DecidableEq, Repr

/-- Def/use summary of one function. -/
structure DefUseSet where
  Uses : List MemoryLocation
  Defs : List MemoryLocation
  deriving DecidableEq, Repr

/-- Array candidates an indexing instruction contributes: the global whose
pointee type is an array, and the stack allocation whose operand 0 has an
array type. -/
def collectFromInst (F : Func) (acc : List Nat × List Nat) (i : Inst) :
    List Nat × List Nat :=
  match i.kind with
  | .gep _ sourceOp _ =>
    let GlobalAT :=
      match sourceOp with
      | .global g =>
        match (F.typeOf (.global g)).bind Ty.getPointerElementType with
        | some (.array _ _) => setInsert acc.1 g
        | _ => acc.1
      | _ => acc.1
    let LocalAT :=
      match sourceOp with
      | .inst a =>
        match F.findInst a with
        | some { kind := .alloca _ op0, .. } =>
          match F.typeOf op0 with
          | some (.array _ _) => setInsert acc.2 a
          | _ => acc.2
        | _ => acc.2
      | _ => acc.2
    (GlobalAT, LocalAT)
  | _ => acc

/-- Candidate collection of `ArrayScalarizePass::runOnFunction`: the sets
`GlobalAT` and `LocalAT`. -/
def collectArrays (F : Func) (L : Loop) : List Nat × List Nat :=
  L.blocks.foldl (fun acc bb => (F.blockInsts bb).foldl (collectFromInst F) acc) ([], [])

/-- Body of the loop `for (auto *AT : GlobalAT)` for one summary: the
candidate is marked when a use or a def of the summary names it. -/
def deleteStep (s : DefUseSet) (acc : List Nat) (AT : Nat) : List Nat :=
  s.Defs.foldl
    (fun acc Def => if Value.global AT == Def.Ptr then setInsert acc AT else acc)
    (s.Uses.foldl
      (fun acc Use => if Value.global AT == Use.Ptr then setInsert acc AT else acc) acc)

/-- The set `GlobalsToDelete`: candidates named by a use or a def of a
function other than the current one. -/
def globalsToDelete (fid : Nat) (GDM : List (Nat × DefUseSet)) (GlobalAT : List Nat) :
    List Nat :=
  GDM.foldl (fun acc it =>
    if it.1 == fid then acc else GlobalAT.foldl (deleteStep it.2) acc) []

/-- Candidates left after the erasure of `GlobalsToDelete`. -/
def filterGlobals (fid : Nat) (GDM : List (Nat × DefUseSet)) (GlobalAT : List Nat) :
    List Nat :=
  (globalsToDelete fid GDM GlobalAT).foldl (fun acc gl => acc.erase gl) GlobalAT

/-- Context of a global candidate: the array type is read from operand 0,
the initializer; without initializer the operand access faults. -/
def globalContext (F : Func) (g : Nat) : Option arrayScalarizeContext :=
  match F.globals.find? (fun x => x.id == g) with
  | some gv =>
    match gv.init with
    | some t => some { V := .global g, ArrType := t.asArrayType, ScalarGEPList := [] }
    | none => none
  | none => none

/-- Context of a local candidate: the array type is the pointee of the
allocation result type. -/
def localContext (F : Func) (a : Nat) : Option arrayScalarizeContext :=
  match F.typeOf (.inst a) with
  | some t =>
    some { V := .inst a, ArrType := (t.getPointerElementType).bind Ty.asArrayType,
           ScalarGEPList := [] }
  | none => none

/-- Contexts of a list of candidates; a fault in one of them is a fault. -/
def mapContexts (f : Nat → Option arrayScalarizeContext) :
    List Nat → Option (List arrayScalarizeContext)
  | [] => some []
  | x :: rest =>
    match f x, mapContexts f rest with
    | some c, some cs => some (c :: cs)
    | _, _ => none

/-- The list `Ctxs`: global candidates first, then local ones. -/
def makeContexts (F : Func) (GlobalAT LocalAT : List Nat) :
    Option (List arrayScalarizeContext) :=
  match mapContexts (globalContext F) GlobalAT, mapContexts (localContext F) LocalAT with
  | some gs, some ls => some (gs ++ ls)
  | _, _ => none

/-- Loop `for (auto &Ctx : Ctxs) Ctx.insertScalars(L->getLoopPredecessor())`. -/
def insertAllScalars (InsertAtEnd : Option Nat) :
    List arrayScalarizeContext → Func → Option (Func × List arrayScalarizeContext)
  | [], F => some (F, [])
  | Ctx :: rest, F =>
    match Ctx.insertScalars F InsertAtEnd with
    | none => none
    | some (F1, Ctx1) =>
      match insertAllScalars InsertAtEnd rest F1 with
      | none => none
      | some (F2, rest1) => some (F2, Ctx1 :: rest1)

/-- One pass `for (auto *BB : L->getBlocks())` of the split scan: in each
block the first indexing instruction splits the block. -/
def scanBlocks : List Nat → Func → List splitBBInfo → Bool →
    Option (Func × List splitBBInfo × Bool)
  | [], F, BBInfo, hasSplit => some (F, BBInfo, hasSplit)
  | BB :: rest, F, BBInfo, hasSplit =>
    match (F.blockInsts BB).find? (fun i => i.kind.isGEP) with
    | none => scanBlocks rest F BBInfo hasSplit
    | some GEP =>
      match GEP.kind.operands[2]? with
      | none => none
      | some idxVal =>
        let r := F.splitBasicBlock BB GEP
        scanBlocks rest r.2 (BBInfo ++ [{ Begin := BB, End := r.1, IdxValue := idxVal }]) true

/-- Loop `while (true)` of the split scan. -/
def scanLoop (L : Loop) : Nat → Func → List splitBBInfo → Option (Func × List splitBBInfo)
  | 0, _, _ => none
  | fuel + 1, F, BBInfo =>
    match scanBlocks L.blocks F BBInfo false with
    | none => none
    | some (F1, BBInfo1, hasSplit) =>
      if hasSplit then scanLoop L fuel F1 BBInfo1 else some (F1, BBInfo1)

/-- Loop `for (auto &Info : BBInfo) createBBSwitch(F, Ctx, Info)`. -/
def createAllSwitches (Ctx : arrayScalarizeContext) : List splitBBInfo → Func → Option Func
  | [], F => some F
  | Info :: rest, F =>
    match createBBSwitch F Ctx Info with
    | none => none
    | some F1 => createAllSwitches Ctx rest F1

/-- Loop over the contexts: scan, then build the dispatches. -/
def scalarizeAll (L : Loop) : List arrayScalarizeContext → Func → Option Func
  | [], F => some F
  | Ctx :: rest, F =>
    match scanLoop L (F.instsWithParent.length + 2) F [] with
    | none => none
    | some (F1, BBInfo) =>
      match createAllSwitches Ctx BBInfo F1 with
      | none => none
      | some F2 => scalarizeAll L rest F2

/-- The contexts `ArrayScalarizePass::runOnFunction` creates for one loop. -/
def arrayCandidates (fid : Nat) (GDM : List (Nat × DefUseSet)) (F : Func) (L : Loop) :
    Option (List arrayScalarizeContext) :=
  makeContexts F (filterGlobals fid GDM (collectArrays F L).1) (collectArrays F L).2

/-- Body of `ArrayScalarizePass::runOnFunction` for one loop. -/
def ArrayScalarizePass.runOnLoop (fid : Nat) (GDM : List (Nat × DefUseSet)) (F : Func)
    (L : Loop) : Option Func :=
  match arrayCandidates fid GDM F L with
  | none => none
  | some Ctxs =>
    match insertAllScalars (L.getLoopPredecessor F) Ctxs F with
    | none => none
    | some (F1, Ctxs1) => scalarizeAll L Ctxs1 F1

/-- `ArrayScalarizePass::runOnFunction` over the loops of the function. -/
def ArrayScalarizePass.runOnFunction (fid : Nat) (GDM : List (Nat × DefUseSet))
    (loops : List Loop) (F : Func) : Option Func :=
  loops.foldlM (ArrayScalarizePass.runOnLoop fid GDM) F

/-! ## PointerReduction.cpp -/

/-- Lookup in a map kept as an association list. -/
def mapFind {α : Type} (m : List (Nat × α)) (k : Nat) : Option α :=
  (m.find? (fun p => p.1 == k)).map (fun p => p.2)

/-- Assignment `m[k] = v`. -/
def mapSet {α : Type} (m : List (Nat × α)) (k : Nat) (v : α) : List (Nat × α) :=
  if m.any (fun p => p.1 == k) then m.map (fun p => if p.1 == k then (k, v) else p)
  else m ++ [(k, v)]

/-- Read `m[k]` of a map of pointers: a missing key is inserted with the null
pointer. -/
def mapIndex {α : Type} (m : List (Nat × Option α)) (k : Nat) :
    Option α × List (Nat × Option α) :=
  match mapFind m k with
  | some v => (v, m)
  | none => (none, m ++ [(k, none)])

/-- `DenseMap::insert` of one pair: an existing key keeps its value. -/
def mapInsertNew {α : Type} (m : List (Nat × α)) (k : Nat) (v : α) : List (Nat × α) :=
  if m.any (fun p => p.1 == k) then m else m ++ [(k, v)]

/-- Link of the merge tree: a merge node, or a parent link named by the
block that owns it. -/
structure phiNodeLink where
  phiNode : Option Nat
  parent : Option Nat
  deriving DecidableEq, Repr

/-- Per-candidate context of the pointer reducer. -/
structure PtrRedContext where
  V : Value
  DbgVar : Option DIVariable
  DbgLoc : Option DILocation
  F : Func
  L : Loop
  InsertedLoads : List Nat
  PhiLinks : List (Nat × Option phiNodeLink)
  UniqueNodes : List Nat
  LastInstructions : List (Nat × Option Nat)
  ChangedLastInst : List Nat
  ValueChanged : Bool
  deriving DecidableEq, Repr

/-- `phiNodeLink::getPhi` on the link owned by block `bb`. -/
def getPhi (links : List (Nat × Option phiNodeLink)) : Nat → Nat → Option Nat
  | 0, _ => none
  | fuel + 1, bb =>
    match mapFind links bb with
    | some (some link) =>
      match link.phiNode with
      | some phi => some phi
      | none =>
        match link.parent with
        | some p => getPhi links fuel p
        | none => none
    | _ => none

def Loop.containsInst (L : Loop) (p : Nat × Inst) : Bool := L.contains p.1

/-- `hasVolatileLoadInstInLoop`. -/
def hasVolatileLoadInstInLoop (F : Func) (V : Value) (L : Loop) : Bool :=
  (F.users V).any (fun User =>
    match User.2.kind with
    | .load _ isVolatile => L.containsInst User && isVolatile
    | _ => false)

/-- `dyn_cast<GEPOperator>`: an indexing instruction or an indexing constant
expression. -/
def isGEPOperator (F : Func) : Value → Bool
  | .gepExpr _ _ => true
  | .inst id =>
    match F.findInst id with
    | some i => i.kind.isGEP
    | none => false
  | _ => false

/-- User loop of `validateValue`. -/
def validateUsers (F : Func) (L : Loop) (ValueChanged : Bool) : List (Nat × Inst) → Bool
  | [] => true
  | User :: rest =>
    if ValueChanged && User.2.kind.isStore && L.containsInst User then false
    else if User.2.kind.isGEP && L.containsInst User then false
    else if User.2.kind.isCall
        && (L.contains User.1 && some User.1 != L.getExitingBlock F) then false
    else validateUsers F L ValueChanged rest

/-- `validateValue`. -/
def validateValue (Ctx : PtrRedContext) : Bool :=
  if isGEPOperator Ctx.F Ctx.V then false
  else validateUsers Ctx.F Ctx.L Ctx.ValueChanged (Ctx.F.users Ctx.V)

/-- `firstDebugLocInRange`. -/
def firstDebugLocInRange : List Inst → Option DILocation
  | [] => none
  | I :: rest =>
    match I.dbg with
    | none => firstDebugLocInRange rest
    | some loc =>
      if I.kind.isDbgInfoIntrinsic || I.kind.isMemoryMarkerIntrinsic then
        firstDebugLocInRange rest
      else some loc

/-- `insertDbgValueCall`. -/
def insertDbgValueCall (ctx : PtrRedContext) (I : Nat) (InsertBefore : Option Nat)
    (add : Bool) : Option PtrRedContext :=
  match ctx.F.parentOf I with
  | none => none
  | some parent =>
    match firstDebugLocInRange (ctx.F.blockInsts parent) with
    | none => none
    | some _ =>
      let F1 := if add then ctx.F.setDebugLoc I ctx.DbgLoc else ctx.F
      match ctx.DbgVar, ctx.DbgLoc with
      | some var, some loc =>
        let call : Inst :=
          { id := F1.nextInst, ty := .void, kind := .dbgValue (.inst I) (some var) [],
            dbg := some loc }
        let F2 := (F1.fresh).2
        let F3 := match InsertBefore with
          | some pos => F2.insertBefore pos call
          | none => F2
        some { ctx with F := F3 }
      | _, _ => none

/-- Last instruction of a block, `BasicBlock::back`. -/
def Func.back (F : Func) (bb : Nat) : Option Inst := (F.blockInsts bb).getLast?

/-- `insertLoadInstructions`. -/
def insertLoadInstructions (ctx : PtrRedContext) : Option PtrRedContext :=
  match ctx.L.getLoopPredecessor ctx.F with
  | none => none
  | some PH =>
    match ctx.F.back PH, (ctx.F.typeOf ctx.V).bind Ty.getPointerElementType with
    | some back, some ty =>
      let BeforeInstr : Inst :=
        { id := ctx.F.nextInst, ty := ty, kind := .load ctx.V false, dbg := none }
      let ctx1 : PtrRedContext :=
        { ctx with F := ((ctx.F.fresh).2).insertBefore back.id BeforeInstr,
                   InsertedLoads := ctx.InsertedLoads ++ [BeforeInstr.id] }
      match insertDbgValueCall ctx1 BeforeInstr.id (some back.id) true with
      | none => none
      | some ctx2 =>
        if ctx2.ValueChanged then
          match ty.getPointerElementType with
          | none => none
          | some ty2 =>
            let BeforeInstr2 : Inst :=
              { id := ctx2.F.nextInst, ty := ty2, kind := .load (.inst BeforeInstr.id) false,
                dbg := none }
            some { ctx2 with F := ((ctx2.F.fresh).2).insertBefore back.id BeforeInstr2,
                             InsertedLoads := ctx2.InsertedLoads ++ [BeforeInstr2.id] }
        else some ctx2
    | _, _ => none

/-- The pointer `storeVal` of `insertStoreInstructions`: the first inserted
load when the pointee is reassigned, else the candidate. -/
def exitStoreValue (ctx : PtrRedContext) : Option Value :=
  if ctx.ValueChanged then ctx.InsertedLoads.head?.map Value.inst else some ctx.V

/-- Store inserted by `insertStoreInstructions` in exit block `BB`. -/
def insertExitStore (ctx : PtrRedContext) (BB : Nat) : Option PtrRedContext :=
  let r := mapIndex ctx.LastInstructions BB
  match r.1, exitStoreValue ctx, ctx.F.findBlock BB with
  | some last, some ptr, some b =>
    let store : Inst :=
      { id := ctx.F.nextInst, ty := .void, kind := .store (.inst last) ptr, dbg := none }
    let F1 := (ctx.F.fresh).2
    let F2 := match b.getFirstNonPHI with
      | some pos => F1.insertBefore pos.id store
      | none => F1
    some { ctx with F := F2, LastInstructions := r.2 }
  | _, _, _ => none

/-- `insertStoreInstructions`. -/
def insertStoreInstructions (ctx : PtrRedContext) : Option PtrRedContext :=
  (ctx.L.getExitBlocks ctx.F).foldlM insertExitStore ctx

/-- Inner loop of `getAllStoreOperands`: the first store among the users of
`ChildInst` whose pointer operand is `ptr`. -/
def findStoreUser (F : Func) (ptr : Option Value) (ChildInst : Nat) : Option Nat :=
  ((F.users (.inst ChildInst)).find? (fun ChildUser =>
    ChildUser.2.kind.isStore && ChildUser.2.kind.getPointerOperand == ptr)).map
    (fun p => p.2.id)

/-- `getAllStoreOperands`. -/
def getAllStoreOperands (F : Func) (I : Inst) (Stores : List (Nat × Nat)) :
    List (Nat × Nat) :=
  (F.users (.inst I.id)).foldl (fun Stores User =>
    match findStoreUser F I.kind.getPointerOperand User.2.id with
    | some Store => mapSet Stores Store User.2.id
    | none => Stores) Stores

/-- Scan state of `handleLoadsInBB`. -/
structure ScanState where
  ctx : PtrRedContext
  loads : List Nat
  stores : List (Nat × Nat)
  deriving DecidableEq, Repr

/-- Bookkeeping loop of the lambda `replaceAllLoadUsers`. -/
def recordStores (ctx : PtrRedContext) : List (Nat × Nat) → Option PtrRedContext
  | [] => some ctx
  | Pair :: rest =>
    match ctx.F.parentOf Pair.2 with
    | none => none
    | some bb =>
      recordStores
        { ctx with LastInstructions := mapSet ctx.LastInstructions bb (some Pair.2),
                   ChangedLastInst := setInsert ctx.ChangedLastInst bb } rest

/-- The lambda `replaceAllLoadUsers` of `handleLoadsInBB`. -/
def replaceAllLoadUsers (st : ScanState) (Load : Inst) (ReplaceWith : Option Nat) :
    Option ScanState :=
  let storeInstructions := getAllStoreOperands st.ctx.F Load []
  match recordStores st.ctx storeInstructions, ReplaceWith with
  | some ctx1, some r =>
    some { ctx := { ctx1 with F := ctx1.F.replaceAllUsesWith (.inst Load.id) (.inst r) },
           loads := st.loads,
           stores := storeInstructions.foldl (fun m p => mapInsertNew m p.1 p.2) st.stores }
  | _, _ => none

/-- Loop over the users of a load of the candidate when `ValueChanged`. -/
def replaceChildLoads (lastVal : Option Nat) : List Nat → ScanState → Option ScanState
  | [], st => some st
  | user :: rest, st =>
    match st.ctx.F.findInst user with
    | none => none
    | some LoadChild =>
      if LoadChild.kind.isLoad then
        match replaceAllLoadUsers st LoadChild lastVal with
        | none => none
        | some st1 =>
          replaceChildLoads lastVal rest { st1 with loads := st1.loads ++ [LoadChild.id] }
      else replaceChildLoads lastVal rest st

/-- Body of the instruction loop of `handleLoadsInBB` for one instruction. -/
def handleInst (BB : Nat) (st : ScanState) (id : Nat) : Option ScanState :=
  match st.ctx.F.findInst id with
  | none => none
  | some Instr =>
    match Instr.kind with
    | .load ptr _ =>
      if ptr != st.ctx.V then some st else
      let r := mapIndex st.ctx.LastInstructions BB
      let st0 : ScanState := { st with ctx := { st.ctx with LastInstructions := r.2 } }
      let lastVal := r.1
      if st0.ctx.F.user_empty (.inst Instr.id) then some st0 else
      let st2 :=
        if !st0.ctx.ValueChanged then replaceAllLoadUsers st0 Instr lastVal
        else
          match replaceChildLoads lastVal
              ((st0.ctx.F.users (.inst Instr.id)).map (fun p => p.2.id)) st0 with
          | none => none
          | some st1 =>
            match st1.ctx.F.findInst id with
            | none => none
            | some Load1 => replaceAllLoadUsers st1 Load1 st1.ctx.InsertedLoads.head?
      st2.map (fun s => { s with loads := s.loads ++ [Instr.id] })
    | _ => some st

/-- Loop `for (auto &Pair : stores) insertDbgValueCall(..)`. -/
def dbgForStores : List (Nat × Nat) → PtrRedContext → Option PtrRedContext
  | [], ctx => some ctx
  | Pair :: rest, ctx =>
    match insertDbgValueCall ctx Pair.2 (some Pair.1) false with
    | none => none
    | some ctx1 => dbgForStores rest ctx1

def Func.eraseAll (F : Func) (ids : List Nat) : Func := ids.foldl Func.erase F

/-- `handleLoadsInBB`. -/
def handleLoadsInBB (BB : Nat) (ctx : PtrRedContext) : Option PtrRedContext :=
  match ((ctx.F.blockInsts BB).map (fun i => i.id)).foldlM (handleInst BB)
      { ctx := ctx, loads := [], stores := [] } with
  | none => none
  | some st =>
    match dbgForStores st.stores st.ctx with
    | none => none
    | some ctx1 =>
      let F1 := (ctx1.F.eraseAll st.loads).eraseAll (st.stores.map (fun p => p.1))
      let ctx2 : PtrRedContext := { ctx1 with F := F1 }
      if F1.pred_size BB == 1 && !ctx2.ChangedLastInst.contains BB then
        match F1.getSinglePredecessor BB with
        | none => none
        | some pred =>
          let r := mapIndex ctx2.LastInstructions pred
          some { ctx2 with LastInstructions := mapSet r.2 BB r.1 }
      else some ctx2

/-- `handleLoads`: returns the context and the set of completed blocks. -/
def handleLoads : Nat → PtrRedContext → Nat → List Nat → Bool →
    Option (PtrRedContext × List Nat)
  | 0, _, _, _, _ => none
  | fuel + 1, ctx, BB, completedBlocks, init =>
    if completedBlocks.contains BB then some (ctx, completedBlocks) else
    match (if !init then handleLoadsInBB BB ctx else some ctx) with
    | none => none
    | some ctx1 =>
      (ctx1.F.successors BB).foldlM (fun (r : PtrRedContext × List Nat) Succ =>
        if r.1.L.contains Succ then handleLoads fuel r.1 Succ r.2 false else some r)
        (ctx1, setInsert completedBlocks BB)

/-- `insertPhiNodes`. -/
def insertPhiNodes : Nat → PtrRedContext → Nat → Bool → Option PtrRedContext
  | 0, _, _, _ => none
  | fuel + 1, ctx, BB, init =>
    if (mapFind ctx.PhiLinks BB).isSome then some ctx else
    let linked : Option (PtrRedContext × Bool) :=
      if ctx.F.pred_size BB == 1 && !init then
        match ctx.F.getSinglePredecessor BB with
        | none => none
        | some pred =>
          match mapFind ctx.PhiLinks pred with
          | some parentLink =>
            let link : phiNodeLink :=
              { phiNode := none, parent := parentLink.map (fun _ => pred) }
            some ({ ctx with PhiLinks := mapSet ctx.PhiLinks BB (some link) }, false)
          | none => some (ctx, true)
      else if !init then some (ctx, true)
      else some (ctx, false)
    match linked with
    | none => none
    | some (ctx1, needsCreate) =>
      let created : Option PtrRedContext :=
        if needsCreate then
          match (ctx1.InsertedLoads.getLast?).bind ctx1.F.findInst,
            (ctx1.F.blockInsts BB).head? with
          | some lastLoad, some front =>
            let phi : Inst :=
              { id := ctx1.F.nextInst, ty := lastLoad.ty, kind := .phi [], dbg := none }
            let ctx2 : PtrRedContext :=
              { ctx1 with F := ((ctx1.F.fresh).2).insertBefore front.id phi }
            match insertDbgValueCall ctx2 phi.id
                (((ctx2.F.findBlock BB).bind BasicBlock.getFirstNonPHI).map (fun i => i.id))
                true with
            | none => none
            | some ctx3 =>
              some { ctx3 with
                PhiLinks := mapSet ctx3.PhiLinks BB (some { phiNode := some phi.id, parent := none }),
                UniqueNodes := setInsert ctx3.UniqueNodes phi.id }
          | _, _ => none
        else some ctx1
      match created with
      | none => none
      | some ctx4 =>
        match (ctx4.F.successors BB).foldlM
            (fun c Succ => insertPhiNodes fuel c Succ false) ctx4 with
        | none => none
        | some ctx5 =>
          if init then
            match ctx5.InsertedLoads.getLast? with
            | none => none
            | some lastLoad =>
              (ctx5.PhiLinks.foldlM
                (fun (m : List (Nat × Option Nat)) (P : Nat × Option phiNodeLink) =>
                  match getPhi ctx5.PhiLinks (ctx5.PhiLinks.length + 1) P.1 with
                  | some phi => some (mapSet m P.1 (some phi))
                  | none => none)
                (mapSet ctx5.LastInstructions BB (some lastLoad))).map
                (fun m => { ctx5 with LastInstructions := m })
          else some ctx5

/-- `PHINode::addIncoming`. -/
def Kind.addIncoming (v : Value) (bb : Nat) : Kind → Kind
  | .phi inc => .phi (inc ++ [(v, bb)])
  | k => k

def Func.addIncoming (F : Func) (phi : Nat) (v : Value) (bb : Nat) : Func :=
  F.mapInsts (fun i => if i.id == phi then { i with kind := i.kind.addIncoming v bb } else i)

/-- Predecessor loop of `fillPhiNodes` for one merge node. -/
def fillPhi (Phi : Nat) : List Nat → PtrRedContext → Option PtrRedContext
  | [], ctx => some ctx
  | Pred :: rest, ctx =>
    match mapFind ctx.LastInstructions Pred with
    | some (some last) =>
      fillPhi Phi rest { ctx with F := ctx.F.addIncoming Phi (.inst last) Pred }
    | some none => none
    | none =>
      match (ctx.F.typeOf ctx.V).bind Ty.getPointerElementType with
      | none => none
      | some ty =>
        let load : Inst :=
          { id := ctx.F.nextInst, ty := ty, kind := .load ctx.V false, dbg := none }
        let F1 := ((ctx.F.fresh).2).insertAtEnd Pred load
        fillPhi Phi rest { ctx with F := F1.addIncoming Phi (.inst load.id) Pred }

/-- `fillPhiNodes`. -/
def fillPhiNodes (ctx : PtrRedContext) : Option PtrRedContext :=
  ctx.UniqueNodes.foldlM (fun c Phi =>
    match c.F.parentOf Phi with
    | none => none
    | some BB => fillPhi Phi (c.F.predecessors BB) c) ctx

/-- Assignment through the pointer `PhiLinks[bb]`; a null pointer faults. -/
def updateLink (links : List (Nat × Option phiNodeLink)) (bb : Nat)
    (f : phiNodeLink → phiNodeLink) : Option (List (Nat × Option phiNodeLink)) :=
  match (mapIndex links bb).1 with
  | some link => some (mapSet (mapIndex links bb).2 bb (some (f link)))
  | none => none

/-- Body of the loop of `deleteRedundantPhiNodes` for one merge node.  The
comparison loop `for (int i = 0; i < Phi->getNumOperands(); ++i)` counts with
an `int` and leaves at the first operand that differs: the counter overflows,
the result `none`, when more than `INT_MAX` leading operands are the same. -/
def deleteIfRedundant (ctx : PtrRedContext) (Phi : Nat) : Option PtrRedContext :=
  match ctx.F.findInst Phi, ctx.F.parentOf Phi with
  | some phi, some BB =>
    match phi.kind.operands with
    | [] => none
    | operand :: _ =>
      if decide (INT_MAX < phi.kind.operands.length)
          && (phi.kind.operands.take (INT_MAX + 1)).all (fun o => o == operand) then none
      else if phi.kind.operands.all (fun o => o == operand) then
        let F1 := ctx.F.replaceAllUsesWith (.inst Phi) operand
        let unique := ctx.UniqueNodes.erase Phi
        match updateLink ctx.PhiLinks BB (fun l => { l with phiNode := none }) with
        | none => none
        | some links1 =>
          match operand with
          | .inst Instr =>
            match F1.parentOf Instr with
            | none => none
            | some defBB =>
              let r := mapIndex links1 defBB
              match updateLink r.2 BB (fun l => { l with parent := r.1.map (fun _ => defBB) }) with
              | none => none
              | some links2 =>
                some { ctx with F := F1.erase Phi, UniqueNodes := unique, PhiLinks := links2 }
          | _ => none
      else some ctx
  | _, _ => none

/-- `deleteRedundantPhiNodes`, visiting the merge nodes in the given order. -/
def deleteRedundantPhiNodesIn (order : List Nat) (ctx : PtrRedContext) :
    Option PtrRedContext :=
  order.foldlM deleteIfRedundant ctx

/-- `deleteRedundantPhiNodes`, visiting `UniqueNodes` in insertion order. -/
def deleteRedundantPhiNodes (ctx : PtrRedContext) : Option PtrRedContext :=
  deleteRedundantPhiNodesIn ctx.UniqueNodes ctx

/-- One memory access `for_each_memory` reports for an instruction: a known
location or an unknown one, and whether it may write. -/
structure MemAccess where
  Loc : Option Value
  IsWrite : Bool
  deriving DecidableEq, Repr

/-- Alias oracle: the alias node of a location, the node of an unknown
access of an instruction, unreachability of two nodes in the alias tree, and
the accesses of an instruction. -/
structure AliasTree where
  find : Value → Option Nat
  findUnknown : Nat → Option Nat
  isUnreachable : Nat → Nat → Bool
  accesses : Inst → List MemAccess

/-- The callbacks `memLambda` and `unknownMemLambda` of `analyzeAliasTree`
run over the accesses of one instruction; the result is `writesToV`. -/
def writesTo (AT : AliasTree) (V : Value) (I : Inst) : Bool :=
  (AT.accesses I).foldl (fun writesToV acc =>
    match acc.Loc with
    | some Ptr =>
      if writesToV || !acc.IsWrite || Ptr == V then writesToV
      else
        match AT.find V, AT.find Ptr with
        | some EM, some instEM => if !AT.isUnreachable EM instEM then true else writesToV
        | _, _ => writesToV
    | none =>
      if writesToV || !acc.IsWrite then writesToV
      else
        match AT.find V, AT.findUnknown I.id with
        | some EM, some instEM => if !AT.isUnreachable instEM EM then true else writesToV
        | _, _ => writesToV) false

/-- `analyzeAliasTree`. -/
def analyzeAliasTree (F : Func) (V : Value) (AT : AliasTree) (L : Loop) : Bool :=
  L.blocks.all (fun BB => (F.blockInsts BB).all (fun I =>
    !(Value.inst I.id == V) && !(writesTo AT V I)))

/-- Link node of the function metadata: the derived variable and the
variable it derives from. -/
structure MDLink where
  NewVar : DIVariable
  OldVar : DIVariable
  deriving DecidableEq, Repr

/-- `handlePointerDI`; `startLoc` is `L->getStartLoc()`. -/
def handlePointerDI (ctx : PtrRedContext) (DIT : DIType) (AT : AliasTree)
    (startLoc : Option DILocation) (MDs : List MDLink) :
    Option (PtrRedContext × List MDLink) :=
  match AT.find ctx.V with
  | none => some (ctx, MDs)
  | some _ =>
    match startLoc, ctx.DbgVar, ctx.DbgLoc with
    | some _, some var, some _ =>
      let NewVar : DIVariable :=
        { name := var.name, deref := var.deref + 1, line := var.line, type := DIT }
      some ({ ctx with DbgVar := some NewVar }, MDs ++ [{ NewVar := NewVar, OldVar := var }])
    | _, _, _ => none

/-- `freeLinks`. -/
def freeLinks (ctx : PtrRedContext) : PtrRedContext := { ctx with PhiLinks := [] }

/-- Search of the debug record of `V` in `PointerReductionPass::runOnFunction`:
the last debug value or debug declaration that refers to `V` wins. -/
def findDbgRecord (ctx : PtrRedContext) : PtrRedContext :=
  ctx.F.instsWithParent.foldl (fun c p =>
    match p.2.kind with
    | .dbgValue v var _ => if v == c.V then { c with DbgLoc := p.2.dbg, DbgVar := var } else c
    | .dbgDeclare a var => if a == c.V then { c with DbgLoc := p.2.dbg, DbgVar := some var } else c
    | _ => c) ctx

def Value.isGlobalValue : Value → Bool
  | .global _ => true
  | _ => false

def Ty.isPointerTy : Ty → Bool
  | .ptr _ => true
  | _ => false

/-- Debug collaborators: `findMetadata` for a global and the start location
of the loop. -/
structure DebugOracle where
  findMetadata : Value → Option DIVariable
  startLoc : Option DILocation

/-- Debug set-up of an accepted candidate, lines 473 to 501. -/
def setupDebugInfo (AT : AliasTree) (DO : DebugOracle) (ctx : PtrRedContext)
    (MDs : List MDLink) : Option (PtrRedContext × List MDLink) :=
  let ctx1 := findDbgRecord ctx
  let r : Option (PtrRedContext × List MDLink) :=
    if ctx1.V.isGlobalValue then
      match DO.findMetadata ctx1.V with
      | none => none
      | some var =>
        handlePointerDI { ctx1 with DbgVar := some var, DbgLoc := DO.startLoc } var.type AT
          DO.startLoc MDs
    else some (ctx1, MDs)
  match r with
  | none => none
  | some (ctx2, MDs2) =>
    match ctx2.DbgVar with
    | none => none
    | some var =>
      match var.type, ctx2.V.isGlobalValue, (ctx2.F.typeOf ctx2.V).map Ty.isPointerTy with
      | .derived base, false, some true => handlePointerDI ctx2 base AT DO.startLoc MDs2
      | _, _, none => none
      | _, _, _ => some (ctx2, MDs2)

/-- Start of the rewrite of an accepted candidate, lines 503 and 504: the
preheader loads and the merge nodes. -/
def placeMerges (ctx : PtrRedContext) : Option PtrRedContext :=
  match insertLoadInstructions ctx with
  | none => none
  | some ctx1 =>
    match ctx1.L.getLoopPredecessor ctx1.F with
    | none => none
    | some PH => insertPhiNodes (ctx1.F.blocks.length + 2) ctx1 PH true

/-- First half of the rewrite of an accepted candidate, lines 503 to 507:
loads, merge nodes, load and store rewriting, filled merge nodes. -/
def threadMerges (ctx : PtrRedContext) : Option PtrRedContext :=
  match placeMerges ctx with
  | none => none
  | some ctx2 =>
    match ctx2.L.getLoopPredecessor ctx2.F with
    | none => none
    | some PH =>
      match handleLoads (ctx2.F.blocks.length + 2) ctx2 PH [] true with
      | none => none
      | some (ctx3, _) => fillPhiNodes ctx3

/-- The rewrite of an accepted candidate, lines 503 to 510. -/
def rewriteCandidate (ctx : PtrRedContext) : Option PtrRedContext :=
  match threadMerges ctx with
  | none => none
  | some ctx4 =>
    match deleteRedundantPhiNodes ctx4 with
    | none => none
    | some ctx5 => (insertStoreInstructions ctx5).map freeLinks

/-- Context of a candidate `Val`: the pointer operand when `Val` is a load. -/
def candidateContext (F : Func) (L : Loop) (Val : Value) : PtrRedContext :=
  let V : Value :=
    match Val with
    | .inst id =>
      match F.findInst id with
      | some { kind := .load p _, .. } => p
      | _ => Val
    | _ => Val
  { V := V, DbgVar := none, DbgLoc := none, F := F, L := L, InsertedLoads := [],
    PhiLinks := [], UniqueNodes := [], LastInstructions := [], ChangedLastInst := [],
    ValueChanged := Val != V }

/-- The legality gate: `validateValue`, the volatile check and the alias
tree check. -/
def gateAccepts (AT : AliasTree) (ctx : PtrRedContext) : Bool :=
  validateValue ctx && !hasVolatileLoadInstInLoop ctx.F ctx.V ctx.L
    && analyzeAliasTree ctx.F ctx.V AT ctx.L

/-- Body of the candidate loop of `PointerReductionPass::runOnFunction`. -/
def processCandidate (AT : AliasTree) (DO : DebugOracle) (L : Loop)
    (st : Func × List MDLink) (Val : Value) : Option (Func × List MDLink) :=
  let ctx := candidateContext st.1 L Val
  if !validateValue ctx then some st
  else if hasVolatileLoadInstInLoop ctx.F ctx.V L then some st
  else if !analyzeAliasTree ctx.F ctx.V AT L then some st
  else
    match setupDebugInfo AT DO ctx st.2 with
    | none => none
    | some (ctx1, MDs) => (rewriteCandidate ctx1).map (fun c => (c.F, MDs))

/-- One trait of the trait pool of a loop with the values of its memory;
`none` is a handle whose value is gone. -/
structure DIMemoryTrait where
  Anti : Bool
  Flow : Bool
  Output : Bool
  NoPromotedScalar : Bool
  Memory : List (Option Value)
  deriving DecidableEq, Repr

/-- User loop of the candidate search: the flags `hasLoopLoad` and
`hasLoopStore`, and whether the value was inserted. -/
def hasLoopLoadAndStore (F : Func) (L : Loop) (V : Value) : Bool :=
  ((F.users V).foldl (fun (s : Bool × Bool × Bool) User =>
    if s.2.2 then s else
    let hasLoopLoad := s.1 || (User.2.kind.isLoad && L.containsInst User)
    let hasLoopStore := s.2.1 || (User.2.kind.isStore && L.containsInst User)
    (hasLoopLoad, hasLoopStore, hasLoopLoad && hasLoopStore)) (false, false, false)).2.2

/-- `DenseSet::insert` on values. -/
def valInsert (xs : List Value) (x : Value) : List Value :=
  if xs.contains x then xs else xs ++ [x]

/-- The set `Values` before the erasure of `toDelete`. -/
def collectValues (F : Func) (L : Loop) (Pool : List DIMemoryTrait) : List Value :=
  Pool.foldl (fun Values T =>
    if T.Anti || T.Flow || T.Output then
      T.Memory.foldl (fun Values V =>
        match V with
        | some v =>
          if v != Value.undef && hasLoopLoadAndStore F L v then valInsert Values v
          else Values
        | none => Values) Values
    else Values) []

/-- Pointer operand of `Val` when `Val` is a load. -/
def loadPointerOperand (F : Func) (Val : Value) : Option Value :=
  match Val with
  | .inst id =>
    match F.findInst id with
    | some { kind := .load p _, .. } => some p
    | _ => none
  | _ => none

/-- The set `Values` the candidate loop runs over. -/
def pointerCandidates (F : Func) (L : Loop) (Pool : Option (List DIMemoryTrait)) :
    List Value :=
  match Pool with
  | none => []
  | some traits =>
    let Values := collectValues F L traits
    let toDelete := Values.filterMap (loadPointerOperand F)
    toDelete.foldl (fun vs el => vs.erase el) Values

/-- Body of `PointerReductionPass::runOnFunction` for one loop; `noUnwind`
and `returned` are the loop attributes. -/
def PointerReductionPass.runOnLoop (AT : AliasTree) (DO : DebugOracle)
    (noUnwind returned : Bool) (Pool : Option (List DIMemoryTrait)) (L : Loop)
    (st : Func × List MDLink) : Option ((Func × List MDLink) × Option (List DIMemoryTrait)) :=
  if !noUnwind || returned then some (st, Pool) else
  let Values := pointerCandidates st.1 L Pool
  let Pool1 : List DIMemoryTrait :=
    match Pool with
    | none => []
    | some traits =>
      if Values.isEmpty then traits
      else traits.map (fun T => { T with NoPromotedScalar := false })
  (Values.foldlM (processCandidate AT DO L) st).map (fun r => (r, some Pool1))

/-! ## Execution of the IR

A small interpreter for integer code, used to compare a function before and
after a rewrite.  Memory cells are named by the pointer value. -/

/-- Machine state: registers by instruction and memory by pointer. -/
structure Machine where
  regs : List (Nat × Int)
  mem : List (Value × Int)
  deriving DecidableEq, Repr

def Machine.reg (m : Machine) (id : Nat) : Option Int :=
  (m.regs.find? (fun p => p.1 == id)).map (fun p => p.2)

def Machine.setReg (m : Machine) (id : Nat) (x : Int) : Machine :=
  { m with regs := (id, x) :: m.regs.filter (fun p => p.1 != id) }

def Machine.load (m : Machine) (ptr : Value) : Option Int :=
  (m.mem.find? (fun p => p.1 == ptr)).map (fun p => p.2)

def Machine.store (m : Machine) (ptr : Value) (x : Int) : Machine :=
  { m with mem := (ptr, x) :: m.mem.filter (fun p => p.1 != ptr) }

def Machine.eval (m : Machine) : Value → Option Int
  | .inst id => m.reg id
  | .constInt _ v => some (Int.ofNat v)
  | _ => none

/-- Run the instruction list of block `cur`, entered from block `prev`, to
the return of the function. -/
def exec (F : Func) : Nat → Machine → Nat → Nat → List Inst → Option Machine
  | 0, _, _, _, _ => none
  | _ + 1, _, _, _, [] => none
  | fuel + 1, m, prev, cur, i :: rest =>
    match i.kind with
    | .phi inc =>
      match ((inc.find? (fun p => p.2 == prev)).map (fun p => p.1)).bind m.eval with
      | some x => exec F fuel (m.setReg i.id x) prev cur rest
      | none => none
    | .load p _ =>
      match m.load p with
      | some x => exec F fuel (m.setReg i.id x) prev cur rest
      | none => none
    | .store v p =>
      match m.eval v with
      | some x => exec F fuel (m.store p x) prev cur rest
      | none => none
    | .add a b =>
      match m.eval a, m.eval b with
      | some x, some y => exec F fuel (m.setReg i.id (x + y)) prev cur rest
      | _, _ => none
    | .sub a b =>
      match m.eval a, m.eval b with
      | some x, some y => exec F fuel (m.setReg i.id (x - y)) prev cur rest
      | _, _ => none
    | .cast a =>
      match m.eval a with
      | some x => exec F fuel (m.setReg i.id x) prev cur rest
      | none => none
    | .icmpSlt a b =>
      match m.eval a, m.eval b with
      | some x, some y => exec F fuel (m.setReg i.id (if x < y then 1 else 0)) prev cur rest
      | _, _ => none
    | .alloca _ _ => exec F fuel m prev cur rest
    | .dbgValue _ _ _ => exec F fuel m prev cur rest
    | .dbgDeclare _ _ => exec F fuel m prev cur rest
    | .lifetime _ _ => exec F fuel m prev cur rest
    | .br d => exec F fuel m cur d (F.blockInsts d)
    | .condBr c t f =>
      match m.eval c with
      | some x => if x = 0 then exec F fuel m cur f (F.blockInsts f)
                  else exec F fuel m cur t (F.blockInsts t)
      | none => none
    | .ret => some m
    | _ => none

/-- Run a function from its first block. -/
def run (F : Func) (fuel : Nat) : Option Machine :=
  match F.blocks.head? with
  | some b => exec F fuel { regs := [], mem := [] } b.id b.id b.insts
  | none => none

/-! ## Well-formedness -/

/-- Instruction identities name one instruction of one block. -/
abbrev Func.UniqueIds (F : Func) : Prop :=
  ∀ p ∈ F.instsWithParent, ∀ q ∈ F.instsWithParent, p.2.id = q.2.id → p = q

/-- Every instruction identity is below the next unused one. -/
abbrev Func.IdsBelow (F : Func) : Prop :=
  ∀ p ∈ F.instsWithParent, p.2.id < F.nextInst

/-- Every block identity is below the next unused one. -/
abbrev Func.BlocksBelow (F : Func) : Prop :=
  ∀ b ∈ F.blocks, b.id < F.nextBlock

/-- The update `addCase` applies to each instruction. -/
def addCaseFn (sw : Nat) (val : Value) (dest : Nat) (i : Inst) : Inst :=
  if i.id == sw then { i with kind := i.kind.addCase val dest } else i

/-- What the case loop `createCases`, run from index `i` for `k` iterations
on `F`, establishes about the function `G` and the load list it returns. -/
structure CasesPost (Ctx : arrayScalarizeContext) (Info : splitBBInfo) (sw w i k : Nat)
    (F : Func) (loads : List Nat) (G : Func) (out : List Nat) : Prop where
  uniq : G.UniqueIds
  below : G.IdsBelow
  next : F.nextInst ≤ G.nextInst
  types : ∀ s, (F.findInst s).isSome = true → G.typeOf (.inst s) = F.typeOf (.inst s)
  blocks : ∀ bb b, F.findBlock bb = some b → (∀ x ∈ b.insts, x.id ≠ sw) →
    G.findBlock bb = some b
  switch : ∀ s, (F.blockInsts Info.Begin).getLast? = some s → s.id = sw →
    ∀ c d cs, s.kind = .switch c d cs →
    ∃ t, (G.blockInsts Info.Begin).getLast? = some t ∧ t.id = sw
      ∧ ∃ cs2, t.kind = .switch c d cs2
      ∧ (∀ e ∈ cs, e ∈ cs2)
      ∧ (∀ e ∈ cs2, e ∈ cs
          ∨ ∃ j < k, e = (Value.constInt w ((i + j) % 2 ^ w), F.nextBlock + j))
      ∧ ∀ j < k, (Value.constInt w ((i + j) % 2 ^ w), F.nextBlock + j) ∈ cs2
  cases : ∀ j < k, ∃ slot l, Ctx.ScalarGEPList[i + j]? = some slot
    ∧ l ∈ G.blockInsts (F.nextBlock + j) ∧ l.id = F.nextInst + 2 * j + 1
    ∧ l.kind = .load (.inst slot) false
  loads : ∀ x, x ∈ out ↔ x ∈ loads ∨ ∃ j < k, x = F.nextInst + 2 * j + 1
  origin : ∀ p ∈ G.instsWithParent,
    (∃ p0 ∈ F.instsWithParent, p0.2.id = p.2.id ∧ (p.2.id ≠ sw → p = p0))
    ∨ (F.nextInst ≤ p.2.id
        ∧ ((∃ slot ∈ Ctx.ScalarGEPList, p.2.kind = .load (.inst slot) false)
            ∨ p.2.kind = .br Info.End))

/-- What `createBBSwitch` keeps true of the function while it erases the
users of the indexing instruction `gep`: identities stay unique, every user
of `gep` is an instruction older than `n0` that is no slot and not the index
value, the after block keeps the instruction `x0`, the dispatch `sw` stays the
last instruction of the before block, keyed on the index value, with the after
block as default and one case per index, and every case block keeps the load
of its slot. -/
structure SwitchInv (slots : List Nat) (Info : splitBBInfo) (gep sw x0 n0 nb n1 w N : Nat)
    (F : Func) : Prop where
  uniq : F.UniqueIds
  users : ∀ p ∈ F.users (.inst gep),
    p.2.id < n0 ∧ p.2.id ∉ slots ∧ Info.IdxValue ≠ .inst p.2.id
  keep : ∃ x ∈ F.blockInsts Info.End, x.id = x0 ∧ Value.inst gep ∉ x.kind.operands
  switch : ∃ t, (F.blockInsts Info.Begin).getLast? = some t ∧ t.id = sw
    ∧ ∃ cs, t.kind = .switch Info.IdxValue Info.End cs
    ∧ (∀ j < N, (Value.constInt w (j % 2 ^ w), nb + j) ∈ cs)
    ∧ ∀ e ∈ cs, ∃ j < N, e = (Value.constInt w (j % 2 ^ w), nb + j)
  cases : ∀ j < N, ∃ slot l, slots[j]? = some slot ∧ l ∈ F.blockInsts (nb + j)
    ∧ l.id = n1 + 2 * j + 1 ∧ l.kind = .load (.inst slot) false

/-- The instruction is a debug value or a debug declaration of `V`: the test
of the search for the debug record in `PointerReductionPass::runOnFunction`. -/
def refersTo (V : Value) (i : Inst) : Bool :=
  match i.kind with
  | .dbgValue v _ _ => v == V
  | .dbgDeclare a _ => a == V
  | _ => false

/-- Some debug record of the function refers to `V`. -/
def hasDbgRecord (F : Func) (V : Value) : Bool :=
  F.instsWithParent.any (fun p => refersTo V p.2)

def Value.isInst : Value → Bool
  | .inst _ => true
  | _ => false

/-- The instruction is a load whose pointer operand is `V`. -/
def isLoadOf (V : Value) (i : Inst) : Bool :=
  match i.kind with
  | .load p _ => p == V
  | _ => false

/-- The instruction does not define `V`, or it is not a load and none of its
operands is an instruction (a stack allocation of constant size). -/
def definesPlain (V : Value) (i : Inst) : Bool :=
  V != .inst i.id || (!i.kind.isLoad && i.kind.operands.all (fun o => !o.isInst))

/-- The instruction `r` can stand for the pointee: it is not the candidate
itself and it is not a load of the candidate inside the loop. -/
def goodTarget (F : Func) (L : Loop) (V : Value) (r : Nat) : Bool :=
  V != .inst r
    && F.instsWithParent.all (fun p => !(p.2.id == r && L.contains p.1 && isLoadOf V p.2))

/-- No instruction of the function that defines the candidate is a load or
has an instruction operand. -/
def candidatePlain (ctx : PtrRedContext) : Bool :=
  ctx.F.instsWithParent.all (fun p => definesPlain ctx.V p.2)

/-- Every tracked value and the first inserted load are good targets. -/
def trackedGood (ctx : PtrRedContext) : Bool :=
  ctx.LastInstructions.all (fun e =>
    match e.2 with
    | some r => goodTarget ctx.F ctx.L ctx.V r
    | none => true)
  && (match ctx.InsertedLoads.head? with
      | some r => goodTarget ctx.F ctx.L ctx.V r
      | none => true)

/-- The loads of `V` in the loop blocks and instructions that `P` covers are
listed in `loads` or have no user. -/
def SafeLoads (V : Value) (L : Loop) (F : Func) (loads : List Nat) (P : Nat → Nat → Prop) :
    Prop :=
  ∀ B i, i ∈ F.blockInsts B → L.contains B = true → P B i.id → isLoadOf V i = true →
    i.id ∈ loads ∨ F.users (.inst i.id) = []

/-- Invariant of the load and store rewriting for the candidate `V` in the
loop `L`. -/
structure RewriteInv (V : Value) (L : Loop) (ctx : PtrRedContext) : Prop where
  hV : ctx.V = V
  hL : ctx.L = L
  uniq : ctx.F.UniqueIds
  below : ctx.F.IdsBelow
  plain : ∀ p ∈ ctx.F.instsWithParent, definesPlain V p.2 = true
  tracked : ∀ e ∈ ctx.LastInstructions, ∀ r, e.2 = some r → goodTarget ctx.F L V r = true
  head : ∀ r, ctx.InsertedLoads.head? = some r → goodTarget ctx.F L V r = true

/-- What one step of the scan of `handleLoadsInBB` keeps. -/
structure StepOK (V : Value) (L : Loop) (st st' : ScanState) : Prop where
  inv : RewriteInv V L st'.ctx
  safe : ∀ P, SafeLoads V L st.ctx.F st.loads P → SafeLoads V L st'.ctx.F st'.loads P
  good : ∀ r, goodTarget st.ctx.F L V r = true → goodTarget st'.ctx.F L V r = true
  ids : ∀ B, (st'.ctx.F.blockInsts B).map (fun i => i.id)
          = (st.ctx.F.blockInsts B).map (fun i => i.id)
  loads : ∀ x ∈ st.loads, x ∈ st'.loads
  vc : st'.ctx.ValueChanged = st.ctx.ValueChanged
  il : st'.ctx.InsertedLoads = st.ctx.InsertedLoads
  mem : ∀ p ∈ st'.ctx.F.instsWithParent, ∃ p0 ∈ st.ctx.F.instsWithParent,
          p0.1 = p.1 ∧ p0.2.id = p.2.id ∧ p0.2.kind.isLoad = p.2.kind.isLoad

/-! ## Concrete functions

The functions below are the inputs of the evaluated statements.  Every
instruction carries a source location; the candidate pointer has a debug
declaration of a basic type. -/

/-- Instruction with the source line equal to its identity. -/
def mkInst (id : Nat) (ty : Ty) (k : Kind) : Inst :=
  { id := id, ty := ty, kind := k, dbg := some { line := id, col := 1, scope := 0 } }

def varX : DIVariable := { name := 0, deref := 0, line := 1, type := .basic 0 }

/-- Alias oracle that reports no access at all. -/
def noAlias : AliasTree :=
  { find := fun _ => none, findUnknown := fun _ => none, isUnreachable := fun _ _ => true,
    accesses := fun _ => [] }

def noDebug : DebugOracle := { findMetadata := fun _ => none, startLoc := none }

/-- Trait pool with one trait, on the value `v`. -/
def poolOn (v : Value) : Option (List DIMemoryTrait) :=
  some [{ Anti := true, Flow := true, Output := true, NoPromotedScalar := true,
          Memory := [some v] }]

/-- Entry block shared by the pointer examples: `int x = 0;` with `%1` the
address of `x`, then a branch to block 1. -/
def entryBlock : BasicBlock :=
  { id := 0, insts :=
      [ mkInst 1 (.ptr (.int 32)) (.alloca (.int 32) (.constInt 32 1)),
        mkInst 2 .void (.dbgDeclare (.inst 1) varX),
        mkInst 3 .void (.store (.constInt 32 0) (.inst 1)),
        mkInst 4 .void (.br 1) ] }

/-- The loop `do { x = x + 1; } while (x < 3);` followed by a return. -/
def doWhileFn : Func :=
  { blocks :=
      [ entryBlock,
        { id := 1, insts :=
          [ mkInst 5 (.int 32) (.load (.inst 1) false),
            mkInst 6 (.int 32) (.add (.inst 5) (.constInt 32 1)),
            mkInst 7 .void (.store (.inst 6) (.inst 1)),
            mkInst 8 (.int 1) (.icmpSlt (.inst 6) (.constInt 32 3)),
            mkInst 9 .void (.condBr (.inst 8) 1 2) ] },
        { id := 2, insts := [ mkInst 10 .void .ret ] } ],
    globals := [], nextInst := 11, nextBlock := 3 }

def doWhileLoop : Loop := { blocks := [1] }

/-- The loop of `doWhileFn` with one more load of `x` whose result is not
used. -/
def deadLoadFn : Func :=
  { blocks :=
      [ entryBlock,
        { id := 1, insts :=
          [ mkInst 5 (.int 32) (.load (.inst 1) false),
            mkInst 6 (.int 32) (.load (.inst 1) false),
            mkInst 7 (.int 32) (.add (.inst 6) (.constInt 32 1)),
            mkInst 8 .void (.store (.inst 7) (.inst 1)),
            mkInst 9 (.int 1) (.icmpSlt (.inst 7) (.constInt 32 3)),
            mkInst 10 .void (.condBr (.inst 9) 1 2) ] },
        { id := 2, insts := [ mkInst 11 .void .ret ] } ],
    globals := [], nextInst := 12, nextBlock := 3 }

/-- The loop `do { x = x + 1; x = 7; } while (...)`: the loop of `doWhileFn`
with one more store to `x`, instruction 8, whose value is the constant 7. -/
def constStoreFn : Func :=
  { blocks :=
      [ entryBlock,
        { id := 1, insts :=
          [ mkInst 5 (.int 32) (.load (.inst 1) false),
            mkInst 6 (.int 32) (.add (.inst 5) (.constInt 32 1)),
            mkInst 7 .void (.store (.inst 6) (.inst 1)),
            mkInst 8 .void (.store (.constInt 32 7) (.inst 1)),
            mkInst 9 (.int 1) (.icmpSlt (.inst 6) (.constInt 32 3)),
            mkInst 10 .void (.condBr (.inst 9) 1 2) ] },
        { id := 2, insts := [ mkInst 11 .void .ret ] } ],
    globals := [], nextInst := 12, nextBlock := 3 }

/-- The function `doWhileFn` built without debug information: no debug
declaration of `x`. -/
def doWhileNoDbgFn : Func :=
  { blocks :=
      [ { id := 0, insts :=
          [ mkInst 1 (.ptr (.int 32)) (.alloca (.int 32) (.constInt 32 1)),
            mkInst 3 .void (.store (.constInt 32 0) (.inst 1)),
            mkInst 4 .void (.br 1) ] },
        { id := 1, insts :=
          [ mkInst 5 (.int 32) (.load (.inst 1) false),
            mkInst 6 (.int 32) (.add (.inst 5) (.constInt 32 1)),
            mkInst 7 .void (.store (.inst 6) (.inst 1)),
            mkInst 8 (.int 1) (.icmpSlt (.inst 6) (.constInt 32 3)),
            mkInst 9 .void (.condBr (.inst 8) 1 2) ] },
        { id := 2, insts := [ mkInst 10 .void .ret ] } ],
    globals := [], nextInst := 11, nextBlock := 3 }

/-- A loop of two blocks, header 1 and body 2, both of which branch to the
exit block 3. -/
def twoExitsFn : Func :=
  { blocks :=
      [ entryBlock,
        { id := 1, insts :=
          [ mkInst 5 (.int 1) (.icmpSlt (.constInt 32 0) (.constInt 32 1)),
            mkInst 6 .void (.condBr (.inst 5) 2 3) ] },
        { id := 2, insts :=
          [ mkInst 7 (.int 32) (.load (.inst 1) false),
            mkInst 8 (.int 32) (.add (.inst 7) (.constInt 32 1)),
            mkInst 9 .void (.store (.inst 8) (.inst 1)),
            mkInst 10 (.int 1) (.icmpSlt (.inst 8) (.constInt 32 3)),
            mkInst 11 .void (.condBr (.inst 10) 1 3) ] },
        { id := 3, insts := [ mkInst 12 .void .ret ] } ],
    globals := [], nextInst := 13, nextBlock := 4 }

def twoExitsLoop : Loop := { blocks := [1, 2] }

/-- A loop whose body holds a nested conditional: header 1 branches to 6 or
to 2; 2 branches to 3 or 4, which join in 5; 5 and 6 join in the latch 7,
which updates `x` and exits to 8. -/
def nestedIfFn : Func :=
  { blocks :=
      [ entryBlock,
        { id := 1, insts :=
          [ mkInst 5 (.int 1) (.icmpSlt (.constInt 32 0) (.constInt 32 1)),
            mkInst 6 .void (.condBr (.inst 5) 6 2) ] },
        { id := 2, insts :=
          [ mkInst 7 (.int 1) (.icmpSlt (.constInt 32 0) (.constInt 32 1)),
            mkInst 8 .void (.condBr (.inst 7) 3 4) ] },
        { id := 3, insts := [ mkInst 9 .void (.br 5) ] },
        { id := 4, insts := [ mkInst 10 .void (.br 5) ] },
        { id := 5, insts := [ mkInst 11 .void (.br 7) ] },
        { id := 6, insts := [ mkInst 12 .void (.br 7) ] },
        { id := 7, insts :=
          [ mkInst 13 (.int 32) (.load (.inst 1) false),
            mkInst 14 (.int 32) (.add (.inst 13) (.constInt 32 1)),
            mkInst 15 .void (.store (.inst 14) (.inst 1)),
            mkInst 16 (.int 1) (.icmpSlt (.inst 14) (.constInt 32 3)),
            mkInst 17 .void (.condBr (.inst 16) 1 8) ] },
        { id := 8, insts := [ mkInst 18 .void .ret ] } ],
    globals := [], nextInst := 19, nextBlock := 9 }

def nestedIfLoop : Loop := { blocks := [1, 2, 3, 4, 5, 6, 7] }

/-- A loop with header 1 and body 2; the body passes the address of `x` to
a call. -/
def callFn : Func :=
  { blocks :=
      [ entryBlock,
        { id := 1, insts :=
          [ mkInst 5 (.int 32) (.load (.inst 1) false),
            mkInst 6 (.int 1) (.icmpSlt (.inst 5) (.constInt 32 3)),
            mkInst 7 .void (.condBr (.inst 6) 2 3) ] },
        { id := 2, insts :=
          [ mkInst 8 .void (.call 0 [.inst 1]),
            mkInst 9 (.int 32) (.load (.inst 1) false),
            mkInst 10 (.int 32) (.add (.inst 9) (.constInt 32 1)),
            mkInst 11 .void (.store (.inst 10) (.inst 1)),
            mkInst 12 .void (.br 1) ] },
        { id := 3, insts := [ mkInst 13 .void .ret ] } ],
    globals := [], nextInst := 14, nextBlock := 4 }

def callLoop : Loop := { blocks := [1, 2] }

/-- Context of the candidate `x` of a pointer example after the legality
gate and the debug set-up. -/
def acceptedContext (F : Func) (L : Loop) : Option PtrRedContext :=
  (setupDebugInfo noAlias noDebug (candidateContext F L (.inst 1)) []).map (fun r => r.1)

/-- Context of the candidate `x` of `doWhileFn` after the debug set-up: the
debug variable is `x` and the debug location is that of its declaration,
line 2. -/
def doWhileAccepted : PtrRedContext :=
  (acceptedContext doWhileFn doWhileLoop).getD (candidateContext doWhileFn doWhileLoop (.inst 1))

/-- Context of `deadLoadFn` when `handleLoads` starts. -/
def deadLoadPlaced : PtrRedContext :=
  ((acceptedContext deadLoadFn doWhileLoop).bind placeMerges).getD
    (candidateContext deadLoadFn doWhileLoop (.inst 1))

/-- Result of `handleLoads` on `deadLoadPlaced`. -/
def deadLoadRewritten : PtrRedContext × List Nat :=
  (handleLoads 5 deadLoadPlaced 0 [] true).getD (deadLoadPlaced, [])

/-- Scenario 2: `double a[4]` on the stack, read as `a[i]` in the loop
`for (i = 0; i < 4; ++i)`. -/
def localArrayFn : Func :=
  { blocks :=
      [ { id := 0, insts :=
          [ mkInst 1 (.ptr (.array 4 .double)) (.alloca (.array 4 .double) (.constInt 32 1)),
            mkInst 2 (.ptr (.int 32)) (.alloca (.int 32) (.constInt 32 1)),
            mkInst 3 .void (.store (.constInt 32 0) (.inst 2)),
            mkInst 4 .void (.br 1) ] },
        { id := 1, insts :=
          [ mkInst 5 (.int 32) (.load (.inst 2) false),
            mkInst 6 (.int 1) (.icmpSlt (.inst 5) (.constInt 32 4)),
            mkInst 7 .void (.condBr (.inst 6) 2 4) ] },
        { id := 2, insts :=
          [ mkInst 8 (.int 32) (.load (.inst 2) false),
            mkInst 9 (.int 64) (.cast (.inst 8)),
            mkInst 10 (.ptr .double)
              (.gep (.array 4 .double) (.inst 1) [.constInt 64 0, .inst 9]),
            mkInst 11 .double (.load (.inst 10) false),
            mkInst 12 .void (.br 3) ] },
        { id := 3, insts :=
          [ mkInst 13 (.int 32) (.load (.inst 2) false),
            mkInst 14 (.int 32) (.add (.inst 13) (.constInt 32 1)),
            mkInst 15 .void (.store (.inst 14) (.inst 2)),
            mkInst 16 .void (.br 1) ] },
        { id := 4, insts := [ mkInst 17 .void .ret ] } ],
    globals := [], nextInst := 18, nextBlock := 5 }

def localArrayLoop : Loop := { blocks := [1, 2, 3] }

/-- The same loop over a global `double a[4]`, global 0. -/
def globalArrayFn : Func :=
  { (localArrayFn.replaceAllUsesWith (.inst 1) (.global 0)) with
    globals := [{ id := 0, valueTy := .array 4 .double, init := some (.array 4 .double) }] }

/-- Fresh context of the global `double a[4]`. -/
def globalArrayContext : arrayScalarizeContext :=
  { V := .global 0, ArrType := some (4, .double), ScalarGEPList := [] }

/-- `globalArrayFn` and the context after `insertScalars` on the preheader. -/
def globalArraySlots : Func × arrayScalarizeContext :=
  (globalArrayContext.insertScalars globalArrayFn (some 0)).getD
    (globalArrayFn, globalArrayContext)

/-- The indexing instruction `a[i]` of `globalArrayFn`. -/
def globalArrayGEP : Inst :=
  mkInst 10 (.ptr .double) (.gep (.array 4 .double) (.global 0) [.constInt 64 0, .inst 9])

/-- The function after the split scan cut block 2 before `a[i]`; the new
block is block 5. -/
def globalArraySplit : Func := (globalArraySlots.1.splitBasicBlock 2 globalArrayGEP).2

/-- The loop `for (i = 0; i < 4; ++i) x = a[i];` over a global array `a`,
global 0, of `N` doubles, the index of `a[i]`, instruction 9, being a cast of
`i` to the integer type of `w` bits. -/
def indexedArrayFn (N w : Nat) : Func :=
  { blocks :=
      [ { id := 0, insts :=
          [ mkInst 2 (.ptr (.int 32)) (.alloca (.int 32) (.constInt 32 1)),
            mkInst 3 .void (.store (.constInt 32 0) (.inst 2)),
            mkInst 4 .void (.br 1) ] },
        { id := 1, insts :=
          [ mkInst 5 (.int 32) (.load (.inst 2) false),
            mkInst 6 (.int 1) (.icmpSlt (.inst 5) (.constInt 32 4)),
            mkInst 7 .void (.condBr (.inst 6) 2 4) ] },
        { id := 2, insts :=
          [ mkInst 8 (.int 32) (.load (.inst 2) false),
            mkInst 9 (.int w) (.cast (.inst 8)),
            mkInst 10 (.ptr .double)
              (.gep (.array N .double) (.global 0) [.constInt 64 0, .inst 9]),
            mkInst 11 .double (.load (.inst 10) false),
            mkInst 12 .void (.br 3) ] },
        { id := 3, insts :=
          [ mkInst 13 (.int 32) (.load (.inst 2) false),
            mkInst 14 (.int 32) (.add (.inst 13) (.constInt 32 1)),
            mkInst 15 .void (.store (.inst 14) (.inst 2)),
            mkInst 16 .void (.br 1) ] },
        { id := 4, insts := [ mkInst 17 .void .ret ] } ],
    globals := [{ id := 0, valueTy := .array N .double, init := some (.array N .double) }],
    nextInst := 18, nextBlock := 5 }

/-- Four elements indexed through the one-bit integer type: instruction 9 is
`trunc i32 %8 to i1`. -/
def narrowIndexFn : Func := indexedArrayFn 4 1

/-- An array of `INT_MAX + 1` elements indexed through the 64-bit integer
type. -/
def hugeArrayFn : Func := indexedArrayFn (INT_MAX + 1) 64

/-- The function `foo` of `test/private/distance_3.c` with `U` the global 0:
`for (I = 1; I < 100; ++I) for (J = 0; J < 99; ++J) U[I][J] = U[I - 1][J];`.
`%1` is `I`, `%2` is `J`. -/
def fooFn : Func :=
  { blocks :=
      [ { id := 0, insts :=
          [ mkInst 1 (.ptr (.int 32)) (.alloca (.int 32) (.constInt 32 1)),
            mkInst 2 (.ptr (.int 32)) (.alloca (.int 32) (.constInt 32 1)),
            mkInst 3 .void (.store (.constInt 32 1) (.inst 1)),
            mkInst 4 .void (.br 1) ] },
        { id := 1, insts :=
          [ mkInst 5 (.int 32) (.load (.inst 1) false),
            mkInst 6 (.int 1) (.icmpSlt (.inst 5) (.constInt 32 100)),
            mkInst 7 .void (.condBr (.inst 6) 2 8) ] },
        { id := 2, insts :=
          [ mkInst 8 .void (.store (.constInt 32 0) (.inst 2)),
            mkInst 9 .void (.br 3) ] },
        { id := 3, insts :=
          [ mkInst 10 (.int 32) (.load (.inst 2) false),
            mkInst 11 (.int 1) (.icmpSlt (.inst 10) (.constInt 32 99)),
            mkInst 12 .void (.condBr (.inst 11) 4 6) ] },
        { id := 4, insts :=
          [ mkInst 13 (.int 32) (.load (.inst 1) false),
            mkInst 14 (.int 32) (.sub (.inst 13) (.constInt 32 1)),
            mkInst 15 (.int 64) (.cast (.inst 14)),
            mkInst 16 (.ptr (.array 100 .double))
              (.gep (.array 100 (.array 100 .double)) (.global 0) [.constInt 64 0, .inst 15]),
            mkInst 17 (.int 32) (.load (.inst 2) false),
            mkInst 18 (.int 64) (.cast (.inst 17)),
            mkInst 19 (.ptr .double)
              (.gep (.array 100 .double) (.inst 16) [.constInt 64 0, .inst 18]),
            mkInst 20 .double (.load (.inst 19) false),
            mkInst 21 (.int 32) (.load (.inst 1) false),
            mkInst 22 (.int 64) (.cast (.inst 21)),
            mkInst 23 (.ptr (.array 100 .double))
              (.gep (.array 100 (.array 100 .double)) (.global 0) [.constInt 64 0, .inst 22]),
            mkInst 24 (.int 32) (.load (.inst 2) false),
            mkInst 25 (.int 64) (.cast (.inst 24)),
            mkInst 26 (.ptr .double)
              (.gep (.array 100 .double) (.inst 23) [.constInt 64 0, .inst 25]),
            mkInst 27 .void (.store (.inst 20) (.inst 26)),
            mkInst 28 .void (.br 5) ] },
        { id := 5, insts :=
          [ mkInst 29 (.int 32) (.load (.inst 2) false),
            mkInst 30 (.int 32) (.add (.inst 29) (.constInt 32 1)),
            mkInst 31 .void (.store (.inst 30) (.inst 2)),
            mkInst 32 .void (.br 3) ] },
        { id := 6, insts := [ mkInst 33 .void (.br 7) ] },
        { id := 7, insts :=
          [ mkInst 34 (.int 32) (.load (.inst 1) false),
            mkInst 35 (.int 32) (.add (.inst 34) (.constInt 32 1)),
            mkInst 36 .void (.store (.inst 35) (.inst 1)),
            mkInst 37 .void (.br 1) ] },
        { id := 8, insts := [ mkInst 38 .void .ret ] } ],
    globals :=
      [{ id := 0, valueTy := .array 100 (.array 100 .double),
         init := some (.array 100 (.array 100 .double)) }],
    nextInst := 39, nextBlock := 9 }

/-- The loop over `I` of `fooFn`. -/
def fooOuterLoop : Loop := { blocks := [1, 2, 3, 4, 5, 6, 7] }

/-- The loop over `J` of `fooFn`. -/
def fooInnerLoop : Loop := { blocks := [3, 4, 5] }

/-- Global def/use summary of the module of `foo`: only `foo`, function 0,
uses and defines `U`. -/
def fooGDM : List (Nat × DefUseSet) :=
  [(0, { Uses := [{ Ptr := .global 0 }], Defs := [{ Ptr := .global 0 }] })]

/-- A def/use summary in which a second function, function 1, reads `U`. -/
def sharedGDM : List (Nat × DefUseSet) :=
  fooGDM ++ [(1, { Uses := [{ Ptr := .global 0 }], Defs := [] })]

/-- Trait pool of the outer loop of `foo`: `U` carries a flow dependence. -/
def fooPool : Option (List DIMemoryTrait) :=
  some [{ Anti := false, Flow := true, Output := false, NoPromotedScalar := true,
          Memory := [some (.global 0)] }]

/-- The loop `for (i = 0; i < 4; ++i)` whose body reads the global
`double a[4]`, global 0, twice: block 2 holds the two indexing instructions
10 and 12. -/
def twoAccessFn : Func :=
  { blocks :=
      [ { id := 0, insts :=
          [ mkInst 2 (.ptr (.int 32)) (.alloca (.int 32) (.constInt 32 1)),
            mkInst 3 .void (.store (.constInt 32 0) (.inst 2)),
            mkInst 4 .void (.br 1) ] },
        { id := 1, insts :=
          [ mkInst 5 (.int 32) (.load (.inst 2) false),
            mkInst 6 (.int 1) (.icmpSlt (.inst 5) (.constInt 32 4)),
            mkInst 7 .void (.condBr (.inst 6) 2 4) ] },
        { id := 2, insts :=
          [ mkInst 8 (.int 32) (.load (.inst 2) false),
            mkInst 9 (.int 64) (.cast (.inst 8)),
            mkInst 10 (.ptr .double)
              (.gep (.array 4 .double) (.global 0) [.constInt 64 0, .inst 9]),
            mkInst 11 .double (.load (.inst 10) false),
            mkInst 12 (.ptr .double)
              (.gep (.array 4 .double) (.global 0) [.constInt 64 0, .inst 9]),
            mkInst 13 .double (.load (.inst 12) false),
            mkInst 14 .void (.br 3) ] },
        { id := 3, insts :=
          [ mkInst 15 (.int 32) (.load (.inst 2) false),
            mkInst 16 (.int 32) (.add (.inst 15) (.constInt 32 1)),
            mkInst 17 .void (.store (.inst 16) (.inst 2)),
            mkInst 18 .void (.br 1) ] },
        { id := 4, insts := [ mkInst 19 .void .ret ] } ],
    globals := [{ id := 0, valueTy := .array 4 .double, init := some (.array 4 .double) }],
    nextInst := 20, nextBlock := 5 }

/-- The loop `for (i = 0; i < 4; ++i) { x = b[i]; y = a[i]; }` over the
globals `double a[4]`, global 0, and `double b[4]`, global 1: block 2 reads
`b[i]` and stores it to `x`, block 3 reads `a[i]`. -/
def otherArrayFn : Func :=
  { blocks :=
      [ { id := 0, insts :=
          [ mkInst 1 (.ptr .double) (.alloca .double (.constInt 32 1)),
            mkInst 2 (.ptr (.int 32)) (.alloca (.int 32) (.constInt 32 1)),
            mkInst 3 .void (.store (.constInt 32 0) (.inst 2)),
            mkInst 4 .void (.br 1) ] },
        { id := 1, insts :=
          [ mkInst 5 (.int 32) (.load (.inst 2) false),
            mkInst 6 (.int 1) (.icmpSlt (.inst 5) (.constInt 32 4)),
            mkInst 7 .void (.condBr (.inst 6) 2 4) ] },
        { id := 2, insts :=
          [ mkInst 8 (.int 32) (.load (.inst 2) false),
            mkInst 9 (.int 64) (.cast (.inst 8)),
            mkInst 10 (.ptr .double)
              (.gep (.array 4 .double) (.global 1) [.constInt 64 0, .inst 9]),
            mkInst 11 .double (.load (.inst 10) false),
            mkInst 12 .void (.store (.inst 11) (.inst 1)),
            mkInst 13 .void (.br 3) ] },
        { id := 3, insts :=
          [ mkInst 14 (.int 32) (.load (.inst 2) false),
            mkInst 15 (.int 64) (.cast (.inst 14)),
            mkInst 16 (.ptr .double)
              (.gep (.array 4 .double) (.global 0) [.constInt 64 0, .inst 15]),
            mkInst 17 .double (.load (.inst 16) false),
            mkInst 18 (.int 32) (.add (.inst 14) (.constInt 32 1)),
            mkInst 19 .void (.store (.inst 18) (.inst 2)),
            mkInst 20 .void (.br 1) ] },
        { id := 4, insts := [ mkInst 21 .void .ret ] } ],
    globals :=
      [{ id := 0, valueTy := .array 4 .double, init := some (.array 4 .double) },
       { id := 1, valueTy := .array 4 .double, init := some (.array 4 .double) }],
    nextInst := 22, nextBlock := 5 }

/-- A def/use summary in which a second function, function 1, reads the
global 1. -/
def otherGDM : List (Nat × DefUseSet) :=
  [(1, { Uses := [{ Ptr := .global 1 }], Defs := [] })]

/-- Function and contexts of `otherArrayFn` after the slots of both arrays
are in the preheader; no other function uses the arrays. -/
def otherArraySlots : Func × List arrayScalarizeContext :=
  ((arrayCandidates 0 [] otherArrayFn localArrayLoop).bind
      (fun Ctxs => insertAllScalars (localArrayLoop.getLoopPredecessor otherArrayFn) Ctxs
        otherArrayFn)).getD (otherArrayFn, [])

/-- The function `otherArraySlots` after the scan and the dispatches of the
first context. -/
def otherArrayFirst : Func :=
  (match otherArraySlots.2.head? with
   | none => none
   | some Ctx =>
     (scanLoop localArrayLoop (otherArraySlots.1.instsWithParent.length + 2)
        otherArraySlots.1 []).bind (fun r => createAllSwitches Ctx r.2 r.1)).getD
    otherArraySlots.1


/-! ## Theorems -/

/-! ### Basic facts about the IR operations -/

theorem setInsert_of_mem {xs : List Nat} {x : Nat} (h : x ∈ xs) : setInsert xs x = xs := by
  simp [setInsert, h]

theorem setInsert_of_not_mem {xs : List Nat} {x : Nat} (h : x ∉ xs) :
    setInsert xs x = xs ++ [x] := by
  simp [setInsert, h]

theorem mem_setInsert {xs : List Nat} {x y : Nat} :
    y ∈ setInsert xs x ↔ y ∈ xs ∨ y = x := by
  by_cases h : x ∈ xs
  · rw [setInsert_of_mem h]
    constructor
    · exact Or.inl
    · rintro (h1 | h1)
      · exact h1
      · subst h1; exact h
  · rw [setInsert_of_not_mem h]
    simp

theorem nodup_setInsert {xs : List Nat} {x : Nat} (h : xs.Nodup) : (setInsert xs x).Nodup := by
  by_cases hc : x ∈ xs
  · rw [setInsert_of_mem hc]; exact h
  · rw [setInsert_of_not_mem hc]
    exact List.Nodup.append h (List.nodup_singleton x) (by simpa using hc)


theorem mem_instsWithParent {F : Func} {p : Nat × Inst} :
    p ∈ F.instsWithParent ↔ ∃ b ∈ F.blocks, p.1 = b.id ∧ p.2 ∈ b.insts := by
  unfold Func.instsWithParent
  simp only [List.mem_flatMap, List.mem_map]
  constructor
  · rintro ⟨b, hb, i, hi, rfl⟩
    exact ⟨b, hb, rfl, hi⟩
  · rintro ⟨b, hb, h1, h2⟩
    exact ⟨b, hb, p.2, h2, Prod.ext h1.symm rfl⟩

theorem findBlock_some {F : Func} {bb : Nat} {b : BasicBlock} (h : F.findBlock bb = some b) :
    b ∈ F.blocks ∧ b.id = bb := by
  unfold Func.findBlock at h
  exact ⟨List.mem_of_find?_eq_some h, by simpa using List.find?_some h⟩

theorem mem_blockInsts {F : Func} {bb : Nat} {i : Inst} (h : i ∈ F.blockInsts bb) :
    (bb, i) ∈ F.instsWithParent := by
  unfold Func.blockInsts at h
  split at h
  · rename_i b hb
    obtain ⟨h1, h2⟩ := findBlock_some hb
    exact mem_instsWithParent.mpr ⟨b, h1, h2.symm, h⟩
  · simp at h

theorem findBlock_mapBlocks (F : Func) (f : BasicBlock → BasicBlock)
    (hf : ∀ b, (f b).id = b.id) (bb : Nat) :
    (F.mapBlocks f).findBlock bb = (F.findBlock bb).map f := by
  unfold Func.findBlock Func.mapBlocks
  simp only
  induction F.blocks with
  | nil => rfl
  | cons b rest ih =>
    simp only [List.map_cons, List.find?_cons, hf]
    split
    · rfl
    · exact ih

theorem blockInsts_mapBlocks (F : Func) (f : BasicBlock → BasicBlock)
    (hf : ∀ b, (f b).id = b.id) (g : List Inst → List Inst) (hg : ∀ b, (f b).insts = g b.insts)
    (hnil : g [] = []) (bb : Nat) :
    (F.mapBlocks f).blockInsts bb = g (F.blockInsts bb) := by
  unfold Func.blockInsts
  rw [findBlock_mapBlocks F f hf]
  cases F.findBlock bb with
  | none => simp [hnil]
  | some b => simp [hg]

theorem blockInsts_insertBefore (F : Func) (pos : Nat) (n : Inst) (bb : Nat) :
    (F.insertBefore pos n).blockInsts bb = insertBeforeList pos n (F.blockInsts bb) :=
  blockInsts_mapBlocks F (fun b => { b with insts := insertBeforeList pos n b.insts })
    (fun _ => rfl) (insertBeforeList pos n) (fun _ => rfl) rfl bb

theorem blockInsts_erase (F : Func) (id : Nat) (bb : Nat) :
    (F.erase id).blockInsts bb = (F.blockInsts bb).filter (fun i => i.id != id) :=
  blockInsts_mapBlocks F (fun b => { b with insts := b.insts.filter (fun i => i.id != id) })
    (fun _ => rfl) (fun l => l.filter (fun i => i.id != id)) (fun _ => rfl) rfl bb

theorem blockInsts_mapInsts (F : Func) (f : Inst → Inst) (bb : Nat) :
    (F.mapInsts f).blockInsts bb = (F.blockInsts bb).map f :=
  blockInsts_mapBlocks F (BasicBlock.mapInsts f) (fun _ => rfl) (fun l => l.map f)
    (fun _ => rfl) rfl bb

theorem blockInsts_fresh (F : Func) (bb : Nat) : ((F.fresh).2).blockInsts bb = F.blockInsts bb :=
  rfl

theorem instsWithParent_mapInsts (F : Func) (f : Inst → Inst) :
    (F.mapInsts f).instsWithParent = F.instsWithParent.map (fun p => (p.1, f p.2)) := by
  unfold Func.instsWithParent Func.mapInsts Func.mapBlocks BasicBlock.mapInsts
  simp only [List.flatMap_map, List.map_flatMap, List.map_map]
  rfl

theorem mem_instsWithParent_insertBefore {F : Func} {pos : Nat} {n : Inst} {p : Nat × Inst}
    (h : p ∈ (F.insertBefore pos n).instsWithParent) :
    p ∈ F.instsWithParent
    ∨ (p.2 = n ∧ ∃ q ∈ F.instsWithParent, q.1 = p.1 ∧ q.2.id = pos) := by
  rw [mem_instsWithParent] at h
  obtain ⟨b', hb', h1, h2⟩ := h
  unfold Func.insertBefore Func.mapBlocks at hb'
  simp only [List.mem_map] at hb'
  obtain ⟨b, hb, rfl⟩ := hb'
  simp only at h1 h2
  suffices hs : ∀ l : List Inst, p.2 ∈ insertBeforeList pos n l →
      p.2 ∈ l ∨ (p.2 = n ∧ ∃ x ∈ l, x.id = pos) by
    rcases hs _ h2 with h3 | ⟨h3, x, hx, hxp⟩
    · exact Or.inl (mem_instsWithParent.mpr ⟨b, hb, h1, h3⟩)
    · exact Or.inr ⟨h3, (b.id, x), mem_instsWithParent.mpr ⟨b, hb, rfl, hx⟩, h1.symm, hxp⟩
  intro l
  induction l with
  | nil => intro h; simp [insertBeforeList] at h
  | cons x rest ih =>
    intro h
    unfold insertBeforeList at h
    split at h
    · rename_i hx
      rcases List.mem_cons.mp h with h3 | h3
      · exact Or.inr ⟨h3, x, List.mem_cons_self _ _, by simpa using hx⟩
      · exact Or.inl h3
    · rcases List.mem_cons.mp h with h3 | h3
      · exact Or.inl (h3 ▸ List.mem_cons_self _ _)
      · rcases ih h3 with h4 | ⟨h4, y, hy, hyp⟩
        · exact Or.inl (List.mem_cons_of_mem _ h4)
        · exact Or.inr ⟨h4, y, List.mem_cons_of_mem _ hy, hyp⟩

theorem mem_insertBeforeList_of_mem {pos : Nat} {n x : Inst} {l : List Inst} (h : x ∈ l) :
    x ∈ insertBeforeList pos n l := by
  induction l with
  | nil => simp at h
  | cons y rest ih =>
    unfold insertBeforeList
    split
    · exact List.mem_cons_of_mem _ h
    · rcases List.mem_cons.mp h with h1 | h1
      · exact h1 ▸ List.mem_cons_self _ _
      · exact List.mem_cons_of_mem _ (ih h1)

theorem insertBeforeList_of_not_mem {pos : Nat} {n : Inst} {l : List Inst}
    (h : ∀ i ∈ l, i.id ≠ pos) : insertBeforeList pos n l = l := by
  induction l with
  | nil => rfl
  | cons y rest ih =>
    unfold insertBeforeList
    have hy : (y.id == pos) = false := by simpa using h y (List.mem_cons_self _ _)
    simp only [hy, Bool.false_eq_true, if_false]
    rw [ih (fun i hi => h i (List.mem_cons_of_mem _ hi))]

theorem uniqueIds_insertBefore {F : Func} {pos : Nat} {n : Inst}
    (hU : F.UniqueIds) (hn : ∀ p ∈ F.instsWithParent, p.2.id ≠ n.id) :
    (F.insertBefore pos n).UniqueIds := by
  intro p hp q hq hid
  rcases mem_instsWithParent_insertBefore hp with h1 | ⟨h1, x, hx, hx1, hx2⟩
  · rcases mem_instsWithParent_insertBefore hq with h2 | ⟨h2, y, hy, hy1, hy2⟩
    · exact hU p h1 q h2 hid
    · exact absurd (hid.trans (by rw [h2])) (hn p h1)
  · rcases mem_instsWithParent_insertBefore hq with h2 | ⟨h2, y, hy, hy1, hy2⟩
    · exact absurd (hid.symm.trans (by rw [h1])) (hn q h2)
    · have := hU x hx y hy (hx2.trans hy2.symm)
      have h3 : p.1 = q.1 := by rw [← hx1, ← hy1, this]
      exact Prod.ext h3 (h1.trans h2.symm)

theorem idsBelow_insertBefore_fresh {F : Func} {pos : Nat} {n : Inst}
    (hB : F.IdsBelow) (hn : n.id = F.nextInst) :
    (((F.fresh).2).insertBefore pos n).IdsBelow := by
  intro p hp
  have hnext : (((F.fresh).2).insertBefore pos n).nextInst = F.nextInst + 1 := rfl
  rw [hnext]
  rcases mem_instsWithParent_insertBefore hp with h1 | ⟨h1, _⟩
  · exact Nat.lt_succ_of_lt (hB p h1)
  · rw [h1, hn]; exact Nat.lt_succ_self _

theorem uniqueIds_insertBefore_fresh {F : Func} {pos : Nat} {n : Inst}
    (hU : F.UniqueIds) (hB : F.IdsBelow) (hn : n.id = F.nextInst) :
    (((F.fresh).2).insertBefore pos n).UniqueIds :=
  uniqueIds_insertBefore (F := (F.fresh).2) hU
    (fun p hp => by rw [hn]; exact Nat.ne_of_lt (hB p hp))

theorem validateUsers_eq_false_iff (F : Func) (L : Loop) (vc : Bool) (us : List (Nat × Inst)) :
    validateUsers F L vc us = false ↔
      ((vc = true ∧ ∃ u ∈ us, u.2.kind.isStore = true ∧ L.contains u.1 = true)
       ∨ (∃ u ∈ us, u.2.kind.isGEP = true ∧ L.contains u.1 = true)
       ∨ (∃ u ∈ us, u.2.kind.isCall = true ∧ L.contains u.1 = true
            ∧ L.getExitingBlock F ≠ some u.1)) := by
  induction us with
  | nil => simp [validateUsers]
  | cons u rest ih =>
    unfold validateUsers
    by_cases h1 : (vc && u.2.kind.isStore && L.containsInst u) = true
    · rw [if_pos h1]
      refine iff_of_true rfl ?_
      simp only [Bool.and_eq_true, Loop.containsInst] at h1
      obtain ⟨⟨hv, hs⟩, hc⟩ := h1
      exact Or.inl ⟨hv, u, List.mem_cons_self _ _, hs, hc⟩
    · by_cases h2 : (u.2.kind.isGEP && L.containsInst u) = true
      · rw [if_neg h1, if_pos h2]
        refine iff_of_true rfl ?_
        simp only [Bool.and_eq_true, Loop.containsInst] at h2
        obtain ⟨hg, hc⟩ := h2
        exact Or.inr (Or.inl ⟨u, List.mem_cons_self _ _, hg, hc⟩)
      · by_cases h3 : (u.2.kind.isCall
            && (L.contains u.1 && some u.1 != L.getExitingBlock F)) = true
        · rw [if_neg h1, if_neg h2, if_pos h3]
          refine iff_of_true rfl ?_
          simp only [Bool.and_eq_true, bne_iff_ne, ne_eq] at h3
          obtain ⟨hk, hc, hne⟩ := h3
          exact Or.inr (Or.inr ⟨u, List.mem_cons_self _ _, hk, hc, fun h => hne h.symm⟩)
        · rw [if_neg h1, if_neg h2, if_neg h3, ih]
          simp only [Bool.and_eq_true, Loop.containsInst, bne_iff_ne, ne_eq, not_and,
            Bool.not_eq_true] at h1 h2 h3
          simp only [List.mem_cons, exists_eq_or_imp]
          constructor
          · rintro (⟨hv, h⟩ | h | h)
            · exact Or.inl ⟨hv, Or.inr h⟩
            · exact Or.inr (Or.inl (Or.inr h))
            · exact Or.inr (Or.inr (Or.inr h))
          · rintro (⟨hv, h | h⟩ | (h | h) | (h | h))
            · exact absurd h.2 (by simp [h1 (by simp [hv, h.1])])
            · exact Or.inl ⟨hv, h⟩
            · exact absurd h.2 (by simp [h2 h.1])
            · exact Or.inr (Or.inl h)
            · exfalso
              obtain ⟨hk, hc, hne⟩ := h
              have := h3 hk hc
              simp only [bne_eq_false_iff_eq, not_not] at this
              exact hne this.symm
            · exact Or.inr (Or.inr h)

/-- C3: `validateValue` rejects a candidate exactly when the candidate is a
GEP operator, or the pointee is reassigned and a store inside the loop uses
it, or an indexing instruction inside the loop uses it, or a call using it
lies in a loop block that is not the unique exiting block of the loop. -/
theorem validateValue_rejects_iff (Ctx : PtrRedContext) :
    validateValue Ctx = false ↔
      (isGEPOperator Ctx.F Ctx.V = true
       ∨ (Ctx.ValueChanged = true
            ∧ ∃ u ∈ Ctx.F.users Ctx.V, u.2.kind.isStore = true ∧ Ctx.L.contains u.1 = true)
       ∨ (∃ u ∈ Ctx.F.users Ctx.V, u.2.kind.isGEP = true ∧ Ctx.L.contains u.1 = true)
       ∨ (∃ u ∈ Ctx.F.users Ctx.V, u.2.kind.isCall = true ∧ Ctx.L.contains u.1 = true
            ∧ Ctx.L.getExitingBlock Ctx.F ≠ some u.1)) := by
  unfold validateValue
  by_cases hg : isGEPOperator Ctx.F Ctx.V = true
  · simp [hg]
  · simp only [hg, if_false, false_or, Bool.false_eq_true]
    exact validateUsers_eq_false_iff _ _ _ _

/-- C4: a candidate that `validateValue` rejects, or that has a volatile load
in the loop, or that `analyzeAliasTree` rejects, leaves the function (and
the metadata list) exactly as it was. -/
theorem rejected_candidate_untouched (AT : AliasTree) (DO : DebugOracle) (L : Loop)
    (st : Func × List MDLink) (Val : Value)
    (h : validateValue (candidateContext st.1 L Val) = false
      ∨ hasVolatileLoadInstInLoop st.1 (candidateContext st.1 L Val).V L = true
      ∨ analyzeAliasTree st.1 (candidateContext st.1 L Val).V AT L = false) :
    processCandidate AT DO L st Val = some st := by
  have hF : (candidateContext st.1 L Val).F = st.1 := rfl
  unfold processCandidate
  simp only [hF]
  rcases h with h | h | h
  · simp [h]
  · by_cases h1 : validateValue (candidateContext st.1 L Val) = true
    · simp [h1, h]
    · simp [h1]
  · by_cases h1 : validateValue (candidateContext st.1 L Val) = true
    · by_cases h2 : hasVolatileLoadInstInLoop st.1 (candidateContext st.1 L Val).V L = true
      · simp [h1, h2]
      · simp [h1, h2, h]
    · simp [h1]

theorem rejected_candidate_untouched_witness :
    validateValue (candidateContext callFn callLoop (.inst 1)) = false
    ∧ processCandidate noAlias noDebug callLoop (callFn, []) (.inst 1) = some (callFn, []) :=
  ⟨by decide!, rejected_candidate_untouched noAlias noDebug callLoop (callFn, []) (.inst 1)
    (Or.inl (by decide!))⟩

theorem collectFromInst_nodup (F : Func) (acc : List Nat × List Nat) (i : Inst)
    (h : acc.1.Nodup) : (collectFromInst F acc i).1.Nodup := by
  unfold collectFromInst
  split
  · simp only
    split
    · split
      · exact nodup_setInsert h
      · exact h
    · exact h
  · exact h

theorem foldl_collectFromInst_nodup (F : Func) (is : List Inst) (acc : List Nat × List Nat)
    (h : acc.1.Nodup) : (is.foldl (collectFromInst F) acc).1.Nodup := by
  induction is generalizing acc with
  | nil => exact h
  | cons i rest ih => exact ih _ (collectFromInst_nodup F acc i h)

theorem collectArrays_nodup (F : Func) (L : Loop) : (collectArrays F L).1.Nodup := by
  unfold collectArrays
  suffices h : ∀ (bs : List Nat) (acc : List Nat × List Nat), acc.1.Nodup →
      (bs.foldl (fun acc bb => (F.blockInsts bb).foldl (collectFromInst F) acc) acc).1.Nodup from
    h _ _ List.nodup_nil
  intro bs
  induction bs with
  | nil => intro acc h; exact h
  | cons b rest ih =>
    intro acc h
    exact ih _ (foldl_collectFromInst_nodup F _ acc h)

/-- A fold whose steps only insert keeps what is already there. -/
theorem foldl_setInsert_mono {α : Type} (c : α → Bool) (g : Nat) (xs : List α) (acc : List Nat)
    (y : Nat) (hy : y ∈ acc) :
    y ∈ xs.foldl (fun acc x => if c x then setInsert acc g else acc) acc := by
  induction xs generalizing acc with
  | nil => exact hy
  | cons x rest ih =>
    simp only [List.foldl_cons]
    apply ih
    split
    · exact mem_setInsert.mpr (Or.inl hy)
    · exact hy

theorem foldl_setInsert_hit {α : Type} (c : α → Bool) (g : Nat) (xs : List α) (acc : List Nat)
    (h : ∃ x ∈ xs, c x = true) :
    g ∈ xs.foldl (fun acc x => if c x then setInsert acc g else acc) acc := by
  induction xs generalizing acc with
  | nil => simp at h
  | cons x rest ih =>
    simp only [List.foldl_cons]
    obtain ⟨z, hz, hc⟩ := h
    rcases List.mem_cons.mp hz with h1 | h1
    · subst h1
      apply foldl_setInsert_mono
      simp only [hc, if_true]
      exact mem_setInsert.mpr (Or.inr rfl)
    · exact ih _ ⟨z, h1, hc⟩

theorem deleteStep_mono (s : DefUseSet) (acc : List Nat) (AT y : Nat) (hy : y ∈ acc) :
    y ∈ deleteStep s acc AT := by
  unfold deleteStep
  exact foldl_setInsert_mono (fun (Def : MemoryLocation) => Value.global AT == Def.Ptr) AT _ _ y
    (foldl_setInsert_mono (fun (Use : MemoryLocation) => Value.global AT == Use.Ptr) AT _ _ y hy)

theorem deleteStep_hit (s : DefUseSet) (acc : List Nat) (G : Nat)
    (h : (∃ u ∈ s.Uses, u.Ptr = .global G) ∨ (∃ d ∈ s.Defs, d.Ptr = .global G)) :
    G ∈ deleteStep s acc G := by
  unfold deleteStep
  rcases h with ⟨u, hu, hp⟩ | ⟨d, hd, hp⟩
  · exact foldl_setInsert_mono (fun (Def : MemoryLocation) => Value.global G == Def.Ptr) G _ _ G
      (foldl_setInsert_hit (fun (Use : MemoryLocation) => Value.global G == Use.Ptr) G _ _
        ⟨u, hu, by simp [hp]⟩)
  · exact foldl_setInsert_hit (fun (Def : MemoryLocation) => Value.global G == Def.Ptr) G _ _
      ⟨d, hd, by simp [hp]⟩

theorem foldl_deleteStep_mono (s : DefUseSet) (ATs : List Nat) (acc : List Nat) (y : Nat)
    (hy : y ∈ acc) : y ∈ ATs.foldl (deleteStep s) acc := by
  induction ATs generalizing acc with
  | nil => exact hy
  | cons a rest ih => exact ih _ (deleteStep_mono s acc a y hy)

theorem foldl_deleteStep_hit (s : DefUseSet) (ATs : List Nat) (acc : List Nat) (G : Nat)
    (hG : G ∈ ATs)
    (h : (∃ u ∈ s.Uses, u.Ptr = .global G) ∨ (∃ d ∈ s.Defs, d.Ptr = .global G)) :
    G ∈ ATs.foldl (deleteStep s) acc := by
  induction ATs generalizing acc with
  | nil => simp at hG
  | cons a rest ih =>
    simp only [List.foldl_cons]
    rcases List.mem_cons.mp hG with h1 | h1
    · subst h1
      exact foldl_deleteStep_mono s rest _ G (deleteStep_hit s acc G h)
    · exact ih _ h1

theorem mem_globalsToDelete (fid : Nat) (GDM : List (Nat × DefUseSet)) (GlobalAT : List Nat)
    (G : Nat) (hG : G ∈ GlobalAT) (f : Nat) (s : DefUseSet) (hmem : (f, s) ∈ GDM)
    (hne : f ≠ fid)
    (h : (∃ u ∈ s.Uses, u.Ptr = .global G) ∨ (∃ d ∈ s.Defs, d.Ptr = .global G)) :
    G ∈ globalsToDelete fid GDM GlobalAT := by
  unfold globalsToDelete
  generalize ([] : List Nat) = acc
  induction GDM generalizing acc with
  | nil => simp at hmem
  | cons it rest ih =>
    simp only [List.foldl_cons]
    rcases List.mem_cons.mp hmem with h1 | h1
    · subst h1
      have hne' : ((f, s).1 == fid) = false := by simpa using hne
      simp only [hne', Bool.false_eq_true, if_false]
      suffices hm : ∀ (r : List (Nat × DefUseSet)) (acc : List Nat), G ∈ acc →
          G ∈ r.foldl (fun acc it =>
            if it.1 == fid then acc else GlobalAT.foldl (deleteStep it.2) acc) acc from
        hm rest _ (foldl_deleteStep_hit s GlobalAT acc G hG h)
      intro r
      induction r with
      | nil => intro acc h; exact h
      | cons it2 r2 ih2 =>
        intro acc hacc
        simp only [List.foldl_cons]
        apply ih2
        split
        · exact hacc
        · exact foldl_deleteStep_mono _ _ _ _ hacc
    · exact ih h1 _

theorem not_mem_foldl_erase_of_not_mem (ds l : List Nat) (x : Nat) (h : x ∉ l) :
    x ∉ ds.foldl (fun acc gl => acc.erase gl) l := by
  induction ds generalizing l with
  | nil => exact h
  | cons d rest ih =>
    simp only [List.foldl_cons]
    exact ih _ (fun hm => h (List.mem_of_mem_erase hm))

theorem not_mem_foldl_erase (ds l : List Nat) (x : Nat) (hl : l.Nodup) (hx : x ∈ ds) :
    x ∉ ds.foldl (fun acc gl => acc.erase gl) l := by
  induction ds generalizing l with
  | nil => simp at hx
  | cons d rest ih =>
    simp only [List.foldl_cons]
    rcases List.mem_cons.mp hx with h1 | h1
    · subst h1
      exact not_mem_foldl_erase_of_not_mem rest _ x (fun hm => (hl.mem_erase_iff.mp hm).1 rfl)
    · exact ih _ (hl.erase d) h1

theorem mem_mapContexts {f : Nat → Option arrayScalarizeContext} {xs : List Nat}
    {cs : List arrayScalarizeContext} (h : mapContexts f xs = some cs)
    {c : arrayScalarizeContext} (hc : c ∈ cs) : ∃ x ∈ xs, f x = some c := by
  induction xs generalizing cs with
  | nil =>
    simp only [mapContexts, Option.some.injEq] at h
    subst h
    simp at hc
  | cons x rest ih =>
    unfold mapContexts at h
    split at h
    · rename_i c0 cs0 h1 h2
      simp only [Option.some.injEq] at h
      subst h
      rcases List.mem_cons.mp hc with h3 | h3
      · subst h3
        exact ⟨x, List.mem_cons_self _ _, h1⟩
      · obtain ⟨y, hy, hf⟩ := ih h2 h3
        exact ⟨y, List.mem_cons_of_mem _ hy, hf⟩
    · simp at h

theorem globalContext_V {F : Func} {g : Nat} {c : arrayScalarizeContext}
    (h : globalContext F g = some c) : c.V = .global g := by
  unfold globalContext at h
  split at h
  · split at h
    · simp only [Option.some.injEq] at h
      subst h
      rfl
    · simp at h
  · simp at h

theorem localContext_V {F : Func} {a : Nat} {c : arrayScalarizeContext}
    (h : localContext F a = some c) : c.V = .inst a := by
  unfold localContext at h
  split at h
  · simp only [Option.some.injEq] at h
    subst h
    rfl
  · simp at h

theorem makeContexts_V {F : Func} {GlobalAT LocalAT : List Nat}
    {Ctxs : List arrayScalarizeContext} (h : makeContexts F GlobalAT LocalAT = some Ctxs)
    {c : arrayScalarizeContext} (hc : c ∈ Ctxs) :
    (∃ g ∈ GlobalAT, c.V = .global g) ∨ (∃ a ∈ LocalAT, c.V = .inst a) := by
  unfold makeContexts at h
  split at h
  · rename_i gs ls h1 h2
    simp only [Option.some.injEq] at h
    subst h
    rcases List.mem_append.mp hc with h3 | h3
    · obtain ⟨g, hg, hf⟩ := mem_mapContexts h1 h3
      exact Or.inl ⟨g, hg, globalContext_V hf⟩
    · obtain ⟨a, ha, hf⟩ := mem_mapContexts h2 h3
      exact Or.inr ⟨a, ha, localContext_V hf⟩
  · simp at h

theorem insertScalars_V {Ctx Ctx1 : arrayScalarizeContext} {F F1 : Func} {ph : Option Nat}
    (h : Ctx.insertScalars F ph = some (F1, Ctx1)) : Ctx1.V = Ctx.V := by
  unfold arrayScalarizeContext.insertScalars at h
  split at h
  · split at h
    · simp at h
    · split at h
      · simp at h
      · simp only [Option.some.injEq, Prod.mk.injEq] at h
        rw [← h.2]
  · simp at h

theorem insertAllScalars_V {ph : Option Nat} {Ctxs Ctxs1 : List arrayScalarizeContext}
    {F F1 : Func} (h : insertAllScalars ph Ctxs F = some (F1, Ctxs1)) :
    Ctxs1.map (fun c => c.V) = Ctxs.map (fun c => c.V) := by
  induction Ctxs generalizing F F1 Ctxs1 with
  | nil =>
    simp only [insertAllScalars, Option.some.injEq, Prod.mk.injEq] at h
    rw [← h.2]
  | cons c rest ih =>
    unfold insertAllScalars at h
    split at h
    · simp at h
    · rename_i F2 c1 h1
      split at h
      · simp at h
      · rename_i F3 rest1 h2
        simp only [Option.some.injEq, Prod.mk.injEq] at h
        rw [← h.2]
        simp only [List.map_cons, ih h2, insertScalars_V h1]

/-- C2: a global array that the def/use summary of a function other than the
current one lists among its uses or its defs is not among the candidates
left after the erasure, no scalarization context is created for it, and no
context with slots exists for it after the slots are inserted. -/
theorem global_used_elsewhere_not_candidate (fid : Nat) (GDM : List (Nat × DefUseSet))
    (F : Func) (L : Loop) (G : Nat) (f : Nat) (s : DefUseSet)
    (hmem : (f, s) ∈ GDM) (hne : f ≠ fid)
    (huse : (∃ u ∈ s.Uses, u.Ptr = .global G) ∨ (∃ d ∈ s.Defs, d.Ptr = .global G)) :
    G ∉ filterGlobals fid GDM (collectArrays F L).1
    ∧ (∀ Ctxs, arrayCandidates fid GDM F L = some Ctxs → ∀ Ctx ∈ Ctxs, Ctx.V ≠ .global G)
    ∧ (∀ Ctxs F1 Ctxs1, arrayCandidates fid GDM F L = some Ctxs →
        insertAllScalars (L.getLoopPredecessor F) Ctxs F = some (F1, Ctxs1) →
        ∀ Ctx ∈ Ctxs1, Ctx.V ≠ .global G) := by
  have h1 : G ∉ filterGlobals fid GDM (collectArrays F L).1 := by
    unfold filterGlobals
    by_cases hG : G ∈ (collectArrays F L).1
    · exact not_mem_foldl_erase _ _ G (collectArrays_nodup F L)
        (mem_globalsToDelete fid GDM _ G hG f s hmem hne huse)
    · exact not_mem_foldl_erase_of_not_mem _ _ G hG
  have h2 : ∀ Ctxs, arrayCandidates fid GDM F L = some Ctxs →
      ∀ Ctx ∈ Ctxs, Ctx.V ≠ .global G := by
    intro Ctxs hC Ctx hCtx hV
    unfold arrayCandidates at hC
    rcases makeContexts_V hC hCtx with ⟨g, hg, hv⟩ | ⟨a, _, hv⟩
    · rw [hV] at hv
      injection hv with hv
      subst hv
      exact h1 hg
    · rw [hV] at hv
      cases hv
  refine ⟨h1, h2, ?_⟩
  intro Ctxs F1 Ctxs1 hC hI Ctx hCtx hV
  have hmap := insertAllScalars_V hI
  have : Ctx.V ∈ Ctxs1.map (fun c => c.V) := List.mem_map_of_mem _ hCtx
  rw [hmap] at this
  obtain ⟨c, hc, hcv⟩ := List.mem_map.mp this
  exact h2 Ctxs hC c hc (hcv.trans hV)

theorem global_used_elsewhere_not_candidate_witness :
    (0 ∈ (collectArrays fooFn fooOuterLoop).1)
    ∧ 0 ∉ filterGlobals 0 sharedGDM (collectArrays fooFn fooOuterLoop).1
    ∧ arrayCandidates 0 sharedGDM fooFn fooOuterLoop = some [] :=
  ⟨by decide!,
   (global_used_elsewhere_not_candidate 0 sharedGDM fooFn fooOuterLoop 0 1
      { Uses := [{ Ptr := .global 0 }], Defs := [] } (by decide!) (by decide)
      (Or.inl ⟨{ Ptr := .global 0 }, by simp, rfl⟩)).1,
   by decide!⟩

/-- C1: on the loop `do { x = x + 1; } while (x < 3);` the candidate `x`
passes the legality gate; the original function leaves the loop with 3 in
`x`; the rewritten exit block stores the merge node of the loop block, whose
value on exit is 2, so the value written back differs from the value the
memory held in the original loop. -/
theorem doWhile_exit_store_is_stale :
    pointerCandidates doWhileFn doWhileLoop (poolOn (.inst 1)) = [.inst 1]
    ∧ gateAccepts noAlias (candidateContext doWhileFn doWhileLoop (.inst 1)) = true
    ∧ (run doWhileFn 100).bind (fun m => m.load (.inst 1)) = some 3
    ∧ ((PointerReductionPass.runOnLoop noAlias noDebug true false (poolOn (.inst 1))
          doWhileLoop (doWhileFn, [])).map
        (fun r => ((r.1.1.blockInsts 1).map (fun i => (i.id, i.kind)),
                   (r.1.1.blockInsts 2).map (fun i => (i.id, i.kind)))))
        = some ([(13, .phi [(.inst 11, 0), (.inst 6, 1)]),
                 (14, .dbgValue (.inst 13) (some varX) []),
                 (6, .add (.inst 13) (.constInt 32 1)),
                 (15, .dbgValue (.inst 6) (some varX) []),
                 (8, .icmpSlt (.inst 6) (.constInt 32 3)),
                 (9, .condBr (.inst 8) 1 2)],
                [(16, .store (.inst 13) (.inst 1)), (10, .ret)])
    ∧ ((PointerReductionPass.runOnLoop noAlias noDebug true false (poolOn (.inst 1))
          doWhileLoop (doWhileFn, [])).bind (fun r => run r.1.1 100)).map
        (fun m => (m.reg 13, m.reg 6, m.load (.inst 1))) = some (some 2, some 3, some 2) := by
  decide!

/-- C8: on the loop of `nestedIfFn` the filled merge nodes are 21 (block 1),
23 (block 7) and 25 (block 5).  `deleteRedundantPhiNodes` visits them in this
order: 23 has the incoming values 25 and 21 and is kept, then 25 is replaced
by 21.  The merge node 23 is still in the function and in `UniqueNodes`, and
both of its incoming values are 21. -/
theorem redundant_merge_survives :
    ((acceptedContext nestedIfFn nestedIfLoop).bind threadMerges).map
        (fun c => (c.UniqueNodes, (c.F.findInst 23).map (fun i => i.kind),
                   (c.F.findInst 25).map (fun i => i.kind)))
      = some ([21, 23, 25], some (.phi [(.inst 25, 5), (.inst 21, 6)]),
              some (.phi [(.inst 21, 3), (.inst 21, 4)]))
    ∧ (((acceptedContext nestedIfFn nestedIfLoop).bind threadMerges).bind
          deleteRedundantPhiNodes).map
        (fun c => (c.UniqueNodes, (c.F.blockInsts 7).head?.map (fun i => (i.id, i.kind))))
      = some ([21, 23], some (23, .phi [(.inst 21, 5), (.inst 21, 6)])) := by
  decide!

/-- C9: in the loop of scenario 2 the stack array `a` of 4 doubles is the
base of an indexing instruction, yet the collector puts nothing in the local
candidate set (operand 0 of the allocation is its element count, an integer),
no context is created, and the pass returns the function unchanged. -/
theorem local_array_not_collected :
    (localArrayFn.blockInsts 2).map (fun i => i.kind.getPointerOperand)
        = [some (.inst 2), none, some (.inst 1), some (.inst 10), none]
    ∧ localArrayFn.typeOf (.inst 1) = some (.ptr (.array 4 .double))
    ∧ collectArrays localArrayFn localArrayLoop = ([], [])
    ∧ arrayCandidates 0 [] localArrayFn localArrayLoop = some []
    ∧ ArrayScalarizePass.runOnLoop 0 [] localArrayFn localArrayLoop = some localArrayFn
    ∧ (ArrayScalarizePass.runOnLoop 0 [] globalArrayFn localArrayLoop).map
        (fun F => ((F.blockInsts 0).length, (F.blockInsts 2).getLast?.map (fun i => i.kind)))
      = some (8, some (.switch (.inst 9) 5
          [(.constInt 64 0, 6), (.constInt 64 1, 7), (.constInt 64 2, 8),
           (.constInt 64 3, 9)])) := by
  decide!

/-- C10, counterexample: in `foo` the trait pool marks `U` with a flow
dependence and only `foo` uses `U`; the array scalarizer creates a context
for `U` and inserts 100 slots for it in front of the loop. -/
theorem flow_array_is_scalarized :
    fooPool.map (fun ts => ts.map (fun T => (T.Flow, T.Memory))) = some [(true, [some (.global 0)])]
    ∧ arrayCandidates 0 fooGDM fooFn fooOuterLoop
      = some [{ V := .global 0, ArrType := some (100, .array 100 .double),
                ScalarGEPList := [] }]
    ∧ ((arrayCandidates 0 fooGDM fooFn fooOuterLoop).bind
          (fun Ctxs => insertAllScalars (fooOuterLoop.getLoopPredecessor fooFn) Ctxs fooFn)).map
        (fun r => ((fooFn.blockInsts 0).length, (r.1.blockInsts 0).length,
                   r.2.map (fun c => (c.V, c.ScalarGEPList.length))))
      = some (4, 104, [(.global 0, 100)]) := by
  decide!

/-- A load without users is kept: in `deadLoadFn` the load 5 of the candidate
has no user; after the rewrite it is still in block 1 of the loop. -/
theorem dead_load_survives :
    gateAccepts noAlias (candidateContext deadLoadFn doWhileLoop (.inst 1)) = true
    ∧ (PointerReductionPass.runOnLoop noAlias noDebug true false (poolOn (.inst 1))
          doWhileLoop (deadLoadFn, [])).map
        (fun r => (r.1.1.blockInsts 1).filter (fun i => i.kind.isLoad))
      = some [mkInst 5 (.int 32) (.load (.inst 1) false)] := by
  decide!

theorem collectFromInst_mono (F : Func) (acc : List Nat × List Nat) (i : Inst) (x : Nat)
    (h : x ∈ acc.1) : x ∈ (collectFromInst F acc i).1 := by
  unfold collectFromInst
  split
  · simp only
    split
    · split
      · exact mem_setInsert.mpr (Or.inl h)
      · exact h
    · exact h
  · exact h

theorem collectFromInst_hit (F : Func) (acc : List Nat × List Nat) (i : Inst) (G : Nat)
    (t : Ty) (idx : List Value) (n : Nat) (e : Ty)
    (hk : i.kind = .gep t (.global G) idx)
    (hty : (F.typeOf (.global G)).bind Ty.getPointerElementType = some (.array n e)) :
    G ∈ (collectFromInst F acc i).1 := by
  unfold collectFromInst
  rw [hk]
  simp only [hty]
  exact mem_setInsert.mpr (Or.inr rfl)

theorem foldl_collectFromInst_mono (F : Func) (is : List Inst) (acc : List Nat × List Nat)
    (x : Nat) (h : x ∈ acc.1) : x ∈ (is.foldl (collectFromInst F) acc).1 := by
  induction is generalizing acc with
  | nil => exact h
  | cons i rest ih => exact ih _ (collectFromInst_mono F acc i x h)

theorem foldl_collectFromInst_hit (F : Func) (is : List Inst) (acc : List Nat × List Nat)
    (G : Nat) (i : Inst) (hi : i ∈ is) (t : Ty) (idx : List Value) (n : Nat) (e : Ty)
    (hk : i.kind = .gep t (.global G) idx)
    (hty : (F.typeOf (.global G)).bind Ty.getPointerElementType = some (.array n e)) :
    G ∈ (is.foldl (collectFromInst F) acc).1 := by
  induction is generalizing acc with
  | nil => simp at hi
  | cons j rest ih =>
    simp only [List.foldl_cons]
    rcases List.mem_cons.mp hi with h1 | h1
    · subst h1
      exact foldl_collectFromInst_mono F rest _ G (collectFromInst_hit F acc i G t idx n e hk hty)
    · exact ih _ h1

theorem mem_collectArrays (F : Func) (L : Loop) (G : Nat) (bb : Nat) (hbb : bb ∈ L.blocks)
    (i : Inst) (hi : i ∈ F.blockInsts bb) (t : Ty) (idx : List Value) (n : Nat) (e : Ty)
    (hk : i.kind = .gep t (.global G) idx)
    (hty : (F.typeOf (.global G)).bind Ty.getPointerElementType = some (.array n e)) :
    G ∈ (collectArrays F L).1 := by
  unfold collectArrays
  generalize (([], []) : List Nat × List Nat) = acc
  generalize L.blocks = bs at hbb
  induction bs generalizing acc with
  | nil => simp at hbb
  | cons b rest ih =>
    simp only [List.foldl_cons]
    rcases List.mem_cons.mp hbb with h1 | h1
    · subst h1
      suffices hm : ∀ (r : List Nat) (acc : List Nat × List Nat), G ∈ acc.1 →
          G ∈ (r.foldl (fun acc bb => (F.blockInsts bb).foldl (collectFromInst F) acc) acc).1 from
        hm rest _ (foldl_collectFromInst_hit F _ acc G i hi t idx n e hk hty)
      intro r
      induction r with
      | nil => intro acc h; exact h
      | cons b2 r2 ih2 =>
        intro acc hacc
        exact ih2 _ (foldl_collectFromInst_mono F _ acc G hacc)
    · exact ih _ h1

theorem foldl_setInsert_inv {α : Type} (c : α → Bool) (g : Nat) (xs : List α) (acc : List Nat)
    (y : Nat) (hy : y ∈ xs.foldl (fun acc x => if c x then setInsert acc g else acc) acc) :
    y ∈ acc ∨ (y = g ∧ ∃ x ∈ xs, c x = true) := by
  induction xs generalizing acc with
  | nil => exact Or.inl hy
  | cons x rest ih =>
    simp only [List.foldl_cons] at hy
    rcases ih _ hy with h | ⟨h1, z, hz, hc⟩
    · by_cases hcx : c x = true
      · simp only [hcx, if_true] at h
        rcases mem_setInsert.mp h with h2 | h2
        · exact Or.inl h2
        · exact Or.inr ⟨h2, x, List.mem_cons_self _ _, hcx⟩
      · simp only [hcx, if_false, Bool.false_eq_true] at h
        exact Or.inl h
    · exact Or.inr ⟨h1, z, List.mem_cons_of_mem _ hz, hc⟩

theorem deleteStep_inv (s : DefUseSet) (acc : List Nat) (AT y : Nat)
    (hy : y ∈ deleteStep s acc AT) :
    y ∈ acc ∨ ((∃ u ∈ s.Uses, u.Ptr = .global y) ∨ (∃ d ∈ s.Defs, d.Ptr = .global y)) := by
  unfold deleteStep at hy
  rcases foldl_setInsert_inv (fun (Def : MemoryLocation) => Value.global AT == Def.Ptr) AT _ _ y hy
    with h | ⟨h1, d, hd, hc⟩
  · rcases foldl_setInsert_inv (fun (Use : MemoryLocation) => Value.global AT == Use.Ptr) AT _ _ y h
      with h2 | ⟨h1, u, hu, hc⟩
    · exact Or.inl h2
    · subst h1
      exact Or.inr (Or.inl ⟨u, hu, by simpa using (beq_iff_eq.mp hc).symm⟩)
  · subst h1
    exact Or.inr (Or.inr ⟨d, hd, by simpa using (beq_iff_eq.mp hc).symm⟩)

theorem foldl_deleteStep_inv (s : DefUseSet) (ATs : List Nat) (acc : List Nat) (y : Nat)
    (hy : y ∈ ATs.foldl (deleteStep s) acc) :
    y ∈ acc ∨ ((∃ u ∈ s.Uses, u.Ptr = .global y) ∨ (∃ d ∈ s.Defs, d.Ptr = .global y)) := by
  induction ATs generalizing acc with
  | nil => exact Or.inl hy
  | cons a rest ih =>
    simp only [List.foldl_cons] at hy
    rcases ih _ hy with h | h
    · exact deleteStep_inv s acc a y h
    · exact Or.inr h

theorem foldl_globalsToDelete_inv (fid : Nat) (GlobalAT : List Nat) (y : Nat)
    (GDM : List (Nat × DefUseSet)) (acc : List Nat)
    (h : y ∈ GDM.foldl (fun acc it =>
        if it.1 == fid then acc else GlobalAT.foldl (deleteStep it.2) acc) acc) :
    y ∈ acc ∨ ∃ it ∈ GDM, it.1 ≠ fid
      ∧ ((∃ u ∈ it.2.Uses, u.Ptr = .global y) ∨ (∃ d ∈ it.2.Defs, d.Ptr = .global y)) := by
  induction GDM generalizing acc with
  | nil => exact Or.inl h
  | cons it rest ih =>
    simp only [List.foldl_cons] at h
    rcases ih _ h with h1 | ⟨it2, hit2, hne, hu⟩
    · by_cases hf : (it.1 == fid) = true
      · simp only [hf, if_true] at h1
        exact Or.inl h1
      · simp only [hf, if_false, Bool.false_eq_true] at h1
        rcases foldl_deleteStep_inv _ _ _ _ h1 with h2 | h2
        · exact Or.inl h2
        · exact Or.inr ⟨it, List.mem_cons_self _ _, by simpa using hf, h2⟩
    · exact Or.inr ⟨it2, List.mem_cons_of_mem _ hit2, hne, hu⟩

theorem globalsToDelete_inv (fid : Nat) (GDM : List (Nat × DefUseSet)) (GlobalAT : List Nat)
    (y : Nat) (hy : y ∈ globalsToDelete fid GDM GlobalAT) :
    ∃ it ∈ GDM, it.1 ≠ fid
      ∧ ((∃ u ∈ it.2.Uses, u.Ptr = .global y) ∨ (∃ d ∈ it.2.Defs, d.Ptr = .global y)) := by
  unfold globalsToDelete at hy
  rcases foldl_globalsToDelete_inv fid GlobalAT y GDM [] hy with h1 | h1
  · simp at h1
  · exact h1

theorem mem_foldl_erase (ds l : List Nat) (x : Nat) (hx : x ∈ l) (hd : x ∉ ds) :
    x ∈ ds.foldl (fun acc gl => acc.erase gl) l := by
  induction ds generalizing l with
  | nil => exact hx
  | cons d rest ih =>
    simp only [List.foldl_cons]
    have hne : x ≠ d := fun h => hd (h ▸ List.mem_cons_self _ _)
    exact ih _ ((List.mem_erase_of_ne hne).mpr hx) (fun h => hd (List.mem_cons_of_mem _ h))

theorem mapContexts_mem {f : Nat → Option arrayScalarizeContext} {xs : List Nat}
    {cs : List arrayScalarizeContext} (h : mapContexts f xs = some cs)
    {x : Nat} (hx : x ∈ xs) : ∃ c ∈ cs, f x = some c := by
  induction xs generalizing cs with
  | nil => simp at hx
  | cons y rest ih =>
    unfold mapContexts at h
    split at h
    · rename_i c0 cs0 h1 h2
      simp only [Option.some.injEq] at h
      subst h
      rcases List.mem_cons.mp hx with h3 | h3
      · subst h3
        exact ⟨c0, List.mem_cons_self _ _, h1⟩
      · obtain ⟨c, hc, hf⟩ := ih h2 h3
        exact ⟨c, List.mem_cons_of_mem _ hc, hf⟩
    · simp at h

theorem mem_foldl_erase_val (ds l : List Value) (x : Value)
    (hx : x ∈ ds.foldl (fun vs el => vs.erase el) l) : x ∈ l := by
  induction ds generalizing l with
  | nil => exact hx
  | cons d rest ih =>
    simp only [List.foldl_cons] at hx
    exact List.mem_of_mem_erase (ih _ hx)

theorem mem_valInsert {xs : List Value} {x y : Value} (h : y ∈ valInsert xs x) :
    y ∈ xs ∨ y = x := by
  unfold valInsert at h
  split at h
  · exact Or.inl h
  · simpa using h

/-- Memory loop of the candidate search for one trait. -/
theorem foldl_memory_inv (F : Func) (L : Loop) (ms : List (Option Value)) (acc : List Value)
    (hacc : ∀ w ∈ acc, hasLoopLoadAndStore F L w = true) :
    ∀ w ∈ ms.foldl (fun Values V =>
      match V with
      | some v =>
        if v != Value.undef && hasLoopLoadAndStore F L v then valInsert Values v
        else Values
      | none => Values) acc, hasLoopLoadAndStore F L w = true := by
  induction ms generalizing acc with
  | nil => exact hacc
  | cons m ms2 ih2 =>
    simp only [List.foldl_cons]
    apply ih2
    cases m with
    | none => exact hacc
    | some v0 =>
      simp only
      by_cases hc : (v0 != Value.undef && hasLoopLoadAndStore F L v0) = true
      · rw [if_pos hc]
        intro w hw
        rcases mem_valInsert hw with h1 | h1
        · exact hacc w h1
        · subst h1
          simp only [Bool.and_eq_true] at hc
          exact hc.2
      · rw [if_neg hc]
        exact hacc

theorem foldl_pool_inv (F : Func) (L : Loop) (Pool : List DIMemoryTrait) (acc : List Value)
    (hacc : ∀ w ∈ acc, hasLoopLoadAndStore F L w = true) :
    ∀ w ∈ Pool.foldl (fun Values T =>
      if T.Anti || T.Flow || T.Output then
        T.Memory.foldl (fun Values V =>
          match V with
          | some v =>
            if v != Value.undef && hasLoopLoadAndStore F L v then valInsert Values v
            else Values
          | none => Values) Values
      else Values) acc, hasLoopLoadAndStore F L w = true := by
  induction Pool generalizing acc with
  | nil => exact hacc
  | cons T rest ih =>
    simp only [List.foldl_cons]
    apply ih
    by_cases hc : (T.Anti || T.Flow || T.Output) = true
    · rw [if_pos hc]
      exact foldl_memory_inv F L _ _ hacc
    · rw [if_neg hc]
      exact hacc

theorem mem_collectValues (F : Func) (L : Loop) (Pool : List DIMemoryTrait) (v : Value)
    (h : v ∈ collectValues F L Pool) : hasLoopLoadAndStore F L v = true := by
  unfold collectValues at h
  exact foldl_pool_inv F L Pool [] (by simp) v h

theorem hasLoopLoadAndStore_load (F : Func) (L : Loop) (V : Value)
    (h : hasLoopLoadAndStore F L V = true) :
    ∃ u ∈ F.users V, u.2.kind.isLoad = true ∧ L.contains u.1 = true := by
  unfold hasLoopLoadAndStore at h
  suffices hm : ∀ (us : List (Nat × Inst)) (s : Bool × Bool × Bool),
      (s.2.2 = true → s.1 = true) →
      ((us.foldl (fun (s : Bool × Bool × Bool) User =>
        if s.2.2 then s else
        let hasLoopLoad := s.1 || (User.2.kind.isLoad && L.containsInst User)
        let hasLoopStore := s.2.1 || (User.2.kind.isStore && L.containsInst User)
        (hasLoopLoad, hasLoopStore, hasLoopLoad && hasLoopStore)) s).2.2 = true) →
      s.1 = true ∨ ∃ u ∈ us, u.2.kind.isLoad = true ∧ L.contains u.1 = true by
    rcases hm _ (false, false, false) (by simp) h with h1 | h1
    · simp at h1
    · exact h1
  intro us
  induction us with
  | nil => intro s hs h; exact Or.inl (hs h)
  | cons u rest ih =>
    intro s hs h
    simp only [List.foldl_cons] at h
    by_cases hd : s.2.2 = true
    · exact Or.inl (hs hd)
    · simp only [hd, if_false, Bool.false_eq_true] at h
      rcases ih _ (by simp only [Bool.and_eq_true]; exact fun hh => hh.1) h with h1 | ⟨z, hz, hl⟩
      · simp only [Bool.or_eq_true, Bool.and_eq_true, Loop.containsInst] at h1
        rcases h1 with h1 | h1
        · exact Or.inl h1
        · exact Or.inr ⟨u, List.mem_cons_self _ _, h1.1, h1.2⟩
      · exact Or.inr ⟨z, List.mem_cons_of_mem _ hz, hl⟩

/-- C10, amended: a global array with an array pointee type that an indexing
instruction of the loop has as base, and that no other function uses or
defines, is selected by the array scalarizer, which takes no dependence
information: it is in the candidate set after the erasure and every list of
contexts the pass builds has a context for it.  The pointer reducer does not
select it, whatever the trait pool says, when no load inside the loop uses it
directly. -/
theorem flow_array_selection (fid : Nat) (GDM : List (Nat × DefUseSet)) (F : Func) (L : Loop)
    (G : Nat) (Pool : Option (List DIMemoryTrait))
    (bb : Nat) (hbb : bb ∈ L.blocks) (i : Inst) (hi : i ∈ F.blockInsts bb)
    (t : Ty) (idx : List Value) (n : Nat) (e : Ty)
    (hk : i.kind = .gep t (.global G) idx)
    (hty : (F.typeOf (.global G)).bind Ty.getPointerElementType = some (.array n e))
    (hown : ∀ it ∈ GDM, it.1 ≠ fid →
      (∀ u ∈ it.2.Uses, u.Ptr ≠ .global G) ∧ (∀ d ∈ it.2.Defs, d.Ptr ≠ .global G))
    (hnoload : ∀ u ∈ F.users (.global G), ¬ (u.2.kind.isLoad = true ∧ L.contains u.1 = true)) :
    G ∈ filterGlobals fid GDM (collectArrays F L).1
    ∧ (∀ Ctxs, arrayCandidates fid GDM F L = some Ctxs → ∃ Ctx ∈ Ctxs, Ctx.V = .global G)
    ∧ Value.global G ∉ pointerCandidates F L Pool := by
  have h1 : G ∈ filterGlobals fid GDM (collectArrays F L).1 := by
    unfold filterGlobals
    apply mem_foldl_erase _ _ _ (mem_collectArrays F L G bb hbb i hi t idx n e hk hty)
    intro hd
    obtain ⟨it, hit, hne, hu⟩ := globalsToDelete_inv fid GDM _ G hd
    rcases hu with ⟨u, hu, hp⟩ | ⟨d, hd2, hp⟩
    · exact (hown it hit hne).1 u hu hp
    · exact (hown it hit hne).2 d hd2 hp
  refine ⟨h1, ?_, ?_⟩
  · intro Ctxs hC
    unfold arrayCandidates makeContexts at hC
    split at hC
    · rename_i gs ls hg hl
      simp only [Option.some.injEq] at hC
      subst hC
      obtain ⟨c, hc, hf⟩ := mapContexts_mem hg h1
      exact ⟨c, List.mem_append_left _ hc, globalContext_V hf⟩
    · simp at hC
  · intro hmem
    unfold pointerCandidates at hmem
    cases Pool with
    | none => simp at hmem
    | some traits =>
      simp only at hmem
      have h2 := mem_collectValues F L traits _ (mem_foldl_erase_val _ _ _ hmem)
      obtain ⟨u, hu, hl⟩ := hasLoopLoadAndStore_load F L _ h2
      exact hnoload u hu hl

theorem flow_array_selection_witness :
    0 ∈ filterGlobals 0 fooGDM (collectArrays fooFn fooOuterLoop).1
    ∧ (∀ Ctxs, arrayCandidates 0 fooGDM fooFn fooOuterLoop = some Ctxs →
        ∃ Ctx ∈ Ctxs, Ctx.V = .global 0)
    ∧ Value.global 0 ∉ pointerCandidates fooFn fooOuterLoop fooPool :=
  flow_array_selection 0 fooGDM fooFn fooOuterLoop 0 fooPool 4 (by decide)
    (mkInst 16 (.ptr (.array 100 .double))
      (.gep (.array 100 (.array 100 .double)) (.global 0) [.constInt 64 0, .inst 15]))
    (by decide!) (.array 100 (.array 100 .double)) [.constInt 64 0, .inst 15] 100
    (.array 100 .double) rfl (by decide!) (by decide!) (by decide!)

/-! ### Users and replacement -/

theorem mem_users {F : Func} {v : Value} {p : Nat × Inst} :
    p ∈ F.users v ↔ p ∈ F.instsWithParent ∧ v ∈ p.2.kind.operands := by
  unfold Func.users
  simp only [List.mem_flatMap, List.mem_map, List.mem_filter, beq_iff_eq]
  constructor
  · rintro ⟨q, hq, o, ⟨ho, rfl⟩, rfl⟩
    exact ⟨hq, ho⟩
  · rintro ⟨h1, h2⟩
    exact ⟨p, h1, v, ⟨h2, rfl⟩, rfl⟩

theorem users_eq_nil {F : Func} {v : Value} :
    F.users v = [] ↔ ∀ p ∈ F.instsWithParent, v ∉ p.2.kind.operands := by
  constructor
  · intro h p hp hv
    have : p ∈ F.users v := mem_users.mpr ⟨hp, hv⟩
    rw [h] at this
    simp at this
  · intro h
    apply List.eq_nil_iff_forall_not_mem.mpr
    intro p hp
    exact h p (mem_users.mp hp).1 (mem_users.mp hp).2

theorem user_empty_iff {F : Func} {v : Value} : F.user_empty v = true ↔ F.users v = [] := by
  unfold Func.user_empty
  exact List.isEmpty_iff

theorem substVal_inst_eq {X : Nat} {new o : Value} {j : Nat}
    (h : substVal (.inst X) new o = .inst j) : o = .inst j ∨ (o = .inst X ∧ new = .inst j) := by
  unfold substVal at h
  split at h
  · rename_i ho
    exact Or.inr ⟨ho, h⟩
  · exact Or.inl h

theorem mem_map_substVal {old new o : Value} {l : List Value}
    (h : o ∈ l.map (substVal old new)) : ∃ o0 ∈ l, o = substVal old new o0 := by
  obtain ⟨o0, h0, rfl⟩ := List.mem_map.mp h
  exact ⟨o0, h0, rfl⟩

/-- An operand after a replacement comes from an operand before it. -/
theorem operands_subst {old new o : Value} {k : Kind} (h : o ∈ (k.subst old new).operands) :
    ∃ o0 ∈ k.operands, o = substVal old new o0 ∨ o = o0 := by
  cases k with
  | alloca t n =>
    simp only [Kind.subst, Kind.operands, List.mem_singleton] at h
    exact ⟨n, by simp [Kind.operands], Or.inl h⟩
  | load p v =>
    simp only [Kind.subst, Kind.operands, List.mem_singleton] at h
    exact ⟨p, by simp [Kind.operands], Or.inl h⟩
  | store v p =>
    simp only [Kind.subst, Kind.operands, List.mem_cons, List.mem_singleton,
      List.not_mem_nil, or_false] at h
    rcases h with h | h
    · exact ⟨v, by simp [Kind.operands], Or.inl h⟩
    · exact ⟨p, by simp [Kind.operands], Or.inl h⟩
  | gep t p idx =>
    simp only [Kind.subst, Kind.operands, List.mem_cons] at h
    rcases h with h | h
    · exact ⟨p, by simp [Kind.operands], Or.inl h⟩
    · obtain ⟨o0, h0, h1⟩ := mem_map_substVal h
      exact ⟨o0, by simp [Kind.operands, h0], Or.inl h1⟩
  | call c args =>
    simp only [Kind.subst, Kind.operands] at h
    obtain ⟨o0, h0, h1⟩ := mem_map_substVal h
    exact ⟨o0, by simp [Kind.operands, h0], Or.inl h1⟩
  | dbgValue v var e => simp [Kind.subst, Kind.operands] at h
  | dbgDeclare a var => simp [Kind.subst, Kind.operands] at h
  | lifetime s p =>
    simp only [Kind.subst, Kind.operands, List.mem_singleton] at h
    exact ⟨p, by simp [Kind.operands], Or.inl h⟩
  | phi inc =>
    simp only [Kind.subst, Kind.operands, List.map_map, List.mem_map, Function.comp] at h
    obtain ⟨q, hq, rfl⟩ := h
    exact ⟨q.1, by simp only [Kind.operands, List.mem_map]; exact ⟨q, hq, rfl⟩, Or.inl rfl⟩
  | add a b =>
    simp only [Kind.subst, Kind.operands, List.mem_cons, List.mem_singleton,
      List.not_mem_nil, or_false] at h
    rcases h with h | h
    · exact ⟨a, by simp [Kind.operands], Or.inl h⟩
    · exact ⟨b, by simp [Kind.operands], Or.inl h⟩
  | sub a b =>
    simp only [Kind.subst, Kind.operands, List.mem_cons, List.mem_singleton,
      List.not_mem_nil, or_false] at h
    rcases h with h | h
    · exact ⟨a, by simp [Kind.operands], Or.inl h⟩
    · exact ⟨b, by simp [Kind.operands], Or.inl h⟩
  | cast a =>
    simp only [Kind.subst, Kind.operands, List.mem_singleton] at h
    exact ⟨a, by simp [Kind.operands], Or.inl h⟩
  | icmpSlt a b =>
    simp only [Kind.subst, Kind.operands, List.mem_cons, List.mem_singleton,
      List.not_mem_nil, or_false] at h
    rcases h with h | h
    · exact ⟨a, by simp [Kind.operands], Or.inl h⟩
    · exact ⟨b, by simp [Kind.operands], Or.inl h⟩
  | br d => simp [Kind.subst, Kind.operands] at h
  | condBr c t f =>
    simp only [Kind.subst, Kind.operands, List.mem_singleton] at h
    exact ⟨c, by simp [Kind.operands], Or.inl h⟩
  | switch c d cases =>
    simp only [Kind.subst, Kind.operands, List.mem_cons] at h
    rcases h with h | h
    · exact ⟨c, by simp [Kind.operands], Or.inl h⟩
    · exact ⟨o, by simp only [Kind.operands, List.mem_cons]; exact Or.inr h, Or.inr rfl⟩
  | ret => simp [Kind.subst, Kind.operands] at h

theorem isLoad_subst (old new : Value) (k : Kind) : (k.subst old new).isLoad = k.isLoad := by
  cases k <;> rfl

/-- A replacement by an instruction other than `V` creates no load of `V`. -/
theorem isLoadOf_subst {V : Value} {X Y : Nat} {i : Inst} (hY : V ≠ .inst Y)
    (h : isLoadOf V { i with kind := i.kind.subst (.inst X) (.inst Y) } = true) :
    isLoadOf V i = true := by
  unfold isLoadOf at h ⊢
  cases hk : i.kind with
  | load p v =>
    simp only [hk, Kind.subst, beq_iff_eq] at h ⊢
    unfold substVal at h
    split at h
    · exact absurd h.symm hY
    · exact h
  | _ => simp [hk, Kind.subst] at h

/-! ### Invariants under replacement, erasure and insertion -/

theorem goodTarget_iff {F : Func} {L : Loop} {V : Value} {r : Nat} :
    goodTarget F L V r = true ↔
      V ≠ .inst r ∧ ∀ p ∈ F.instsWithParent, p.2.id = r → L.contains p.1 = true →
        isLoadOf V p.2 = false := by
  unfold goodTarget
  simp only [Bool.and_eq_true, bne_iff_ne, ne_eq, List.all_eq_true, Bool.not_eq_true',
    Bool.and_eq_false_imp, beq_iff_eq, and_imp]

theorem definesPlain_iff {V : Value} {i : Inst} :
    definesPlain V i = true ↔
      (V = .inst i.id → i.kind.isLoad = false ∧ ∀ o ∈ i.kind.operands, o.isInst = false) := by
  unfold definesPlain
  by_cases h : V = .inst i.id
  · simp [h]
  · simp [h]

theorem uniqueIds_mapInsts {F : Func} {f : Inst → Inst} (hf : ∀ i, (f i).id = i.id)
    (hU : F.UniqueIds) : (F.mapInsts f).UniqueIds := by
  intro p hp q hq hid
  rw [instsWithParent_mapInsts] at hp hq
  obtain ⟨p0, hp0, rfl⟩ := List.mem_map.mp hp
  obtain ⟨q0, hq0, rfl⟩ := List.mem_map.mp hq
  simp only [hf] at hid
  rw [hU p0 hp0 q0 hq0 hid]

theorem idsBelow_mapInsts {F : Func} {f : Inst → Inst} (hf : ∀ i, (f i).id = i.id)
    (hB : F.IdsBelow) : (F.mapInsts f).IdsBelow := by
  intro p hp
  rw [instsWithParent_mapInsts] at hp
  obtain ⟨p0, hp0, rfl⟩ := List.mem_map.mp hp
  simp only [hf]
  exact hB p0 hp0

theorem mem_instsWithParent_rauw {F : Func} {old new : Value} {p : Nat × Inst}
    (h : p ∈ (F.replaceAllUsesWith old new).instsWithParent) :
    ∃ p0 ∈ F.instsWithParent, p = (p0.1, { p0.2 with kind := p0.2.kind.subst old new }) := by
  unfold Func.replaceAllUsesWith at h
  rw [instsWithParent_mapInsts] at h
  obtain ⟨p0, hp0, rfl⟩ := List.mem_map.mp h
  exact ⟨p0, hp0, rfl⟩

theorem blockInsts_rauw (F : Func) (old new : Value) (bb : Nat) :
    (F.replaceAllUsesWith old new).blockInsts bb
      = (F.blockInsts bb).map (fun i => { i with kind := i.kind.subst old new }) :=
  blockInsts_mapInsts F _ bb

theorem definesPlain_subst {V : Value} {X : Nat} {new : Value} {i : Inst}
    (h : definesPlain V i = true) :
    definesPlain V { i with kind := i.kind.subst (.inst X) new } = true := by
  rw [definesPlain_iff] at h ⊢
  intro hV
  obtain ⟨h1, h2⟩ := h hV
  refine ⟨by simp only [isLoad_subst]; exact h1, ?_⟩
  intro o ho
  obtain ⟨o0, ho0, h3⟩ := operands_subst ho
  have h4 := h2 o0 ho0
  rcases h3 with h3 | h3
  · rw [h3]
    unfold substVal
    split
    · rename_i he
      rw [he] at h4
      simp [Value.isInst] at h4
    · exact h4
  · rw [h3]; exact h4

theorem goodTarget_rauw {F : Func} {L : Loop} {V : Value} {X Y r : Nat} (hY : V ≠ .inst Y)
    (h : goodTarget F L V r = true) :
    goodTarget (F.replaceAllUsesWith (.inst X) (.inst Y)) L V r = true := by
  rw [goodTarget_iff] at h ⊢
  refine ⟨h.1, ?_⟩
  intro p hp hid hc
  obtain ⟨p0, hp0, rfl⟩ := mem_instsWithParent_rauw hp
  cases hl : isLoadOf V { p0.2 with kind := p0.2.kind.subst (.inst X) (.inst Y) } with
  | false => rfl
  | true =>
    have := isLoadOf_subst hY hl
    rw [h.2 p0 hp0 hid hc] at this
    exact absurd this (by simp)

theorem users_rauw_nil {F : Func} {X Y j : Nat} (h : F.users (.inst j) = []) (hY : Y ≠ j) :
    (F.replaceAllUsesWith (.inst X) (.inst Y)).users (.inst j) = [] := by
  rw [users_eq_nil] at h ⊢
  intro p hp ho
  obtain ⟨p0, hp0, rfl⟩ := mem_instsWithParent_rauw hp
  obtain ⟨o0, ho0, h3⟩ := operands_subst ho
  rcases h3 with h3 | h3
  · rcases substVal_inst_eq h3.symm with h4 | ⟨_, h4⟩
    · exact h p0 hp0 (h4 ▸ ho0)
    · injection h4 with h4
      exact hY h4
  · exact h p0 hp0 (h3 ▸ ho0)

theorem safeLoads_rauw {V : Value} {L : Loop} {F : Func} {loads : List Nat}
    {P : Nat → Nat → Prop} {X Y : Nat} (hS : SafeLoads V L F loads P)
    (hG : goodTarget F L V Y = true) :
    SafeLoads V L (F.replaceAllUsesWith (.inst X) (.inst Y)) loads P := by
  intro B i hi hB hP hl
  rw [blockInsts_rauw] at hi
  obtain ⟨i0, hi0, rfl⟩ := List.mem_map.mp hi
  have hG' := goodTarget_iff.mp hG
  have hl0 := isLoadOf_subst hG'.1 hl
  rcases hS B i0 hi0 hB hP hl0 with h | h
  · exact Or.inl h
  · refine Or.inr (users_rauw_nil h ?_)
    intro hY
    have := hG'.2 (B, i0) (mem_blockInsts hi0) hY.symm hB
    rw [hl0] at this
    exact absurd this (by simp)

theorem safeLoads_mono {V : Value} {L : Loop} {F : Func} {loads loads' : List Nat}
    {P : Nat → Nat → Prop} (hS : SafeLoads V L F loads P) (hsub : ∀ x ∈ loads, x ∈ loads') :
    SafeLoads V L F loads' P := by
  intro B i hi hB hP hl
  rcases hS B i hi hB hP hl with h | h
  · exact Or.inl (hsub _ h)
  · exact Or.inr h

/-! Erasure. -/

theorem mem_instsWithParent_erase {F : Func} {id : Nat} {p : Nat × Inst}
    (h : p ∈ (F.erase id).instsWithParent) : p ∈ F.instsWithParent ∧ p.2.id ≠ id := by
  rw [mem_instsWithParent] at h
  obtain ⟨b', hb', h1, h2⟩ := h
  unfold Func.erase Func.mapBlocks at hb'
  simp only [List.mem_map] at hb'
  obtain ⟨b, hb, rfl⟩ := hb'
  simp only [List.mem_filter, bne_iff_ne, ne_eq] at h1 h2
  exact ⟨mem_instsWithParent.mpr ⟨b, hb, h1, h2.1⟩, h2.2⟩

theorem mem_instsWithParent_eraseAll {F : Func} {ids : List Nat} {p : Nat × Inst}
    (h : p ∈ (F.eraseAll ids).instsWithParent) : p ∈ F.instsWithParent ∧ p.2.id ∉ ids := by
  unfold Func.eraseAll at h
  induction ids generalizing F with
  | nil => exact ⟨h, by simp⟩
  | cons x rest ih =>
    simp only [List.foldl_cons] at h
    obtain ⟨h1, h2⟩ := ih h
    obtain ⟨h3, h4⟩ := mem_instsWithParent_erase h1
    refine ⟨h3, ?_⟩
    simp only [List.mem_cons, not_or]
    exact ⟨h4, h2⟩

theorem mem_blockInsts_eraseAll {F : Func} {ids : List Nat} {bb : Nat} {i : Inst}
    (h : i ∈ (F.eraseAll ids).blockInsts bb) : i ∈ F.blockInsts bb ∧ i.id ∉ ids := by
  unfold Func.eraseAll at h
  induction ids generalizing F with
  | nil => exact ⟨h, by simp⟩
  | cons x rest ih =>
    simp only [List.foldl_cons] at h
    obtain ⟨h1, h2⟩ := ih h
    rw [blockInsts_erase] at h1
    simp only [List.mem_filter, bne_iff_ne, ne_eq] at h1
    refine ⟨h1.1, ?_⟩
    simp only [List.mem_cons, not_or]
    exact ⟨h1.2, h2⟩

theorem nextInst_eraseAll (F : Func) (ids : List Nat) :
    (F.eraseAll ids).nextInst = F.nextInst := by
  unfold Func.eraseAll
  induction ids generalizing F with
  | nil => rfl
  | cons x rest ih =>
    simp only [List.foldl_cons]
    rw [ih]
    rfl

theorem users_eraseAll_nil {F : Func} {ids : List Nat} {v : Value} (h : F.users v = []) :
    (F.eraseAll ids).users v = [] := by
  rw [users_eq_nil] at h ⊢
  intro p hp
  exact h p (mem_instsWithParent_eraseAll hp).1

theorem goodTarget_of_subset {F F' : Func} {L : Loop} {V : Value} {r : Nat}
    (hsub : ∀ p ∈ F'.instsWithParent, p ∈ F.instsWithParent ∨ isLoadOf V p.2 = false)
    (h : goodTarget F L V r = true) : goodTarget F' L V r = true := by
  rw [goodTarget_iff] at h ⊢
  refine ⟨h.1, ?_⟩
  intro p hp hid hc
  rcases hsub p hp with h1 | h1
  · exact h.2 p h1 hid hc
  · exact h1

/-! Insertion of a debug value. -/

theorem users_insertBefore_nil {F : Func} {pos : Nat} {n : Inst} {v : Value}
    (h : F.users v = []) (hn : n.kind.operands = []) :
    (F.insertBefore pos n).users v = [] := by
  rw [users_eq_nil] at h ⊢
  intro p hp
  rcases mem_instsWithParent_insertBefore hp with h1 | ⟨h1, _⟩
  · exact h p h1
  · rw [h1, hn]; simp

/-! ### The scan of `handleLoadsInBB` -/

theorem findInst_some {F : Func} {id : Nat} {i : Inst} (h : F.findInst id = some i) :
    (∃ b, (b, i) ∈ F.instsWithParent) ∧ i.id = id := by
  unfold Func.findInst at h
  obtain ⟨p, hp, rfl⟩ := Option.map_eq_some'.mp h
  exact ⟨⟨p.1, List.mem_of_find?_eq_some hp⟩, by simpa using List.find?_some hp⟩

theorem find_of_mem_unique {F : Func} (hU : F.UniqueIds) {p : Nat × Inst}
    (h : p ∈ F.instsWithParent) :
    F.instsWithParent.find? (fun q => q.2.id == p.2.id) = some p := by
  cases hf : F.instsWithParent.find? (fun q => q.2.id == p.2.id) with
  | none =>
    rw [List.find?_eq_none] at hf
    have := hf p h
    simp at this
  | some q =>
    have h1 : q ∈ F.instsWithParent := List.mem_of_find?_eq_some hf
    have h2 : q.2.id = p.2.id := by simpa using List.find?_some hf
    rw [hU q h1 p h h2]

theorem findInst_of_mem {F : Func} (hU : F.UniqueIds) {p : Nat × Inst}
    (h : p ∈ F.instsWithParent) : F.findInst p.2.id = some p.2 := by
  unfold Func.findInst
  rw [find_of_mem_unique hU h]
  rfl

theorem parentOf_of_mem {F : Func} (hU : F.UniqueIds) {p : Nat × Inst}
    (h : p ∈ F.instsWithParent) : F.parentOf p.2.id = some p.1 := by
  unfold Func.parentOf
  rw [find_of_mem_unique hU h]
  rfl

theorem mem_mapSet {α : Type} {m : List (Nat × α)} {k : Nat} {v : α} {e : Nat × α}
    (h : e ∈ mapSet m k v) : e ∈ m ∨ e = (k, v) := by
  unfold mapSet at h
  split at h
  · obtain ⟨e0, he0, rfl⟩ := List.mem_map.mp h
    split
    · exact Or.inr rfl
    · exact Or.inl he0
  · simpa using h

theorem mapFind_some {α : Type} {m : List (Nat × α)} {k : Nat} {v : α}
    (h : mapFind m k = some v) : (k, v) ∈ m := by
  unfold mapFind at h
  obtain ⟨p, hp, rfl⟩ := Option.map_eq_some'.mp h
  have h1 : p ∈ m := List.mem_of_find?_eq_some hp
  have h2 : p.1 = k := by simpa using List.find?_some hp
  rw [← h2]
  exact h1

theorem mapIndex_fst {α : Type} {m : List (Nat × Option α)} {k : Nat} {r : α}
    (h : (mapIndex m k).1 = some r) : (k, some r) ∈ m := by
  unfold mapIndex at h
  split at h
  · rename_i v hv
    simp only at h
    subst h
    exact mapFind_some hv
  · simp at h

theorem mem_mapIndex_snd {α : Type} {m : List (Nat × Option α)} {k : Nat}
    {e : Nat × Option α} (h : e ∈ (mapIndex m k).2) : e ∈ m ∨ e.2 = none := by
  unfold mapIndex at h
  split at h
  · exact Or.inl h
  · simp only [List.mem_append, List.mem_singleton] at h
    rcases h with h | h
    · exact Or.inl h
    · exact Or.inr (by rw [h])

theorem isLoadOf_operands {V : Value} {i : Inst} (h : isLoadOf V i = true) :
    i.kind.operands = [V] ∧ i.kind.isLoad = true := by
  unfold isLoadOf at h
  cases hk : i.kind with
  | load p v =>
    simp only [hk, beq_iff_eq] at h
    simp [Kind.operands, Kind.isLoad, h]
  | _ => simp [hk] at h

theorem getAllStoreOperands_mem {F : Func} {I : Inst} {acc : List (Nat × Nat)}
    {e : Nat × Nat} (h : e ∈ getAllStoreOperands F I acc) :
    e ∈ acc ∨ ∃ p ∈ F.users (.inst I.id), p.2.id = e.2 := by
  unfold getAllStoreOperands at h
  generalize F.users (.inst I.id) = us at h ⊢
  induction us generalizing acc with
  | nil => exact Or.inl h
  | cons u rest ih =>
    simp only [List.foldl_cons] at h
    rcases ih h with h1 | ⟨p, hp, hpe⟩
    · split at h1
      · rcases mem_mapSet h1 with h2 | h2
        · exact Or.inl h2
        · exact Or.inr ⟨u, List.mem_cons_self _ _, by rw [h2]⟩
      · exact Or.inl h1
    · exact Or.inr ⟨p, List.mem_cons_of_mem _ hp, hpe⟩

/-- A user of a load that belongs to the function is a good target. -/
theorem goodTarget_of_user {V : Value} {L : Loop} {ctx : PtrRedContext}
    (inv : RewriteInv V L ctx) {Load : Inst} (hLoad : ∃ b, (b, Load) ∈ ctx.F.instsWithParent)
    (hisLoad : Load.kind.isLoad = true) {p : Nat × Inst}
    (hp : p ∈ ctx.F.users (.inst Load.id)) : goodTarget ctx.F L V p.2.id = true := by
  obtain ⟨hpm, hpo⟩ := mem_users.mp hp
  rw [goodTarget_iff]
  constructor
  · intro hV
    have := (definesPlain_iff.mp (inv.plain p hpm) hV).2 _ hpo
    simp [Value.isInst] at this
  · intro q hq hid _
    have hqp := inv.uniq q hq p hpm hid
    subst hqp
    cases hl : isLoadOf V q.2 with
    | false => rfl
    | true =>
      exfalso
      obtain ⟨ho, _⟩ := isLoadOf_operands hl
      rw [ho] at hpo
      simp only [List.mem_singleton] at hpo
      obtain ⟨b, hb⟩ := hLoad
      have := (definesPlain_iff.mp (inv.plain _ hb) hpo.symm).1
      rw [hisLoad] at this
      exact absurd this (by simp)

theorem recordStores_inv {V : Value} {L : Loop} (pairs : List (Nat × Nat))
    (ctx ctx' : PtrRedContext) (inv : RewriteInv V L ctx)
    (hgood : ∀ e ∈ pairs, goodTarget ctx.F L V e.2 = true)
    (h : recordStores ctx pairs = some ctx') :
    RewriteInv V L ctx' ∧ ctx'.F = ctx.F ∧ ctx'.ValueChanged = ctx.ValueChanged
      ∧ ctx'.InsertedLoads = ctx.InsertedLoads := by
  induction pairs generalizing ctx with
  | nil =>
    simp only [recordStores, Option.some.injEq] at h
    subst h
    exact ⟨inv, rfl, rfl, rfl⟩
  | cons e rest ih =>
    unfold recordStores at h
    split at h
    · simp at h
    · rename_i bb hbb
      have hg := hgood e (List.mem_cons_self _ _)
      have inv1 : RewriteInv V L
          { ctx with LastInstructions := mapSet ctx.LastInstructions bb (some e.2),
                     ChangedLastInst := setInsert ctx.ChangedLastInst bb } :=
        { hV := inv.hV, hL := inv.hL, uniq := inv.uniq, below := inv.below, plain := inv.plain,
          head := inv.head,
          tracked := by
            intro x hx r hr
            rcases mem_mapSet hx with h1 | h1
            · exact inv.tracked x h1 r hr
            · rw [h1] at hr
              simp only [Option.some.injEq] at hr
              rw [← hr]
              exact hg }
      obtain ⟨h1, h2, h3, h4⟩ := ih _ inv1 (fun x hx => hgood x (List.mem_cons_of_mem _ hx)) h
      exact ⟨h1, h2, h3, h4⟩

theorem stepOK_refl {V : Value} {L : Loop} {st : ScanState} (inv : RewriteInv V L st.ctx) :
    StepOK V L st st :=
  { inv := inv, safe := fun _ h => h, good := fun _ h => h, ids := fun _ => rfl,
    loads := fun _ h => h, vc := rfl, il := rfl,
    mem := fun p hp => ⟨p, hp, rfl, rfl, rfl⟩ }

theorem stepOK_trans {V : Value} {L : Loop} {s1 s2 s3 : ScanState} (h12 : StepOK V L s1 s2)
    (h23 : StepOK V L s2 s3) : StepOK V L s1 s3 :=
  { inv := h23.inv, safe := fun P h => h23.safe P (h12.safe P h),
    good := fun r h => h23.good r (h12.good r h),
    ids := fun B => (h23.ids B).trans (h12.ids B),
    loads := fun x h => h23.loads x (h12.loads x h),
    vc := h23.vc.trans h12.vc, il := h23.il.trans h12.il,
    mem := by
      intro p hp
      obtain ⟨p1, hp1, a1, a2, a3⟩ := h23.mem p hp
      obtain ⟨p0, hp0, b1, b2, b3⟩ := h12.mem p1 hp1
      exact ⟨p0, hp0, b1.trans a1, b2.trans a2, b3.trans a3⟩ }

theorem replaceAllLoadUsers_ok {V : Value} {L : Loop} (st : ScanState) {st' : ScanState}
    {Load : Inst} {ReplaceWith : Option Nat} (inv : RewriteInv V L st.ctx)
    (hLoad : ∃ b, (b, Load) ∈ st.ctx.F.instsWithParent) (hisLoad : Load.kind.isLoad = true)
    (hgood : ∀ r, ReplaceWith = some r → goodTarget st.ctx.F L V r = true)
    (h : replaceAllLoadUsers st Load ReplaceWith = some st') : StepOK V L st st' := by
  unfold replaceAllLoadUsers at h
  dsimp only at h
  split at h
  · rename_i ctx1 r hrec
    simp only [Option.some.injEq] at h
    subst h
    have hpairs : ∀ e ∈ getAllStoreOperands st.ctx.F Load [],
        goodTarget st.ctx.F L V e.2 = true := by
      intro e he
      rcases getAllStoreOperands_mem he with h1 | ⟨p, hp, hpe⟩
      · simp at h1
      · rw [← hpe]
        exact goodTarget_of_user inv hLoad hisLoad hp
    obtain ⟨inv1, hF, hvc, hil⟩ := recordStores_inv _ _ _ inv hpairs hrec
    have hg := hgood r rfl
    have hY : V ≠ .inst r := (goodTarget_iff.mp hg).1
    refine
      { inv :=
          { hV := inv1.hV, hL := inv1.hL,
            uniq := uniqueIds_mapInsts (fun _ => rfl) inv1.uniq,
            below := idsBelow_mapInsts (fun _ => rfl) inv1.below,
            plain := ?_, tracked := ?_, head := ?_ },
        safe := ?_, good := ?_, ids := ?_, loads := fun _ hx => hx, vc := hvc, il := hil,
        mem := ?_ }
    · intro p hp
      obtain ⟨p0, hp0, rfl⟩ := mem_instsWithParent_rauw hp
      exact definesPlain_subst (inv1.plain p0 hp0)
    · intro e he x hx
      exact goodTarget_rauw hY (inv1.tracked e he x hx)
    · intro x hx
      exact goodTarget_rauw hY (inv1.head x hx)
    · intro P hS
      simp only
      rw [hF]
      exact safeLoads_rauw hS hg
    · intro x hx
      simp only
      rw [hF]
      exact goodTarget_rauw hY hx
    · intro B
      simp only
      rw [hF, blockInsts_rauw, List.map_map]
      rfl
    · intro p hp
      simp only at hp
      rw [hF] at hp
      obtain ⟨p0, hp0, rfl⟩ := mem_instsWithParent_rauw hp
      exact ⟨p0, hp0, rfl, rfl, (isLoad_subst _ _ _).symm⟩
  · simp at h

theorem stepOK_loads {V : Value} {L : Loop} {st : ScanState} (inv : RewriteInv V L st.ctx)
    (extra : List Nat) : StepOK V L st { st with loads := st.loads ++ extra } :=
  { inv := inv, safe := fun _ h => safeLoads_mono h (fun _ hx => List.mem_append_left _ hx),
    good := fun _ h => h, ids := fun _ => rfl,
    loads := fun _ h => List.mem_append_left _ h, vc := rfl, il := rfl,
    mem := fun p hp => ⟨p, hp, rfl, rfl, rfl⟩ }

theorem replaceChildLoads_ok {V : Value} {L : Loop} (lastVal : Option Nat) (us : List Nat)
    (st st' : ScanState) (inv : RewriteInv V L st.ctx)
    (hgood : ∀ r, lastVal = some r → goodTarget st.ctx.F L V r = true)
    (h : replaceChildLoads lastVal us st = some st') : StepOK V L st st' := by
  induction us generalizing st with
  | nil =>
    simp only [replaceChildLoads, Option.some.injEq] at h
    subst h
    exact stepOK_refl inv
  | cons user rest ih =>
    unfold replaceChildLoads at h
    split at h
    · simp at h
    · rename_i LoadChild hfind
      split at h
      · rename_i hisLoad
        split at h
        · simp at h
        · rename_i st1 hrep
          have s1 := replaceAllLoadUsers_ok st inv (findInst_some hfind).1 hisLoad hgood hrep
          have s2 := stepOK_loads s1.inv [LoadChild.id]
          have s12 := stepOK_trans s1 s2
          exact stepOK_trans s12
            (ih _ s2.inv (fun r hr => s12.good r (hgood r hr)) h)
      · exact ih _ inv hgood h

theorem inv_mapIndex {V : Value} {L : Loop} {ctx : PtrRedContext} (inv : RewriteInv V L ctx)
    (k : Nat) :
    RewriteInv V L { ctx with LastInstructions := (mapIndex ctx.LastInstructions k).2 } :=
  { hV := inv.hV, hL := inv.hL, uniq := inv.uniq, below := inv.below, plain := inv.plain,
    head := inv.head,
    tracked := by
      intro e he r hr
      rcases mem_mapIndex_snd he with h1 | h1
      · exact inv.tracked e h1 r hr
      · rw [h1] at hr; simp at hr }

theorem safeLoads_imp {V : Value} {L : Loop} {F : Func} {loads : List Nat}
    {P Q : Nat → Nat → Prop} (hS : SafeLoads V L F loads P) (h : ∀ B j, Q B j → P B j) :
    SafeLoads V L F loads Q :=
  fun B i hi hB hQ hl => hS B i hi hB (h _ _ hQ) hl

/-- One instruction of the scan: the step keeps the invariant and covers
the instruction. -/
theorem handleInst_ok {V : Value} {L : Loop} (BB : Nat) (st st' : ScanState) (id : Nat)
    (inv : RewriteInv V L st.ctx) (h : handleInst BB st id = some st') :
    StepOK V L st st'
    ∧ ∀ P, SafeLoads V L st.ctx.F st.loads P →
        SafeLoads V L st'.ctx.F st'.loads (fun B j => P B j ∨ (B = BB ∧ j = id)) := by
  unfold handleInst at h
  split at h
  · simp at h
  · rename_i Instr hfind
    obtain ⟨⟨b0, hmem0⟩, hid0⟩ := findInst_some hfind
    -- the instruction of the block that carries the identity is `Instr`
    have hsame : ∀ B i, i ∈ st.ctx.F.blockInsts B → i.id = id → i = Instr := by
      intro B i hi hii
      have := inv.uniq _ (mem_blockInsts hi) _ hmem0 (hii.trans hid0.symm)
      simp only [Prod.mk.injEq] at this
      exact this.2
    have hunchanged : ∀ (hnl : isLoadOf V Instr = false), ∀ P,
        SafeLoads V L st.ctx.F st.loads P →
        SafeLoads V L st.ctx.F st.loads (fun B j => P B j ∨ (B = BB ∧ j = id)) := by
      intro hnl P hS B i hi hB hP hl
      rcases hP with hP | ⟨_, hj⟩
      · exact hS B i hi hB hP hl
      · rw [hsame B i hi hj, hnl] at hl
        exact absurd hl (by simp)
    split at h
    · rename_i ptr vol hk
      split at h
      · rename_i hne
        simp only [Option.some.injEq] at h
        subst h
        refine ⟨stepOK_refl inv, hunchanged ?_⟩
        unfold isLoadOf
        rw [hk]
        simp only [bne_iff_ne, ne_eq] at hne
        rw [inv.hV] at hne
        simpa using hne
      · dsimp only at h
        have inv0 := inv_mapIndex inv BB
        have s0 : StepOK V L st
            { st with ctx := { st.ctx with
                LastInstructions := (mapIndex st.ctx.LastInstructions BB).2 } } :=
          { inv := inv0, safe := fun _ hS => hS, good := fun _ hg => hg, ids := fun _ => rfl,
            loads := fun _ hx => hx, vc := rfl, il := rfl,
            mem := fun p hp => ⟨p, hp, rfl, rfl, rfl⟩ }
        have hlast : ∀ r, (mapIndex st.ctx.LastInstructions BB).1 = some r →
            goodTarget st.ctx.F L V r = true :=
          fun r hr => inv.tracked _ (mapIndex_fst hr) r rfl
        have hisLoad : Instr.kind.isLoad = true := by rw [hk]; rfl
        split at h
        · rename_i hempty
          simp only [Option.some.injEq] at h
          subst h
          refine ⟨s0, ?_⟩
          intro P hS B i hi hB hP hl
          rcases hP with hP | ⟨_, hj⟩
          · exact hS B i hi hB hP hl
          · have := hsame B i hi hj
            subst this
            exact Or.inr (user_empty_iff.mp hempty)
        · obtain ⟨s2, hs2, rfl⟩ := Option.map_eq_some'.mp h
          have hstep : StepOK V L st s2 := by
            split at hs2
            · exact stepOK_trans s0
                (replaceAllLoadUsers_ok
                  { st with ctx := { st.ctx with
                      LastInstructions := (mapIndex st.ctx.LastInstructions BB).2 } }
                  inv0 ⟨b0, hmem0⟩ hisLoad hlast hs2)
            · split at hs2
              · simp at hs2
              · rename_i st1 hch
                have s1 := replaceChildLoads_ok _ _
                  { st with ctx := { st.ctx with
                      LastInstructions := (mapIndex st.ctx.LastInstructions BB).2 } }
                  _ inv0 hlast hch
                split at hs2
                · simp at hs2
                · rename_i Load1 hfind1
                  obtain ⟨⟨b1, hmem1⟩, hid1⟩ := findInst_some hfind1
                  obtain ⟨p0, hp0, _, hp0id, hp0l⟩ := s1.mem _ hmem1
                  have heq := inv.uniq p0 hp0 _ hmem0
                    (hp0id.trans (hid1.trans hid0.symm))
                  rw [heq] at hp0l
                  exact stepOK_trans s0 (stepOK_trans s1
                    (replaceAllLoadUsers_ok st1 s1.inv ⟨b1, hmem1⟩
                      (hp0l.symm.trans hisLoad) (fun r hr => s1.inv.head r hr) hs2))
          have hfin := stepOK_trans hstep (stepOK_loads hstep.inv [Instr.id])
          refine ⟨hfin, ?_⟩
          intro P hS B i hi hB hP hl
          rcases hP with hP | ⟨_, hj⟩
          · exact hfin.safe P hS B i hi hB hP hl
          · refine Or.inl ?_
            simp only [List.mem_append, List.mem_singleton]
            exact Or.inr (hj.trans hid0.symm)
    · rename_i hk
      simp only [Option.some.injEq] at h
      subst h
      refine ⟨stepOK_refl inv, hunchanged ?_⟩
      unfold isLoadOf
      split
      · rename_i p v hk2
        exact absurd hk2 (hk p v)
      · rfl

/-- The scan of a block. -/
theorem scan_ok {V : Value} {L : Loop} (BB : Nat) (ids : List Nat) (st st' : ScanState)
    (inv : RewriteInv V L st.ctx) (h : ids.foldlM (handleInst BB) st = some st') :
    StepOK V L st st'
    ∧ ∀ P, SafeLoads V L st.ctx.F st.loads P →
        SafeLoads V L st'.ctx.F st'.loads (fun B j => P B j ∨ (B = BB ∧ j ∈ ids)) := by
  induction ids generalizing st with
  | nil =>
    simp only [List.foldlM_nil, Option.pure_def, Option.some.injEq] at h
    subst h
    exact ⟨stepOK_refl inv, fun P hS => safeLoads_imp hS (by
      intro B j hq
      rcases hq with hq | ⟨_, hq⟩
      · exact hq
      · simp at hq)⟩
  | cons id rest ih =>
    simp only [List.foldlM_cons, Option.bind_eq_bind] at h
    obtain ⟨s1, hs1, hrest⟩ := Option.bind_eq_some.mp h
    obtain ⟨ok1, cov1⟩ := handleInst_ok BB st s1 id inv hs1
    obtain ⟨ok2, cov2⟩ := ih s1 ok1.inv hrest
    refine ⟨stepOK_trans ok1 ok2, ?_⟩
    intro P hS
    refine safeLoads_imp (cov2 _ (cov1 P hS)) ?_
    intro B j hq
    rcases hq with hq | ⟨hb, hq⟩
    · exact Or.inl (Or.inl hq)
    · rcases List.mem_cons.mp hq with h1 | h1
      · exact Or.inl (Or.inr ⟨hb, h1⟩)
      · exact Or.inr ⟨hb, h1⟩

/-! ### The end of `handleLoadsInBB` and the traversal -/

theorem mem_insertBeforeList {pos : Nat} {n x : Inst} {l : List Inst}
    (h : x ∈ insertBeforeList pos n l) : x ∈ l ∨ x = n := by
  induction l with
  | nil => simp [insertBeforeList] at h
  | cons y rest ih =>
    unfold insertBeforeList at h
    split at h
    · rcases List.mem_cons.mp h with h1 | h1
      · exact Or.inr h1
      · exact Or.inl h1
    · rcases List.mem_cons.mp h with h1 | h1
      · exact Or.inl (h1 ▸ List.mem_cons_self _ _)
      · rcases ih h1 with h2 | h2
        · exact Or.inl (List.mem_cons_of_mem _ h2)
        · exact Or.inr h2

theorem insertDbgValueCall_false {ctx ctx' : PtrRedContext} {I pos : Nat}
    (h : insertDbgValueCall ctx I (some pos) false = some ctx') :
    ∃ call : Inst, call.kind.operands = [] ∧ call.kind.isLoad = false
      ∧ call.id = ctx.F.nextInst
      ∧ ctx' = { ctx with F := ((ctx.F.fresh).2).insertBefore pos call } := by
  unfold insertDbgValueCall at h
  split at h
  · simp at h
  · split at h
    · simp at h
    · dsimp only at h
      split at h
      · rename_i var loc _ _
        simp only [Bool.false_eq_true, if_false, Option.some.injEq] at h
        exact ⟨{ id := ctx.F.nextInst, ty := .void, kind := .dbgValue (.inst I) (some var) [],
                 dbg := some loc }, rfl, rfl, rfl, h.symm⟩
      · simp at h

theorem inv_insertCall {V : Value} {L : Loop} {ctx : PtrRedContext} (inv : RewriteInv V L ctx)
    (pos : Nat) (call : Inst) (hop : call.kind.operands = []) (hl : call.kind.isLoad = false)
    (hid : call.id = ctx.F.nextInst) :
    RewriteInv V L { ctx with F := ((ctx.F.fresh).2).insertBefore pos call } := by
  have hnl : isLoadOf V call = false := by
    cases h : isLoadOf V call with
    | false => rfl
    | true => rw [(isLoadOf_operands h).2] at hl; exact absurd hl (by simp)
  have hsub : ∀ p ∈ (((ctx.F.fresh).2).insertBefore pos call).instsWithParent,
      p ∈ ctx.F.instsWithParent ∨ p.2 = call := by
    intro p hp
    rcases mem_instsWithParent_insertBefore hp with h1 | ⟨h1, _⟩
    · exact Or.inl h1
    · exact Or.inr h1
  exact
    { hV := inv.hV, hL := inv.hL,
      uniq := uniqueIds_insertBefore_fresh inv.uniq inv.below hid,
      below := idsBelow_insertBefore_fresh inv.below hid,
      plain := by
        intro p hp
        rcases hsub p hp with h1 | h1
        · exact inv.plain p h1
        · rw [h1, definesPlain_iff]
          intro _
          exact ⟨hl, by rw [hop]; simp⟩
      tracked := fun e he r hr =>
        goodTarget_of_subset (fun p hp => (hsub p hp).imp id (fun h1 => by rw [h1]; exact hnl))
          (inv.tracked e he r hr)
      head := fun r hr =>
        goodTarget_of_subset (fun p hp => (hsub p hp).imp id (fun h1 => by rw [h1]; exact hnl))
          (inv.head r hr) }

theorem safeLoads_insertCall {V : Value} {L : Loop} {F : Func} {loads : List Nat}
    {P : Nat → Nat → Prop} (hS : SafeLoads V L F loads P) (pos : Nat) (call : Inst)
    (hop : call.kind.operands = []) (hl : call.kind.isLoad = false) :
    SafeLoads V L (((F.fresh).2).insertBefore pos call) loads P := by
  intro B i hi hB hP hlo
  rw [blockInsts_insertBefore, blockInsts_fresh] at hi
  rcases mem_insertBeforeList hi with h1 | h1
  · rcases hS B i h1 hB hP hlo with h2 | h2
    · exact Or.inl h2
    · exact Or.inr (users_insertBefore_nil (F := (F.fresh).2) h2 hop)
  · subst h1
    rw [(isLoadOf_operands hlo).2] at hl
    exact absurd hl (by simp)

theorem dbgForStores_ok {V : Value} {L : Loop} (pairs : List (Nat × Nat))
    (ctx ctx' : PtrRedContext) (inv : RewriteInv V L ctx)
    (h : dbgForStores pairs ctx = some ctx') :
    RewriteInv V L ctx'
    ∧ (∀ loads P, SafeLoads V L ctx.F loads P → SafeLoads V L ctx'.F loads P) := by
  induction pairs generalizing ctx with
  | nil =>
    simp only [dbgForStores, Option.some.injEq] at h
    subst h
    exact ⟨inv, fun _ _ hS => hS⟩
  | cons e rest ih =>
    unfold dbgForStores at h
    split at h
    · simp at h
    · rename_i ctx1 hc
      obtain ⟨call, hop, hl, hid, rfl⟩ := insertDbgValueCall_false hc
      obtain ⟨h1, h2⟩ := ih _ (inv_insertCall inv e.1 call hop hl hid) h
      exact ⟨h1, fun loads P hS => h2 loads P (safeLoads_insertCall hS e.1 call hop hl)⟩

theorem inv_eraseAll {V : Value} {L : Loop} {ctx : PtrRedContext} (inv : RewriteInv V L ctx)
    (ids : List Nat) : RewriteInv V L { ctx with F := ctx.F.eraseAll ids } :=
  { hV := inv.hV, hL := inv.hL,
    uniq := fun p hp q hq hid =>
      inv.uniq p (mem_instsWithParent_eraseAll hp).1 q (mem_instsWithParent_eraseAll hq).1 hid
    below := fun p hp => by
      show p.2.id < (ctx.F.eraseAll ids).nextInst
      rw [nextInst_eraseAll]
      exact inv.below p (mem_instsWithParent_eraseAll hp).1
    plain := fun p hp => inv.plain p (mem_instsWithParent_eraseAll hp).1
    tracked := fun e he r hr =>
      goodTarget_of_subset (fun p hp => Or.inl (mem_instsWithParent_eraseAll hp).1)
        (inv.tracked e he r hr)
    head := fun r hr =>
      goodTarget_of_subset (fun p hp => Or.inl (mem_instsWithParent_eraseAll hp).1)
        (inv.head r hr) }

theorem safeLoads_eraseAll {V : Value} {L : Loop} {F : Func} {loads : List Nat}
    {P : Nat → Nat → Prop} (hS : SafeLoads V L F loads P) (others : List Nat) :
    SafeLoads V L ((F.eraseAll loads).eraseAll others) [] P := by
  intro B i hi hB hP hl
  obtain ⟨h1, _⟩ := mem_blockInsts_eraseAll hi
  obtain ⟨h2, h3⟩ := mem_blockInsts_eraseAll h1
  rcases hS B i h2 hB hP hl with h4 | h4
  · exact absurd h4 h3
  · exact Or.inr (users_eraseAll_nil (users_eraseAll_nil h4))

/-- `handleLoadsInBB` keeps the invariant, keeps what was covered, and covers
the block. -/
theorem handleLoadsInBB_ok {V : Value} {L : Loop} (BB : Nat) (ctx ctx' : PtrRedContext)
    (inv : RewriteInv V L ctx) (h : handleLoadsInBB BB ctx = some ctx') :
    RewriteInv V L ctx'
    ∧ ∀ P : Nat → Nat → Prop, SafeLoads V L ctx.F [] P →
        SafeLoads V L ctx'.F [] (fun B j => P B j ∨ B = BB) := by
  unfold handleLoadsInBB at h
  split at h
  · simp at h
  · rename_i st hscan
    obtain ⟨ok, cov⟩ := scan_ok BB _ { ctx := ctx, loads := [], stores := [] } st inv hscan
    split at h
    · simp at h
    · rename_i ctx1 hdbg
      obtain ⟨inv1, safe1⟩ := dbgForStores_ok _ _ _ ok.inv hdbg
      have inv2 := inv_eraseAll (inv_eraseAll inv1 st.loads) (st.stores.map (fun p => p.1))
      have hsafe : ∀ P : Nat → Nat → Prop, SafeLoads V L ctx.F [] P →
          SafeLoads V L ((ctx1.F.eraseAll st.loads).eraseAll (st.stores.map (fun p => p.1))) []
            (fun B j => P B j ∨ B = BB) := by
        intro P hS
        apply safeLoads_eraseAll
        apply safe1
        -- every instruction of the block after the scan was scanned
        intro B i hi hB hP hl
        refine cov P hS B i hi hB ?_ hl
        rcases hP with hP | hP
        · exact Or.inl hP
        · refine Or.inr ⟨hP, ?_⟩
          have := ok.ids BB
          simp only at this
          rw [← this, ← hP]
          exact List.mem_map_of_mem _ hi
      dsimp only at h
      split at h
      · split at h
        · simp at h
        · rename_i pred _
          simp only [Option.some.injEq] at h
          subst h
          refine ⟨?_, hsafe⟩
          exact
            { hV := inv2.hV, hL := inv2.hL, uniq := inv2.uniq, below := inv2.below,
              plain := inv2.plain, head := inv2.head,
              tracked := by
                intro e he r hr
                rcases mem_mapSet he with h1 | h1
                · rcases mem_mapIndex_snd h1 with h2 | h2
                  · exact inv2.tracked e h2 r hr
                  · rw [h2] at hr; simp at hr
                · rw [h1] at hr
                  exact inv2.tracked _ (mapIndex_fst hr) r rfl }
      · simp only [Option.some.injEq] at h
        subst h
        exact ⟨inv2, hsafe⟩

/-- The traversal `handleLoads`: the invariant is kept, the loads of the
candidate in the completed loop blocks other than `PH` have no user, and
every completed block is an old one, the visited one or a loop block. -/
theorem handleLoads_ok {V : Value} {L : Loop} (PH : Nat) (fuel : Nat) :
    ∀ (ctx : PtrRedContext) (BB : Nat) (completed : List Nat) (init : Bool)
      (ctx' : PtrRedContext) (completed' : List Nat),
      RewriteInv V L ctx →
      SafeLoads V L ctx.F [] (fun B _ => B ∈ completed ∧ B ≠ PH) →
      (init = true → BB = PH) →
      handleLoads fuel ctx BB completed init = some (ctx', completed') →
      RewriteInv V L ctx'
      ∧ SafeLoads V L ctx'.F [] (fun B _ => B ∈ completed' ∧ B ≠ PH)
      ∧ ∀ B ∈ completed', B ∈ completed ∨ B = BB ∨ L.contains B = true := by
  induction fuel with
  | zero =>
    intro ctx BB completed init ctx' completed' _ _ _ h
    simp [handleLoads] at h
  | succ fuel ih =>
    intro ctx BB completed init ctx' completed' inv hS hinit h
    unfold handleLoads at h
    split at h
    · simp only [Option.some.injEq, Prod.mk.injEq] at h
      obtain ⟨rfl, rfl⟩ := h
      exact ⟨inv, hS, fun B hB => Or.inl hB⟩
    · split at h
      · simp at h
      · rename_i ctx1 hfirst
        have h1 : RewriteInv V L ctx1
            ∧ SafeLoads V L ctx1.F [] (fun B _ => B ∈ setInsert completed BB ∧ B ≠ PH) := by
          cases hi : init with
          | true =>
            simp only [hi, Bool.not_true, Bool.false_eq_true, if_false,
              Option.some.injEq] at hfirst
            subst hfirst
            refine ⟨inv, safeLoads_imp hS ?_⟩
            intro B _ hq
            rcases mem_setInsert.mp hq.1 with h2 | h2
            · exact ⟨h2, hq.2⟩
            · exact absurd (h2.trans (hinit hi)) hq.2
          | false =>
            simp only [hi, Bool.not_false, if_true] at hfirst
            obtain ⟨inv1, cov⟩ := handleLoadsInBB_ok BB ctx ctx1 inv hfirst
            refine ⟨inv1, safeLoads_imp (cov _ hS) ?_⟩
            intro B _ hq
            rcases mem_setInsert.mp hq.1 with h2 | h2
            · exact Or.inl ⟨h2, hq.2⟩
            · exact Or.inr h2
        -- the loop over the successors
        have hloop : ∀ (succs : List Nat) (r r' : PtrRedContext × List Nat),
            RewriteInv V L r.1 →
            SafeLoads V L r.1.F [] (fun B _ => B ∈ r.2 ∧ B ≠ PH) →
            r.1.L = L →
            succs.foldlM (fun (r : PtrRedContext × List Nat) Succ =>
              if r.1.L.contains Succ then handleLoads fuel r.1 Succ r.2 false else some r) r
              = some r' →
            RewriteInv V L r'.1
            ∧ SafeLoads V L r'.1.F [] (fun B _ => B ∈ r'.2 ∧ B ≠ PH)
            ∧ ∀ B ∈ r'.2, B ∈ r.2 ∨ L.contains B = true := by
          intro succs
          induction succs with
          | nil =>
            intro r r' hr1 hr2 _ hf
            simp only [List.foldlM_nil, Option.pure_def, Option.some.injEq] at hf
            subst hf
            exact ⟨hr1, hr2, fun B hB => Or.inl hB⟩
          | cons s rest ihs =>
            intro r r' hr1 hr2 hrL hf
            simp only [List.foldlM_cons, Option.bind_eq_bind] at hf
            obtain ⟨r1, hr1eq, hrest⟩ := Option.bind_eq_some.mp hf
            by_cases hc : r.1.L.contains s = true
            · rw [if_pos hc] at hr1eq
              obtain ⟨a1, a2, a3⟩ := ih r.1 s r.2 false r1.1 r1.2 hr1 hr2 (by simp) hr1eq
              obtain ⟨b1, b2, b3⟩ := ihs r1 r' a1 a2 a1.hL hrest
              refine ⟨b1, b2, ?_⟩
              intro B hB
              rcases b3 B hB with h3 | h3
              · rcases a3 B h3 with h4 | h4 | h4
                · exact Or.inl h4
                · rw [hrL] at hc
                  exact Or.inr (h4 ▸ hc)
                · exact Or.inr h4
              · exact Or.inr h3
            · rw [if_neg hc] at hr1eq
              simp only [Option.some.injEq] at hr1eq
              subst hr1eq
              exact ihs r r' hr1 hr2 hrL hrest
        obtain ⟨c1, c2, c3⟩ := hloop _ (ctx1, setInsert completed BB) (ctx', completed')
          h1.1 h1.2 h1.1.hL h
        refine ⟨c1, c2, ?_⟩
        intro B hB
        rcases c3 B hB with h3 | h3
        · rcases mem_setInsert.mp h3 with h4 | h4
          · exact Or.inl h4
          · exact Or.inr (Or.inl h4)
        · exact Or.inr (Or.inr h3)

theorem rewriteInv_of_checks (ctx : PtrRedContext) (hU : ctx.F.UniqueIds)
    (hB : ctx.F.IdsBelow) (hP : candidatePlain ctx = true) (hT : trackedGood ctx = true) :
    RewriteInv ctx.V ctx.L ctx := by
  unfold candidatePlain at hP
  unfold trackedGood at hT
  simp only [Bool.and_eq_true, List.all_eq_true] at hP hT
  exact
    { hV := rfl, hL := rfl, uniq := hU, below := hB, plain := hP,
      tracked := by
        intro e he r hr
        have := hT.1 e he
        rw [hr] at this
        exact this
      head := by
        intro r hr
        have := hT.2
        rw [hr] at this
        exact this }

/-- The loads the rewrite removes: after `handleLoads`, every block the
traversal completed other than the preheader it starts from is a block of the
loop, and in such a block a load whose pointer operand is the candidate has no
user: the loads of the candidate that had a user are replaced and deleted,
and a load without user is left in place. -/
theorem used_loads_are_rewritten (ctx ctx' : PtrRedContext) (PH fuel : Nat) (done : List Nat)
    (hU : ctx.F.UniqueIds) (hB : ctx.F.IdsBelow) (hP : candidatePlain ctx = true)
    (hT : trackedGood ctx = true)
    (h : handleLoads fuel ctx PH [] true = some (ctx', done)) :
    ∀ BB ∈ done, BB ≠ PH →
      ctx.L.contains BB = true
      ∧ ∀ i ∈ ctx'.F.blockInsts BB, isLoadOf ctx.V i = true → ctx'.F.users (.inst i.id) = [] := by
  have inv := rewriteInv_of_checks ctx hU hB hP hT
  obtain ⟨_, hS, hD⟩ := handleLoads_ok PH fuel ctx PH [] true ctx' done inv
    (fun B i _ _ hq _ => by simp at hq) (fun _ => rfl) h
  intro BB hBB hne
  have hc : ctx.L.contains BB = true := by
    rcases hD BB hBB with h1 | h1 | h1
    · simp at h1
    · exact absurd h1 hne
    · exact h1
  refine ⟨hc, ?_⟩
  intro i hi hl
  rcases hS BB i hi hc ⟨hBB, hne⟩ hl with h1 | h1
  · simp at h1
  · exact h1

theorem used_loads_are_rewritten_witness :
    handleLoads 5 deadLoadPlaced 0 [] true = some (deadLoadRewritten.1, deadLoadRewritten.2)
    ∧ deadLoadRewritten.2 = [0, 1]
    ∧ (deadLoadRewritten.1.F.blockInsts 1).filter (fun i => isLoadOf (.inst 1) i)
        = [mkInst 5 (.int 32) (.load (.inst 1) false)]
    ∧ ∀ BB ∈ deadLoadRewritten.2, BB ≠ 0 →
        deadLoadPlaced.L.contains BB = true
        ∧ ∀ i ∈ deadLoadRewritten.1.F.blockInsts BB, isLoadOf deadLoadPlaced.V i = true →
            deadLoadRewritten.1.F.users (.inst i.id) = [] :=
  ⟨by decide!, by decide!, by decide!,
   used_loads_are_rewritten deadLoadPlaced deadLoadRewritten.1 0 5 deadLoadRewritten.2
     (by decide!) (by decide!) (by decide!) (by decide!) (by decide!)⟩

/-- C6: in `constStoreFn` the body of the loop is `x = x + 1; x = 7;` and the
stack slot `x` is an accepted candidate.  The rewrite erases the store of the
incremented value, which `getAllStoreOperands` reaches through the users of
the load, but not the store of the constant: instruction 8, a store whose
pointer operand is the candidate, is still in block 1 of the loop after the
rewrite.  The original run ends with 7 in `x`; in the rewritten function the
exit block writes the merge node back over it and the run ends with 2. -/
theorem constant_store_survives :
    pointerCandidates constStoreFn doWhileLoop (poolOn (.inst 1)) = [.inst 1]
    ∧ gateAccepts noAlias (candidateContext constStoreFn doWhileLoop (.inst 1)) = true
    ∧ (run constStoreFn 100).bind (fun m => m.load (.inst 1)) = some 7
    ∧ ((PointerReductionPass.runOnLoop noAlias noDebug true false (poolOn (.inst 1))
          doWhileLoop (constStoreFn, [])).map
        (fun r => ((r.1.1.blockInsts 1).map (fun i => (i.id, i.kind)),
                   (r.1.1.blockInsts 2).map (fun i => (i.id, i.kind)))))
        = some ([(14, .phi [(.inst 12, 0), (.inst 6, 1)]),
                 (15, .dbgValue (.inst 14) (some varX) []),
                 (6, .add (.inst 14) (.constInt 32 1)),
                 (16, .dbgValue (.inst 6) (some varX) []),
                 (8, .store (.constInt 32 7) (.inst 1)),
                 (9, .icmpSlt (.inst 6) (.constInt 32 3)),
                 (10, .condBr (.inst 9) 1 2)],
                [(17, .store (.inst 14) (.inst 1)), (11, .ret)])
    ∧ ((PointerReductionPass.runOnLoop noAlias noDebug true false (poolOn (.inst 1))
          doWhileLoop (constStoreFn, [])).bind (fun r => run r.1.1 100)).map
        (fun m => m.load (.inst 1)) = some (some 2) :=
  ⟨by decide!, by decide!, by decide!, by decide!, by decide!⟩

theorem mem_block_lt {F : Func} (hB : F.IdsBelow) {b : BasicBlock} (hb : b ∈ F.blocks)
    {x : Inst} (hx : x ∈ b.insts) : x.id < F.nextInst :=
  hB (b.id, x) (mem_instsWithParent.mpr ⟨b, hb, rfl, hx⟩)

theorem mapInsts_eq_self {f : Inst → Inst} {b : BasicBlock} (h : ∀ x ∈ b.insts, f x = x) :
    BasicBlock.mapInsts f b = b := by
  unfold BasicBlock.mapInsts
  have : b.insts.map f = b.insts := by
    conv_rhs => rw [← List.map_id b.insts]
    exact List.map_congr_left (fun x hx => by simpa using h x hx)
  rw [this]

/-- The blocks after one iteration of the case loop: the old blocks with the
case added to the dispatch, then the new case block. -/
theorem caseStep_blocks (F : Func) (End sw : Nat) (val : Value) (slot : Nat) (elemTy : Ty)
    (hB : F.IdsBelow) (hBB : F.BlocksBelow) (hsw : sw < F.nextInst) :
    (caseStep F End sw val slot elemTy).blocks
      = F.blocks.map (BasicBlock.mapInsts (addCaseFn sw val F.nextBlock))
        ++ [{ id := F.nextBlock,
              insts := [{ id := F.nextInst + 1, ty := elemTy, kind := .load (.inst slot) false,
                          dbg := none },
                        { id := F.nextInst, ty := .void, kind := .br End, dbg := none }] }]
    ∧ (caseStep F End sw val slot elemTy).nextInst = F.nextInst + 2
    ∧ (caseStep F End sw val slot elemTy).nextBlock = F.nextBlock + 1
    ∧ (caseStep F End sw val slot elemTy).globals = F.globals := by
  refine ⟨?_, rfl, rfl, rfl⟩
  unfold caseStep Func.addCase Func.mapInsts Func.insertBefore Func.insertAtEnd Func.mapBlocks
    Func.fresh Func.createBlock
  simp only [List.map_append, List.map_map, List.map_cons, List.map_nil]
  congr 1
  · apply List.map_congr_left
    intro b hb
    have hne : (b.id == F.nextBlock) = false := by
      simpa using Nat.ne_of_lt (hBB b hb)
    simp only [Function.comp, hne, Bool.false_eq_true, if_false]
    have hnm : insertBeforeList F.nextInst
        { id := F.nextInst + 1, ty := elemTy, kind := .load (.inst slot) false, dbg := none }
        b.insts = b.insts :=
      insertBeforeList_of_not_mem (fun x hx => Nat.ne_of_lt (mem_block_lt hB hb hx))
    rw [hnm]
    rfl
  · have h1 : (F.nextInst + 1 == sw) = false := by
      simpa using Nat.ne_of_gt (Nat.lt_succ_of_lt hsw)
    have h2 : (F.nextInst == sw) = false := by
      simpa using Nat.ne_of_gt hsw
    simp [Function.comp, BasicBlock.mapInsts, insertBeforeList, h1, h2]
    exact ⟨fun h => by omega, fun h => by omega⟩

theorem addCaseFn_id (sw : Nat) (val : Value) (d : Nat) (x : Inst) :
    (addCaseFn sw val d x).id = x.id := by
  unfold addCaseFn
  split <;> rfl

theorem addCaseFn_ty (sw : Nat) (val : Value) (d : Nat) (x : Inst) :
    (addCaseFn sw val d x).ty = x.ty := by
  unfold addCaseFn
  split <;> rfl

theorem addCaseFn_of_ne {sw : Nat} (val : Value) (d : Nat) {x : Inst} (h : x.id ≠ sw) :
    addCaseFn sw val d x = x := by
  unfold addCaseFn
  have : (x.id == sw) = false := by simpa using h
  simp [this]

theorem find_map_mapInsts (g : Inst → Inst) (bb : Nat) (bs : List BasicBlock) :
    (bs.map (BasicBlock.mapInsts g)).find? (fun b => b.id == bb)
      = (bs.find? (fun b => b.id == bb)).map (BasicBlock.mapInsts g) := by
  induction bs with
  | nil => rfl
  | cons b rest ih =>
    simp only [List.map_cons, List.find?_cons]
    have : (BasicBlock.mapInsts g b).id = b.id := rfl
    rw [this]
    cases b.id == bb with
    | true => rfl
    | false => exact ih

/-- Facts about a function whose blocks are the old ones, updated instruction
by instruction, followed by one new block. -/
theorem instsWithParent_extend {F F' : Func} {g : Inst → Inst} {nb : BasicBlock}
    (hE : F'.blocks = F.blocks.map (BasicBlock.mapInsts g) ++ [nb]) :
    F'.instsWithParent
      = F.instsWithParent.map (fun p => (p.1, g p.2)) ++ nb.insts.map (fun x => (nb.id, x)) := by
  unfold Func.instsWithParent
  rw [hE]
  simp only [List.flatMap_append, List.flatMap_map, List.map_flatMap, List.map_map,
    List.flatMap_cons, List.flatMap_nil, List.append_nil, BasicBlock.mapInsts]
  rfl

theorem findBlock_extend_old {F F' : Func} {g : Inst → Inst} {nb : BasicBlock}
    (hE : F'.blocks = F.blocks.map (BasicBlock.mapInsts g) ++ [nb]) {bb : Nat}
    (h : (F.findBlock bb).isSome = true) :
    F'.findBlock bb = (F.findBlock bb).map (BasicBlock.mapInsts g) := by
  unfold Func.findBlock at h ⊢
  rw [hE, List.find?_append, find_map_mapInsts]
  cases hf : F.blocks.find? (fun b => b.id == bb) with
  | none => rw [hf] at h; simp at h
  | some b => rfl

theorem findBlock_extend_new {F F' : Func} {g : Inst → Inst} {nb : BasicBlock}
    (hE : F'.blocks = F.blocks.map (BasicBlock.mapInsts g) ++ [nb])
    (hBB : F.BlocksBelow) (hnb : nb.id = F.nextBlock) :
    F'.findBlock F.nextBlock = some nb := by
  unfold Func.findBlock
  rw [hE, List.find?_append, find_map_mapInsts]
  have hnone : F.blocks.find? (fun b => b.id == F.nextBlock) = none := by
    rw [List.find?_eq_none]
    intro b hb
    simpa using Nat.ne_of_lt (hBB b hb)
  rw [hnone]
  simp [hnb]

theorem uniqueIds_extend {F F' : Func} {g : Inst → Inst} {nb : BasicBlock}
    (hE : F'.blocks = F.blocks.map (BasicBlock.mapInsts g) ++ [nb])
    (hg : ∀ x, (g x).id = x.id) (hU : F.UniqueIds) (hB : F.IdsBelow)
    (hnew : ∀ x ∈ nb.insts, F.nextInst ≤ x.id)
    (hnd : ∀ x ∈ nb.insts, ∀ y ∈ nb.insts, x.id = y.id → x = y) : F'.UniqueIds := by
  intro p hp q hq hid
  rw [instsWithParent_extend hE] at hp hq
  rcases List.mem_append.mp hp with hp | hp
  · obtain ⟨p0, hp0, rfl⟩ := List.mem_map.mp hp
    rcases List.mem_append.mp hq with hq | hq
    · obtain ⟨q0, hq0, rfl⟩ := List.mem_map.mp hq
      have : p0 = q0 := hU p0 hp0 q0 hq0 (by simpa [hg] using hid)
      rw [this]
    · obtain ⟨y, hy, rfl⟩ := List.mem_map.mp hq
      have h1 := hB p0 hp0
      have h2 := hnew y hy
      simp only [hg] at hid
      omega
  · obtain ⟨x, hx, rfl⟩ := List.mem_map.mp hp
    rcases List.mem_append.mp hq with hq | hq
    · obtain ⟨q0, hq0, rfl⟩ := List.mem_map.mp hq
      have h1 := hB q0 hq0
      have h2 := hnew x hx
      simp only [hg] at hid
      omega
    · obtain ⟨y, hy, rfl⟩ := List.mem_map.mp hq
      rw [hnd x hx y hy hid]

theorem idsBelow_extend {F F' : Func} {g : Inst → Inst} {nb : BasicBlock}
    (hE : F'.blocks = F.blocks.map (BasicBlock.mapInsts g) ++ [nb])
    (hg : ∀ x, (g x).id = x.id) (hB : F.IdsBelow) (hle : F.nextInst ≤ F'.nextInst)
    (hnew : ∀ x ∈ nb.insts, x.id < F'.nextInst) : F'.IdsBelow := by
  intro p hp
  rw [instsWithParent_extend hE] at hp
  rcases List.mem_append.mp hp with hp | hp
  · obtain ⟨p0, hp0, rfl⟩ := List.mem_map.mp hp
    have := hB p0 hp0
    simp only [hg]
    omega
  · obtain ⟨x, hx, rfl⟩ := List.mem_map.mp hp
    exact hnew x hx

theorem blocksBelow_extend {F F' : Func} {g : Inst → Inst} {nb : BasicBlock}
    (hE : F'.blocks = F.blocks.map (BasicBlock.mapInsts g) ++ [nb])
    (hBB : F.BlocksBelow) (hnb : nb.id = F.nextBlock) (hn : F'.nextBlock = F.nextBlock + 1) :
    F'.BlocksBelow := by
  intro b hb
  rw [hE] at hb
  rw [hn]
  rcases List.mem_append.mp hb with hb | hb
  · obtain ⟨b0, hb0, rfl⟩ := List.mem_map.mp hb
    exact Nat.lt_succ_of_lt (hBB b0 hb0)
  · rw [List.mem_singleton.mp hb, hnb]
    exact Nat.lt_succ_self _

theorem typeOf_inst_extend {F F' : Func} {g : Inst → Inst} {nb : BasicBlock}
    (hE : F'.blocks = F.blocks.map (BasicBlock.mapInsts g) ++ [nb])
    (hg : ∀ x, (g x).id = x.id) (hty : ∀ x, (g x).ty = x.ty) {s : Nat}
    (h : (F.findInst s).isSome = true) :
    F'.typeOf (.inst s) = F.typeOf (.inst s) := by
  show (F'.findInst s).map (fun i => i.ty) = (F.findInst s).map (fun i => i.ty)
  unfold Func.findInst at *
  rw [instsWithParent_extend hE, List.find?_append]
  have hm : (F.instsWithParent.map (fun p => (p.1, g p.2))).find? (fun p => p.2.id == s)
      = (F.instsWithParent.find? (fun p => p.2.id == s)).map (fun p => (p.1, g p.2)) := by
    rw [List.find?_map]
    congr 1
    apply congrArg (fun f => List.find? f F.instsWithParent)
    funext p
    simp [Function.comp, hg]
  rw [hm]
  cases hf : F.instsWithParent.find? (fun p => p.2.id == s) with
  | none => rw [hf] at h; simp at h
  | some p => simp [hty]

theorem findInst_isSome_of_typeOf {F : Func} {s : Nat}
    (h : ((F.typeOf (.inst s)).bind Ty.getPointerElementType).isSome = true) :
    (F.findInst s).isSome = true := by
  have : F.typeOf (.inst s) = (F.findInst s).map (fun i => i.ty) := rfl
  rw [this] at h
  cases hf : F.findInst s with
  | none => rw [hf] at h; simp at h
  | some i => rfl

/-- One unfolding of the case loop, when the slot and its element type are
known. -/
theorem createCases_succ (Ctx : arrayScalarizeContext) (Info : splitBBInfo) (sw w i k : Nat)
    (F : Func) (loads : List Nat) (hBB : F.BlocksBelow) {slot : Nat} {elemTy : Ty}
    (hslot : Ctx.ScalarGEPList[i]? = some slot)
    (hty : (F.typeOf (.inst slot)).bind Ty.getPointerElementType = some elemTy)
    (hi : i + 1 ≤ INT_MAX) :
    createCases Ctx Info sw w i (k + 1) F loads
      = createCases Ctx Info sw w (i + 1) k
          (caseStep F Info.End sw (.constInt w (i % 2 ^ w)) slot elemTy)
          (setInsert loads (F.nextInst + 1)) := by
  have hsome : (F.findInst slot).isSome = true :=
    findInst_isSome_of_typeOf (by rw [hty]; rfl)
  have hE : ((((F.createBlock).2).fresh.2).insertAtEnd (F.createBlock).1
        { id := ((F.createBlock).2).nextInst, ty := .void, kind := .br Info.End,
          dbg := none }).blocks
      = F.blocks.map (BasicBlock.mapInsts id)
        ++ [{ id := F.nextBlock,
              insts := [{ id := F.nextInst, ty := .void, kind := .br Info.End,
                          dbg := none }] }] := by
    unfold Func.insertAtEnd Func.mapBlocks Func.fresh Func.createBlock
    simp only [List.map_append, List.map_cons, List.map_nil]
    congr 1
    · apply List.map_congr_left
      intro b hb
      have hne : (b.id == F.nextBlock) = false := by
        simpa using Nat.ne_of_lt (hBB b hb)
      simp [hne, BasicBlock.mapInsts]
    · simp
  have hT := typeOf_inst_extend hE (fun _ => rfl) (fun _ => rfl) hsome
  rw [createCases]
  simp only [hslot]
  rw [hT, hty]
  simp only [if_pos hi]
  rfl

/-- The counter of the case loop overflows when the loop is to run past
`INT_MAX`. -/
theorem createCases_overflow (Ctx : arrayScalarizeContext) (Info : splitBBInfo) (sw w : Nat) :
    ∀ (k i : Nat) (F : Func) (loads : List Nat), 0 < k → INT_MAX < i + k →
      createCases Ctx Info sw w i k F loads = none := by
  intro k
  induction k with
  | zero => intro i F loads h; exact absurd h (Nat.lt_irrefl 0)
  | succ k ih =>
    intro i F loads _ hik
    rw [createCases]
    dsimp only
    split
    · rfl
    · split
      · rfl
      · split
        · rename_i hi
          apply ih
          · omega
          · omega
        · rfl

theorem blockInsts_of_findBlock {F : Func} {bb : Nat} {b : BasicBlock}
    (h : F.findBlock bb = some b) : F.blockInsts bb = b.insts := by
  unfold Func.blockInsts
  rw [h]

theorem findBlock_isSome_of_mem {F : Func} {bb : Nat} {x : Inst} (h : x ∈ F.blockInsts bb) :
    ∃ b, F.findBlock bb = some b ∧ x ∈ b.insts := by
  unfold Func.blockInsts at h
  cases hf : F.findBlock bb with
  | none => rw [hf] at h; simp at h
  | some b => rw [hf] at h; exact ⟨b, rfl, h⟩

/-- The case loop succeeds on typed slots and leaves, for every index it
visits, a case on the dispatch and a block with the load of that slot. -/
theorem createCases_spec (Ctx : arrayScalarizeContext) (Info : splitBBInfo) (sw w : Nat) :
    ∀ (k i : Nat) (F : Func) (loads : List Nat), F.UniqueIds → F.IdsBelow → F.BlocksBelow →
      sw < F.nextInst → i + k ≤ INT_MAX →
      (∀ j < k, ∃ slot, Ctx.ScalarGEPList[i + j]? = some slot) →
      (∀ s ∈ Ctx.ScalarGEPList,
        ((F.typeOf (.inst s)).bind Ty.getPointerElementType).isSome = true) →
      ∃ G out, createCases Ctx Info sw w i k F loads = some (G, out)
        ∧ CasesPost Ctx Info sw w i k F loads G out := by
  intro k
  induction k with
  | zero =>
    intro i F loads hU hB _ _ _ _ _
    refine ⟨F, loads, rfl, ?_⟩
    exact
      { uniq := hU
        below := hB
        next := Nat.le_refl _
        types := fun _ _ => rfl
        blocks := fun _ _ h _ => h
        switch := fun s hs hid c d cs hk =>
          ⟨s, hs, hid, cs, hk, fun _ he => he, fun _ he => Or.inl he,
            fun j hj => absurd hj (Nat.not_lt_zero j)⟩
        cases := fun j hj => absurd hj (Nat.not_lt_zero j)
        loads := fun x =>
          ⟨Or.inl, fun h => h.elim id (fun ⟨j, hj, _⟩ => absurd hj (Nat.not_lt_zero j))⟩
        origin := fun p hp => Or.inl ⟨p, hp, rfl, fun _ => rfl⟩ }
  | succ k ih =>
    intro i F loads hU hB hBB hsw hik hslots hty
    obtain ⟨slot, hslot⟩ := hslots 0 (Nat.succ_pos k)
    rw [Nat.add_zero] at hslot
    have hslotmem : slot ∈ Ctx.ScalarGEPList := by
      obtain ⟨hlt, heq⟩ := List.getElem?_eq_some.mp hslot
      rw [← heq]
      exact List.getElem_mem hlt
    obtain ⟨elemTy, helem⟩ := Option.isSome_iff_exists.mp (hty slot hslotmem)
    rw [createCases_succ Ctx Info sw w i k F loads hBB hslot helem (by omega)]
    obtain ⟨hE, hnI, hnB, _⟩ :=
      caseStep_blocks F Info.End sw (.constInt w (i % 2 ^ w)) slot elemTy hB hBB hsw
    generalize hF1 : caseStep F Info.End sw (.constInt w (i % 2 ^ w)) slot elemTy = F1 at hE hnI hnB
    have hgid := addCaseFn_id sw (.constInt w (i % 2 ^ w)) F.nextBlock
    have hgty := addCaseFn_ty sw (.constInt w (i % 2 ^ w)) F.nextBlock
    have hU1 : F1.UniqueIds := by
      refine uniqueIds_extend hE hgid hU hB ?_ ?_
      · intro x hx
        simp only [List.mem_cons, List.mem_singleton, List.mem_nil_iff, or_false] at hx
        rcases hx with rfl | rfl
        · exact Nat.le_succ _
        · exact Nat.le_refl _
      · intro x hx y hy hid
        simp only [List.mem_cons, List.mem_singleton, List.mem_nil_iff, or_false] at hx hy
        rcases hx with rfl | rfl <;> rcases hy with rfl | rfl
        · rfl
        · simp at hid
        · simp at hid
        · rfl
    have hB1 : F1.IdsBelow := by
      refine idsBelow_extend hE hgid hB (by omega) ?_
      intro x hx
      simp only [List.mem_cons, List.mem_singleton, List.mem_nil_iff, or_false] at hx
      rcases hx with rfl | rfl
      · show F.nextInst + 1 < F1.nextInst
        omega
      · show F.nextInst < F1.nextInst
        omega
    have hBB1 : F1.BlocksBelow := blocksBelow_extend hE hBB rfl hnB
    have hT1 : ∀ s, (F.findInst s).isSome = true → F1.typeOf (.inst s) = F.typeOf (.inst s) :=
      fun s hs => typeOf_inst_extend hE hgid hgty hs
    have hty1 : ∀ s ∈ Ctx.ScalarGEPList,
        ((F1.typeOf (.inst s)).bind Ty.getPointerElementType).isSome = true := by
      intro s hs
      rw [hT1 s (findInst_isSome_of_typeOf (hty s hs))]
      exact hty s hs
    have hslots1 : ∀ j < k, ∃ slot, Ctx.ScalarGEPList[i + 1 + j]? = some slot := by
      intro j hj
      have := hslots (j + 1) (Nat.succ_lt_succ hj)
      have e : i + 1 + j = i + (j + 1) := by omega
      rw [e]
      exact this
    obtain ⟨G, out, hrun, post⟩ :=
      ih (i + 1) F1 (setInsert loads (F.nextInst + 1)) hU1 hB1 hBB1 (by omega) (by omega)
        hslots1 hty1
    refine ⟨G, out, hrun, ?_⟩
    have hnewBlock := findBlock_extend_new (g := addCaseFn sw (.constInt w (i % 2 ^ w)) F.nextBlock) hE hBB rfl
    exact
      { uniq := post.uniq
        below := post.below
        next := by have := post.next; omega
        types := by
          intro s hs
          have h1 := hT1 s hs
          have hs1 : (F1.findInst s).isSome = true := by
            have e1 : F1.typeOf (.inst s) = (F1.findInst s).map (fun i => i.ty) := rfl
            have e0 : F.typeOf (.inst s) = (F.findInst s).map (fun i => i.ty) := rfl
            rw [e1, e0] at h1
            cases hf : F1.findInst s with
            | none =>
              rw [hf] at h1
              cases hf0 : F.findInst s with
              | none => rw [hf0] at hs; simp at hs
              | some v => rw [hf0] at h1; simp at h1
            | some v => rfl
          rw [post.types s hs1, h1]
        blocks := by
          intro bb b hb hne
          apply post.blocks bb b _ hne
          rw [findBlock_extend_old hE (by rw [hb]; rfl), hb]
          show some (BasicBlock.mapInsts _ b) = some b
          rw [mapInsts_eq_self (fun x hx => addCaseFn_of_ne _ _ (hne x hx))]
        switch := by
          intro s hs hid c d cs hk
          obtain ⟨b, hb, _⟩ := findBlock_isSome_of_mem (List.mem_of_getLast?_eq_some hs)
          rw [blockInsts_of_findBlock hb] at hs
          have hb1 : F1.findBlock Info.Begin
              = some (BasicBlock.mapInsts (addCaseFn sw (.constInt w (i % 2 ^ w)) F.nextBlock) b) := by
            rw [findBlock_extend_old hE (by rw [hb]; rfl), hb]
            rfl
          have hs1 : (F1.blockInsts Info.Begin).getLast?
              = some (addCaseFn sw (.constInt w (i % 2 ^ w)) F.nextBlock s) := by
            rw [blockInsts_of_findBlock hb1]
            show (b.insts.map _).getLast? = _
            rw [List.getLast?_map, hs]
            rfl
          have hk1 : (addCaseFn sw (.constInt w (i % 2 ^ w)) F.nextBlock s).kind
              = .switch c d (cs ++ [(.constInt w (i % 2 ^ w), F.nextBlock)]) := by
            unfold addCaseFn
            have : (s.id == sw) = true := by simpa using hid
            simp [this, hk, Kind.addCase]
          obtain ⟨t, ht, htid, cs2, htk, hsup, hsub, hall⟩ :=
            post.switch _ hs1 (by rw [hgid]; exact hid) c d _ hk1
          refine ⟨t, ht, htid, cs2, htk, ?_, ?_, ?_⟩
          · intro e he
            exact hsup e (List.mem_append_left _ he)
          · intro e he
            rcases hsub e he with h1 | h1
            · rcases List.mem_append.mp h1 with h2 | h2
              · exact Or.inl h2
              · rw [List.mem_singleton.mp h2]
                exact Or.inr ⟨0, Nat.succ_pos k, rfl⟩
            · obtain ⟨j, hj, h2⟩ := h1
              refine Or.inr ⟨j + 1, Nat.succ_lt_succ hj, ?_⟩
              have e1 : i + 1 + j = i + (j + 1) := by omega
              have e2 : F1.nextBlock + j = F.nextBlock + (j + 1) := by omega
              rw [e1, e2] at h2
              exact h2
          · intro j hj
            cases j with
            | zero => exact hsup _ (List.mem_append_right _ (List.mem_singleton_self _))
            | succ j =>
              have := hall j (Nat.lt_of_succ_lt_succ hj)
              have e1 : i + 1 + j = i + (j + 1) := by omega
              have e2 : F1.nextBlock + j = F.nextBlock + (j + 1) := by omega
              rw [e1, e2] at this
              exact this
        cases := by
          intro j hj
          cases j with
          | zero =>
            refine ⟨slot, (⟨F.nextInst + 1, elemTy, .load (.inst slot) false, none⟩ : Inst),
              hslot, ?_, rfl, rfl⟩
            have hG := post.blocks F.nextBlock _ hnewBlock (by
              intro x hx
              simp only [List.mem_cons, List.mem_singleton, List.mem_nil_iff, or_false] at hx
              rcases hx with rfl | rfl
              · show F.nextInst + 1 ≠ sw
                omega
              · show F.nextInst ≠ sw
                omega)
            rw [Nat.add_zero, blockInsts_of_findBlock hG]
            exact List.mem_cons_self _ _
          | succ j =>
            obtain ⟨sl, l, h1, h2, h3, h4⟩ := post.cases j (Nat.lt_of_succ_lt_succ hj)
            have e1 : i + 1 + j = i + (j + 1) := by omega
            have e2 : F1.nextBlock + j = F.nextBlock + (j + 1) := by omega
            rw [e1] at h1
            rw [e2] at h2
            exact ⟨sl, l, h1, h2, by omega, h4⟩
        loads := by
          intro x
          rw [post.loads x, mem_setInsert]
          constructor
          · rintro ((h | h) | ⟨j, hj, h⟩)
            · exact Or.inl h
            · exact Or.inr ⟨0, Nat.succ_pos k, by omega⟩
            · exact Or.inr ⟨j + 1, Nat.succ_lt_succ hj, by omega⟩
          · rintro (h | ⟨j, hj, h⟩)
            · exact Or.inl (Or.inl h)
            · cases j with
              | zero => exact Or.inl (Or.inr (by omega))
              | succ j => exact Or.inr ⟨j, Nat.lt_of_succ_lt_succ hj, by omega⟩
        origin := by
          intro p hp
          have hnew : ∀ q : Nat × Inst,
              q ∈ ([{ id := F.nextInst + 1, ty := elemTy, kind := .load (.inst slot) false,
                      dbg := none },
                    { id := F.nextInst, ty := .void, kind := .br Info.End,
                      dbg := none }] : List Inst).map (fun x => (F.nextBlock, x)) →
              F.nextInst ≤ q.2.id
                ∧ ((∃ slot ∈ Ctx.ScalarGEPList, q.2.kind = .load (.inst slot) false)
                    ∨ q.2.kind = .br Info.End) := by
            intro q hq
            simp only [List.map_cons, List.map_nil, List.mem_cons, List.mem_singleton,
              List.mem_nil_iff, or_false] at hq
            rcases hq with rfl | rfl
            · exact ⟨Nat.le_succ _, Or.inl ⟨slot, hslotmem, rfl⟩⟩
            · exact ⟨Nat.le_refl _, Or.inr rfl⟩
          rcases post.origin p hp with ⟨p1, hp1, hid, heq⟩ | ⟨hge, hk⟩
          · rw [instsWithParent_extend hE] at hp1
            rcases List.mem_append.mp hp1 with h | h
            · obtain ⟨p0, hp0, rfl⟩ := List.mem_map.mp h
              refine Or.inl ⟨p0, hp0, by rw [← hid]; exact (hgid _).symm, ?_⟩
              intro hne
              rw [heq hne]
              have : p0.2.id ≠ sw := by
                rw [← hgid p0.2]
                rw [← hid] at hne
                exact hne
              rw [addCaseFn_of_ne _ _ this]
            · obtain ⟨h1, h2⟩ := hnew p1 h
              have hne : p.2.id ≠ sw := by omega
              rw [heq hne]
              exact Or.inr ⟨h1, h2⟩
          · exact Or.inr ⟨by omega, hk⟩ }

/-! ### Erasing the users of the indexing instruction -/

theorem mem_instsWithParent_erase_of {F : Func} {id : Nat} {p : Nat × Inst}
    (h : p ∈ F.instsWithParent) (hne : p.2.id ≠ id) : p ∈ (F.erase id).instsWithParent := by
  obtain ⟨b, hb, h1, h2⟩ := mem_instsWithParent.mp h
  refine mem_instsWithParent.mpr
    ⟨{ b with insts := b.insts.filter (fun i => i.id != id) }, ?_, h1, ?_⟩
  · unfold Func.erase Func.mapBlocks
    exact List.mem_map_of_mem _ hb
  · exact List.mem_filter.mpr ⟨h2, by simpa using hne⟩

theorem uniqueIds_erase {F : Func} (hU : F.UniqueIds) (id : Nat) : (F.erase id).UniqueIds :=
  fun p hp q hq h =>
    hU p (mem_instsWithParent_erase hp).1 q (mem_instsWithParent_erase hq).1 h

theorem idsBelow_erase {F : Func} (hB : F.IdsBelow) (id : Nat) : (F.erase id).IdsBelow :=
  fun p hp => hB p (mem_instsWithParent_erase hp).1

theorem mem_instsWithParent_insertAtEnd {F : Func} {bb : Nat} {n : Inst} {p : Nat × Inst}
    (h : p ∈ (F.insertAtEnd bb n).instsWithParent) : p ∈ F.instsWithParent ∨ p = (bb, n) := by
  obtain ⟨b', hb', h1, h2⟩ := mem_instsWithParent.mp h
  unfold Func.insertAtEnd Func.mapBlocks at hb'
  obtain ⟨b, hb, rfl⟩ := List.mem_map.mp hb'
  by_cases hc : (b.id == bb) = true
  · rw [if_pos hc] at h1 h2
    rcases List.mem_append.mp h2 with h3 | h3
    · exact Or.inl (mem_instsWithParent.mpr ⟨b, hb, h1, h3⟩)
    · right
      have e1 : p.1 = bb := by rw [h1]; simpa using hc
      have e2 : p.2 = n := List.mem_singleton.mp h3
      exact Prod.ext e1 e2
  · rw [if_neg hc] at h1 h2
    exact Or.inl (mem_instsWithParent.mpr ⟨b, hb, h1, h2⟩)

theorem mem_instsWithParent_insertAtEnd_of {F : Func} {bb : Nat} {n : Inst} {p : Nat × Inst}
    (h : p ∈ F.instsWithParent) : p ∈ (F.insertAtEnd bb n).instsWithParent := by
  obtain ⟨b, hb, h1, h2⟩ := mem_instsWithParent.mp h
  refine mem_instsWithParent.mpr
    ⟨if b.id == bb then { b with insts := b.insts ++ [n] } else b, ?_, ?_, ?_⟩
  · unfold Func.insertAtEnd Func.mapBlocks
    exact List.mem_map_of_mem _ hb
  · split <;> exact h1
  · split
    · exact List.mem_append_left _ h2
    · exact h2

theorem length_flatMap_filter_le (id : Nat) (bs : List BasicBlock) :
    ((bs.map (fun b : BasicBlock =>
        ({ b with insts := b.insts.filter (fun i => i.id != id) } : BasicBlock))).flatMap
        (fun b => b.insts.map (fun i => (b.id, i)))).length
      ≤ (bs.flatMap (fun b => b.insts.map (fun i => (b.id, i)))).length := by
  induction bs with
  | nil => simp
  | cons b rest ih =>
    simp only [List.map_cons, List.flatMap_cons, List.length_append, List.length_map]
    have := List.length_filter_le (fun i : Inst => i.id != id) b.insts
    omega

theorem length_flatMap_filter_lt (id : Nat) (bs : List BasicBlock)
    (h : ∃ b ∈ bs, ∃ x ∈ b.insts, x.id = id) :
    ((bs.map (fun b : BasicBlock =>
        ({ b with insts := b.insts.filter (fun i => i.id != id) } : BasicBlock))).flatMap
        (fun b => b.insts.map (fun i => (b.id, i)))).length
      < (bs.flatMap (fun b => b.insts.map (fun i => (b.id, i)))).length := by
  induction bs with
  | nil =>
    obtain ⟨b, hb, _⟩ := h
    simp at hb
  | cons b rest ih =>
    simp only [List.map_cons, List.flatMap_cons, List.length_append, List.length_map]
    obtain ⟨b0, hb0, x, hx, hid⟩ := h
    rcases List.mem_cons.mp hb0 with rfl | hb0
    · have h1 : (b0.insts.filter (fun i => i.id != id)).length < b0.insts.length := by
        rw [List.length_filter_lt_length_iff_exists]
        exact ⟨x, hx, by simp [hid]⟩
      have h2 := length_flatMap_filter_le id rest
      omega
    · have h1 := List.length_filter_le (fun i : Inst => i.id != id) b.insts
      have h2 := ih ⟨b0, hb0, x, hx, hid⟩
      omega

theorem length_erase_lt {F : Func} {id : Nat} (h : ∃ p ∈ F.instsWithParent, p.2.id = id) :
    (F.erase id).instsWithParent.length < F.instsWithParent.length := by
  obtain ⟨p, hp, hid⟩ := h
  obtain ⟨b, hb, _, h2⟩ := mem_instsWithParent.mp hp
  exact length_flatMap_filter_lt id F.blocks ⟨b, hb, p.2, h2, hid⟩

/-- The loop over the users of the indexing instruction ends within the
fuel `createBBSwitch` gives it, and keeps every property each of its steps
keeps. -/
theorem eraseUsers_spec (gep phi : Nat) (Inv : Func → Prop)
    (hstep : ∀ F p, Inv F → p ∈ F.users (.inst gep) →
      Inv ((F.replaceAllUsesWith (.inst p.2.id) (.inst phi)).erase p.2.id)) :
    ∀ (fuel : Nat) (F : Func), Inv F → F.instsWithParent.length < fuel →
      ∃ G, eraseUsers gep phi fuel F = some G ∧ Inv G ∧ G.users (.inst gep) = [] := by
  intro fuel
  induction fuel with
  | zero => intro F _ h; exact absurd h (Nat.not_lt_zero _)
  | succ fuel ih =>
    intro F hI hlen
    rw [eraseUsers]
    cases hu : F.users (.inst gep) with
    | nil => exact ⟨F, rfl, hI, hu⟩
    | cons p rest =>
      obtain ⟨b, u⟩ := p
      have hp : (b, u) ∈ F.users (.inst gep) := by rw [hu]; exact List.mem_cons_self _ _
      have hmem := (mem_users.mp hp).1
      have hlt : ((F.replaceAllUsesWith (.inst u.id) (.inst phi)).erase u.id).instsWithParent.length
          < F.instsWithParent.length := by
        have h1 : (F.replaceAllUsesWith (.inst u.id) (.inst phi)).instsWithParent.length
            = F.instsWithParent.length := by
          unfold Func.replaceAllUsesWith
          rw [instsWithParent_mapInsts, List.length_map]
        rw [← h1]
        apply length_erase_lt
        refine ⟨(b, { u with kind := u.kind.subst (.inst u.id) (.inst phi) }), ?_, rfl⟩
        unfold Func.replaceAllUsesWith
        rw [instsWithParent_mapInsts]
        exact List.mem_map.mpr ⟨(b, u), hmem, rfl⟩
      exact ih _ (hstep F (b, u) hI hp) (by omega)

theorem mem_blockInsts_erase_of {F : Func} {bb id : Nat} {x : Inst}
    (h : x ∈ F.blockInsts bb) (hne : x.id ≠ id) : x ∈ (F.erase id).blockInsts bb := by
  rw [blockInsts_erase]
  exact List.mem_filter.mpr ⟨h, by simpa using hne⟩

theorem mem_blockInsts_insertBefore_of {F : Func} {bb pos : Nat} {n x : Inst}
    (h : x ∈ F.blockInsts bb) : x ∈ (F.insertBefore pos n).blockInsts bb := by
  rw [blockInsts_insertBefore]
  exact mem_insertBeforeList_of_mem h

theorem mem_blockInsts_rauw_of {F : Func} {bb : Nat} (old new : Value) {x : Inst}
    (h : x ∈ F.blockInsts bb) :
    ({ x with kind := x.kind.subst old new } : Inst)
      ∈ (F.replaceAllUsesWith old new).blockInsts bb := by
  rw [blockInsts_rauw]
  exact List.mem_map.mpr ⟨x, h, rfl⟩

theorem not_user_subst {gep u phi : Nat} (hphi : phi ≠ gep) {k : Kind}
    (h : Value.inst gep ∉ k.operands) :
    Value.inst gep ∉ (k.subst (.inst u) (.inst phi)).operands := by
  intro hc
  obtain ⟨o0, ho0, hor⟩ := operands_subst hc
  rcases hor with h1 | h1
  · rcases substVal_inst_eq h1.symm with h2 | ⟨_, h2⟩
    · rw [h2] at ho0; exact h ho0
    · exact hphi (by injection h2)
  · rw [← h1] at ho0; exact h ho0

theorem getLast?_filter_of {α : Type} {p : α → Bool} {l : List α} {t : α}
    (h : l.getLast? = some t) (hp : p t = true) : (l.filter p).getLast? = some t := by
  obtain ⟨l1, rfl⟩ : ∃ l1, l = l1 ++ [t] := by
    cases hl : l.reverse with
    | nil =>
      have : l = [] := by simpa using hl
      rw [this] at h
      simp at h
    | cons a r =>
      have e : l = r.reverse ++ [a] := by
        have := congrArg List.reverse hl
        simpa using this
      rw [e] at h
      simp at h
      exact ⟨r.reverse, by rw [e, h]⟩
  rw [List.filter_append]
  simp [hp]

theorem getLast_insertBeforeList (pos : Nat) (n : Inst) (l : List Inst) :
    (insertBeforeList pos n l).getLast? = l.getLast? := by
  induction l with
  | nil => rfl
  | cons y rest ih =>
    unfold insertBeforeList
    by_cases hy : (y.id == pos) = true
    · rw [if_pos hy]
      rw [List.getLast?_cons_cons]
    · rw [if_neg hy]
      cases rest with
      | nil => rfl
      | cons z rest2 =>
        have hne : insertBeforeList pos n (z :: rest2) ≠ [] := by
          unfold insertBeforeList
          split <;> simp
        obtain ⟨a, r, har⟩ : ∃ a r, insertBeforeList pos n (z :: rest2) = a :: r := by
          cases hl : insertBeforeList pos n (z :: rest2) with
          | nil => exact absurd hl hne
          | cons a r => exact ⟨a, r, rfl⟩
        rw [har, List.getLast?_cons_cons, ← har, ih, List.getLast?_cons_cons]

theorem getLast?_blockInsts_insertBefore_of {F : Func} {bb pos : Nat} {n x : Inst}
    (h : (F.blockInsts bb).getLast? = some x) :
    ((F.insertBefore pos n).blockInsts bb).getLast? = some x := by
  rw [blockInsts_insertBefore, getLast_insertBeforeList]
  exact h

theorem getLast?_blockInsts_erase_of {F : Func} {bb id : Nat} {x : Inst}
    (h : (F.blockInsts bb).getLast? = some x) (hne : x.id ≠ id) :
    ((F.erase id).blockInsts bb).getLast? = some x := by
  rw [blockInsts_erase]
  exact getLast?_filter_of h (by simpa using hne)

theorem getLast?_blockInsts_rauw_of {F : Func} {bb : Nat} (old new : Value) {x : Inst}
    (h : (F.blockInsts bb).getLast? = some x) :
    ((F.replaceAllUsesWith old new).blockInsts bb).getLast?
      = some ({ x with kind := x.kind.subst old new } : Inst) := by
  rw [blockInsts_rauw, List.getLast?_map, h]
  rfl

theorem substVal_of_ne {old new v : Value} (h : v ≠ old) : substVal old new v = v := by
  unfold substVal
  rw [if_neg]
  simpa using h

/-- One round of the user loop keeps the invariant of `createBBSwitch`. -/
theorem switchInv_step {slots : List Nat} {Info : splitBBInfo}
    {gep sw x0 n0 nb n1 w N phi : Nat} (hphi : phi ≠ gep) (hsw : n0 ≤ sw) (hn1 : n0 ≤ n1)
    (F : Func) (p : Nat × Inst) (inv : SwitchInv slots Info gep sw x0 n0 nb n1 w N F)
    (hp : p ∈ F.users (.inst gep)) :
    SwitchInv slots Info gep sw x0 n0 nb n1 w N
      ((F.replaceAllUsesWith (.inst p.2.id) (.inst phi)).erase p.2.id) := by
  obtain ⟨hlt, hns, hidx⟩ := inv.users p hp
  obtain ⟨hpm, hpo⟩ := mem_users.mp hp
  refine
    { uniq := uniqueIds_erase
        (uniqueIds_mapInsts (F := F)
          (f := fun i => { i with kind := i.kind.subst (.inst p.2.id) (.inst phi) })
          (fun _ => rfl) inv.uniq) _
      users := ?_
      keep := ?_
      switch := ?_
      cases := ?_ }
  · intro q hq
    obtain ⟨hqm, hqo⟩ := mem_users.mp hq
    obtain ⟨q0, hq0, rfl⟩ := mem_instsWithParent_rauw (mem_instsWithParent_erase hqm).1
    have hq0o : Value.inst gep ∈ q0.2.kind.operands := by
      by_contra hc
      exact not_user_subst hphi hc hqo
    exact inv.users q0 (mem_users.mpr ⟨hq0, hq0o⟩)
  · obtain ⟨x, hx, hid, hno⟩ := inv.keep
    refine ⟨{ x with kind := x.kind.subst (.inst p.2.id) (.inst phi) }, ?_, hid,
      not_user_subst hphi hno⟩
    apply mem_blockInsts_erase_of (mem_blockInsts_rauw_of _ _ hx)
    intro hc
    have : (Info.End, x) = p := inv.uniq _ (mem_blockInsts hx) p hpm hc
    rw [← this] at hpo
    exact hno hpo
  · obtain ⟨t, ht, hid, cs, hk, hall, honly⟩ := inv.switch
    refine ⟨{ t with kind := t.kind.subst (.inst p.2.id) (.inst phi) }, ?_, hid,
      cs, ?_, hall, honly⟩
    · apply getLast?_blockInsts_erase_of (getLast?_blockInsts_rauw_of _ _ ht)
      show t.id ≠ p.2.id
      omega
    · show t.kind.subst _ _ = _
      rw [hk]
      show Kind.switch (substVal _ _ _) _ _ = _
      rw [substVal_of_ne hidx]
  · intro j hj
    obtain ⟨slot, l, hs, hl, hid, hk⟩ := inv.cases j hj
    have hslotmem : slot ∈ slots := by
      obtain ⟨hlt2, heq⟩ := List.getElem?_eq_some.mp hs
      rw [← heq]
      exact List.getElem_mem hlt2
    have hne : slot ≠ p.2.id := fun hc => hns (hc ▸ hslotmem)
    have hsame : ({ l with kind := l.kind.subst (.inst p.2.id) (.inst phi) } : Inst) = l := by
      have : l.kind.subst (.inst p.2.id) (.inst phi) = l.kind := by
        rw [hk]
        show Kind.load (substVal _ _ _) false = _
        unfold substVal
        rw [if_neg (by intro hc; injection hc with hc; exact hne hc)]
      rw [this]
    refine ⟨slot, l, hs, ?_, hid, hk⟩
    have h1 := mem_blockInsts_rauw_of (.inst p.2.id) (.inst phi) hl
    rw [hsame] at h1
    apply mem_blockInsts_erase_of h1
    omega

/-! ### The dispatch placed at the end of the block before the split -/

theorem findBlock_erase (F : Func) (id bb : Nat) :
    (F.erase id).findBlock bb
      = (F.findBlock bb).map
          (fun b => { b with insts := b.insts.filter (fun i => i.id != id) }) :=
  findBlock_mapBlocks F (fun b => { b with insts := b.insts.filter (fun i => i.id != id) })
    (fun _ => rfl) bb

theorem findBlock_insertAtEnd (F : Func) (at_ : Nat) (n : Inst) (bb : Nat) :
    (F.insertAtEnd at_ n).findBlock bb
      = (F.findBlock bb).map
          (fun b => if b.id == at_ then { b with insts := b.insts ++ [n] } else b) :=
  findBlock_mapBlocks F
    (fun b => if b.id == at_ then { b with insts := b.insts ++ [n] } else b)
    (fun b => by dsimp only; split <;> rfl) bb

theorem filter_ne_eq_self {id : Nat} {l : List Inst} (h : ∀ x ∈ l, x.id ≠ id) :
    l.filter (fun i => i.id != id) = l := by
  rw [List.filter_eq_self]
  intro x hx
  simpa using h x hx

/-- State after `createBBSwitch` replaced the last instruction of the block
before the split by the empty dispatch. -/
theorem dispatch_placed (F : Func) (Info : splitBBInfo) (back : Inst)
    (hU : F.UniqueIds) (hB : F.IdsBelow) (hBB : F.BlocksBelow)
    (hback : (F.blockInsts Info.Begin).getLast? = some back) :
    let sw : Inst :=
      { id := F.nextInst, ty := .void, kind := .switch Info.IdxValue Info.End [], dbg := none }
    let F2 := (((F.erase back.id).fresh).2).insertAtEnd Info.Begin sw
    F2.UniqueIds ∧ F2.IdsBelow ∧ F2.BlocksBelow ∧ F2.nextInst = F.nextInst + 1
      ∧ F2.nextBlock = F.nextBlock
      ∧ (F2.blockInsts Info.Begin).getLast? = some sw
      ∧ (∀ bb b, bb ≠ Info.Begin → F.findBlock bb = some b →
          (∀ x ∈ b.insts, x.id ≠ back.id) → F2.findBlock bb = some b)
      ∧ (∀ p ∈ F2.instsWithParent,
          (p ∈ F.instsWithParent ∧ p.2.id ≠ back.id) ∨ p = (Info.Begin, sw))
      ∧ (∀ p ∈ F.instsWithParent, p.2.id ≠ back.id → p ∈ F2.instsWithParent) := by
  intro sw F2
  have hmem : ∀ p ∈ F2.instsWithParent,
      (p ∈ F.instsWithParent ∧ p.2.id ≠ back.id) ∨ p = (Info.Begin, sw) := by
    intro p hp
    rcases mem_instsWithParent_insertAtEnd hp with h | h
    · exact Or.inl (mem_instsWithParent_erase h)
    · exact Or.inr h
  refine ⟨?_, ?_, ?_, rfl, rfl, ?_, ?_, hmem, ?_⟩
  · intro p hp q hq hid
    rcases hmem p hp with ⟨h1, _⟩ | rfl
    · rcases hmem q hq with ⟨h2, _⟩ | rfl
      · exact hU p h1 q h2 hid
      · have := hB p h1
        have e : p.2.id = F.nextInst := hid
        omega
    · rcases hmem q hq with ⟨h2, _⟩ | rfl
      · have := hB q h2
        have e : F.nextInst = q.2.id := hid
        omega
      · rfl
  · intro p hp
    show p.2.id < F.nextInst + 1
    rcases hmem p hp with ⟨h1, _⟩ | rfl
    · exact Nat.lt_succ_of_lt (hB p h1)
    · exact Nat.lt_succ_self _
  · intro b hb
    show b.id < F.nextBlock
    have hb2 : b ∈ (F.blocks.map
        (fun b => ({ b with insts := b.insts.filter (fun i => i.id != back.id) }
          : BasicBlock))).map
        (fun b => if b.id == Info.Begin then { b with insts := b.insts ++ [sw] } else b) := hb
    obtain ⟨b1, hb1, rfl⟩ := List.mem_map.mp hb2
    obtain ⟨b0, hb0, rfl⟩ := List.mem_map.mp hb1
    have := hBB b0 hb0
    split <;> exact this
  · obtain ⟨x, hx⟩ : ∃ x, x ∈ F.blockInsts Info.Begin :=
      ⟨back, List.mem_of_getLast?_eq_some hback⟩
    obtain ⟨bB, hbB, _⟩ := findBlock_isSome_of_mem hx
    have hid : bB.id = Info.Begin := (findBlock_some hbB).2
    have hf : F2.findBlock Info.Begin
        = some { bB with insts := bB.insts.filter (fun i => i.id != back.id) ++ [sw] } := by
      show (((F.erase back.id).fresh).2.insertAtEnd Info.Begin sw).findBlock Info.Begin = _
      rw [findBlock_insertAtEnd]
      have : ((F.erase back.id).fresh).2.findBlock Info.Begin
          = (F.erase back.id).findBlock Info.Begin := rfl
      rw [this, findBlock_erase, hbB]
      simp [hid]
    rw [blockInsts_of_findBlock hf]
    simp
  · intro bb b hne hb hall
    have hid : b.id = bb := (findBlock_some hb).2
    show (((F.erase back.id).fresh).2.insertAtEnd Info.Begin sw).findBlock bb = _
    rw [findBlock_insertAtEnd]
    have : ((F.erase back.id).fresh).2.findBlock bb = (F.erase back.id).findBlock bb := rfl
    rw [this, findBlock_erase, hb]
    have hne2 : (b.id == Info.Begin) = false := by
      rw [hid]
      simpa using hne
    have hne3 : ¬ b.id = Info.Begin := by rw [hid]; exact hne
    simp [hne3, filter_ne_eq_self hall]
  · intro p hp hne
    exact mem_instsWithParent_insertAtEnd_of (mem_instsWithParent_erase_of hp hne)

/-- The incoming pairs of the merge node: one per load, with the block that
holds the load. -/
theorem incomingOfLoads_spec (F : Func) :
    ∀ loads : List Nat, (∀ l ∈ loads, ∃ bb, F.parentOf l = some bb) →
      ∃ inc, incomingOfLoads F loads = some inc
        ∧ ∀ l ∈ loads, ∀ bb, F.parentOf l = some bb → (Value.inst l, bb) ∈ inc := by
  intro loads
  induction loads with
  | nil => intro _; exact ⟨[], rfl, fun l hl => by simp at hl⟩
  | cons a rest ih =>
    intro h
    obtain ⟨bb, hbb⟩ := h a (List.mem_cons_self _ _)
    obtain ⟨inc, hinc, hall⟩ := ih (fun l hl => h l (List.mem_cons_of_mem _ hl))
    refine ⟨(.inst a, bb) :: inc, ?_, ?_⟩
    · rw [incomingOfLoads, hbb, hinc]
    · intro l hl b hb
      rcases List.mem_cons.mp hl with rfl | hl
      · rw [hbb] at hb
        injection hb with hb
        rw [hb]
        exact List.mem_cons_self _ _
      · exact List.mem_cons_of_mem _ (hall l hl b hb)

/-! ### The incoming values of the merge node of a dispatch -/

/-- The case loop records one load per round. -/
theorem createCases_count (Ctx : arrayScalarizeContext) (Info : splitBBInfo) (sw w : Nat) :
    ∀ (k i : Nat) (F : Func) (loads : List Nat) (G : Func) (out : List Nat),
      createCases Ctx Info sw w i k F loads = some (G, out) →
      (∀ x ∈ loads, x < F.nextInst) → out.length = loads.length + k := by
  intro k
  induction k with
  | zero =>
    intro i F loads G out h _
    rw [createCases] at h
    simp only [Option.some.injEq, Prod.mk.injEq] at h
    rw [← h.2]
    rfl
  | succ k ih =>
    intro i F loads G out h hlt
    rw [createCases] at h
    dsimp only at h
    split at h
    · simp at h
    · split at h
      · simp at h
      · split at h
        · have hnot : F.nextInst + 1 ∉ loads := fun hc => by
            have := hlt _ hc
            omega
          have h2 := ih _ _ _ _ _ h (by
            intro x hx
            show x < F.nextInst + 1 + 1
            rcases mem_setInsert.mp hx with h3 | h3
            · have := hlt x h3
              omega
            · have e : x = F.nextInst + 1 := h3
              omega)
          have h3 : (setInsert loads (F.nextInst + 1)).length = loads.length + 1 := by
            rw [setInsert_of_not_mem hnot]
            simp
          have h4 : out.length = (setInsert loads (F.nextInst + 1)).length + k := h2
          omega
        · simp at h

theorem incomingOfLoads_mem (F : Func) :
    ∀ (loads : List Nat) (inc : List (Value × Nat)), incomingOfLoads F loads = some inc →
      inc.length = loads.length
      ∧ ∀ e ∈ inc, ∃ l ∈ loads, e.1 = .inst l ∧ F.parentOf l = some e.2 := by
  intro loads
  induction loads with
  | nil =>
    intro inc h
    rw [incomingOfLoads] at h
    simp only [Option.some.injEq] at h
    subst h
    exact ⟨rfl, fun e he => by simp at he⟩
  | cons a rest ih =>
    intro inc h
    rw [incomingOfLoads] at h
    split at h
    · rename_i bb inc1 hbb hinc
      simp only [Option.some.injEq] at h
      subst h
      obtain ⟨h1, h2⟩ := ih inc1 hinc
      refine ⟨by simp [h1], ?_⟩
      intro e he
      rcases List.mem_cons.mp he with rfl | he
      · exact ⟨a, List.mem_cons_self _ _, rfl, hbb⟩
      · obtain ⟨l, hl, h3, h4⟩ := h2 e he
        exact ⟨l, List.mem_cons_of_mem _ hl, h3, h4⟩
    · simp at h

/-- On a well-formed function, for an element count the loop counter can
hold, `createBBSwitch` returns.  In its result the dispatch is the last
instruction of the before block, keyed on the index value, with the after
block as default; its cases are, for every index, the index constant reduced
to the width of the index type with a block that loads the slot of that
index; the merge node that heads the after block has one incoming value per
index, the load of the case block, and no other. -/
theorem createBBSwitch_full (F : Func) (Ctx : arrayScalarizeContext) (Info : splitBBInfo)
    (N w : Nat) (elem : Ty) (back GEP : Inst)
    (hU : F.UniqueIds) (hB : F.IdsBelow) (hBB : F.BlocksBelow)
    (hA : Ctx.ArrType = some (N, elem)) (hlen : Ctx.ScalarGEPList.length = N) (hpos : 0 < N)
    (hN : N ≤ INT_MAX)
    (hback : (F.blockInsts Info.Begin).getLast? = some back)
    (hw : F.typeBits Info.IdxValue = some w)
    (hty : ∀ s ∈ Ctx.ScalarGEPList,
      ((F.typeOf (.inst s)).bind Ty.getPointerElementType).isSome = true ∧ s ≠ back.id)
    (hne : Info.Begin ≠ Info.End)
    (hgep : (F.findBlock Info.End).bind BasicBlock.getFirstNonPHIOrDbgOrLifetime = some GEP)
    (hgs : GEP.id ∉ Ctx.ScalarGEPList)
    (hus : ∀ p ∈ F.users (.inst GEP.id),
      p.2.id ∉ Ctx.ScalarGEPList ∧ Info.IdxValue ≠ .inst p.2.id)
    (hiv : Info.IdxValue ≠ .inst GEP.id)
    (hkeep : ∃ x ∈ F.blockInsts Info.End, x.id ≠ GEP.id ∧ Value.inst GEP.id ∉ x.kind.operands) :
    ∃ G, createBBSwitch F Ctx Info = some G ∧
      ∃ sw phi cases inc, (G.blockInsts Info.Begin).getLast? = some sw
        ∧ sw.id = F.nextInst
        ∧ sw.kind = .switch Info.IdxValue Info.End cases
        ∧ (∀ e ∈ cases, ∃ k < N, e = (Value.constInt w (k % 2 ^ w), F.nextBlock + k))
        ∧ (G.blockInsts Info.End).head? = some phi ∧ phi.kind = .phi inc
        ∧ (∀ k < N, ∃ slot load, Ctx.ScalarGEPList[k]? = some slot
            ∧ (Value.constInt w (k % 2 ^ w), F.nextBlock + k) ∈ cases
            ∧ load ∈ G.blockInsts (F.nextBlock + k) ∧ load.kind = .load (.inst slot) false
            ∧ (Value.inst load.id, F.nextBlock + k) ∈ inc)
        ∧ inc.length = N
        ∧ ∀ e ∈ inc, e.2 ≠ Info.Begin ∧ F.findBlock e.2 = none
            ∧ ∃ k < N, e.2 = F.nextBlock + k ∧ ∃ load ∈ G.blockInsts e.2,
              e.1 = .inst load.id
              ∧ ∃ slot, Ctx.ScalarGEPList[k]? = some slot
                ∧ load.kind = .load (.inst slot) false := by
  -- the block before the split and the block after it
  obtain ⟨bB, hbB, _⟩ := findBlock_isSome_of_mem (List.mem_of_getLast?_eq_some hback)
  have hbackB : bB.insts.getLast? = some back := by
    rw [← blockInsts_of_findBlock hbB]; exact hback
  have hbackmem : (Info.Begin, back) ∈ F.instsWithParent :=
    mem_blockInsts (List.mem_of_getLast?_eq_some hback)
  obtain ⟨bE, hbE, hfirst⟩ : ∃ bE, F.findBlock Info.End = some bE
      ∧ bE.getFirstNonPHIOrDbgOrLifetime = some GEP := by
    cases hf : F.findBlock Info.End with
    | none => rw [hf] at hgep; simp at hgep
    | some bE => rw [hf] at hgep; exact ⟨bE, rfl, hgep⟩
  have hEinsts : F.blockInsts Info.End = bE.insts := blockInsts_of_findBlock hbE
  have hbEback : ∀ x ∈ bE.insts, x.id ≠ back.id := by
    intro x hx hc
    have hxm : (Info.End, x) ∈ F.instsWithParent := mem_blockInsts (by rw [hEinsts]; exact hx)
    have := hU _ hxm _ hbackmem hc
    exact hne (congrArg Prod.fst this).symm
  have hGEPmem : GEP ∈ bE.insts := List.mem_of_find?_eq_some hfirst
  have hGEPlt : GEP.id < F.nextInst :=
    hB (Info.End, GEP) (mem_blockInsts (by rw [hEinsts]; exact hGEPmem))
  -- the empty dispatch
  obtain ⟨hU2, hB2, hBB2, hn2, hnb2, hsw2, hold2, hmem2, hkeep2⟩ :=
    dispatch_placed F Info back hU hB hBB hback
  generalize hF2 : (((F.erase back.id).fresh).2).insertAtEnd Info.Begin
    { id := F.nextInst, ty := .void, kind := .switch Info.IdxValue Info.End [], dbg := none }
    = F2 at hU2 hB2 hBB2 hn2 hnb2 hsw2 hold2 hmem2 hkeep2
  have hE2 : F2.findBlock Info.End = some bE := hold2 _ _ (Ne.symm hne) hbE hbEback
  have hty2 : ∀ s ∈ Ctx.ScalarGEPList,
      ((F2.typeOf (.inst s)).bind Ty.getPointerElementType).isSome = true := by
    intro s hs
    obtain ⟨h1, h2⟩ := hty s hs
    have hsome := findInst_isSome_of_typeOf h1
    obtain ⟨g, hg⟩ := Option.isSome_iff_exists.mp hsome
    obtain ⟨⟨b, hbg⟩, hgid⟩ := findInst_some hg
    have hin2 : (b, g) ∈ F2.instsWithParent := hkeep2 _ hbg (by rw [hgid]; exact h2)
    have hf2 : F2.findInst s = some g := by
      have := findInst_of_mem hU2 hin2
      rw [hgid] at this
      exact this
    have e2 : F2.typeOf (.inst s) = F.typeOf (.inst s) := by
      show (F2.findInst s).map _ = (F.findInst s).map _
      rw [hf2, hg]
    rw [e2]
    exact h1
  -- the case loop
  have hslots : ∀ j < N, ∃ slot, Ctx.ScalarGEPList[0 + j]? = some slot := by
    intro j hj
    rw [Nat.zero_add]
    exact ⟨Ctx.ScalarGEPList[j], List.getElem?_eq_getElem (by omega)⟩
  obtain ⟨F3, out, hrun, post⟩ :=
    createCases_spec Ctx Info F.nextInst w N 0 F2 [] hU2 hB2 hBB2 (by omega) (by omega)
      hslots hty2
  have hE3 : F3.findBlock Info.End = some bE := by
    apply post.blocks _ _ hE2
    intro x hx
    have := hB (Info.End, x) (mem_blockInsts (by rw [hEinsts]; exact hx))
    exact Nat.ne_of_lt this
  obtain ⟨s0, hs0⟩ : ∃ s0, Ctx.ScalarGEPList.head? = some s0 := by
    cases hl : Ctx.ScalarGEPList with
    | nil => rw [hl] at hlen; simp at hlen; omega
    | cons a r => exact ⟨a, rfl⟩
  have hs0mem : s0 ∈ Ctx.ScalarGEPList := List.mem_of_mem_head? hs0
  obtain ⟨phiType, hphiType⟩ : ∃ phiType,
      (F3.typeOf (.inst s0)).bind Ty.getPointerElementType = some phiType := by
    rw [post.types s0 (findInst_isSome_of_typeOf (hty2 s0 hs0mem))]
    exact Option.isSome_iff_exists.mp (hty2 s0 hs0mem)
  -- the invariant holds before the user loop
  obtain ⟨x, hx, hxid, hxo⟩ := hkeep
  have hnext3 := post.next
  have hphi : F3.nextInst ≠ GEP.id := by omega
  obtain ⟨t, ht, htid, cs2, htk, _, hcs2, hall2⟩ := post.switch _ hsw2 rfl _ _ _ rfl
  have honly2 : ∀ e ∈ cs2, ∃ j < N, e = (Value.constInt w (j % 2 ^ w), F2.nextBlock + j) := by
    intro e he
    rcases hcs2 e he with h2 | ⟨j, hj, h2⟩
    · simp at h2
    · rw [Nat.zero_add] at h2
      exact ⟨j, hj, h2⟩
  have inv4 : SwitchInv Ctx.ScalarGEPList Info GEP.id F.nextInst x.id F.nextInst F2.nextBlock
      F2.nextInst w N (F3.fresh).2 := by
    refine
      { uniq := post.uniq
        users := ?_
        keep := ⟨x, ?_, rfl, hxo⟩
        switch := ⟨t, ht, htid, cs2, htk, fun j hj => by
          have := hall2 j hj
          rw [Nat.zero_add] at this
          exact this, honly2⟩
        cases := fun j hj => by
          have := post.cases j hj
          rw [Nat.zero_add] at this
          exact this }
    · intro p hp
      obtain ⟨hpm, hpo⟩ := mem_users.mp hp
      have hpm3 : p ∈ F3.instsWithParent := hpm
      rcases post.origin p hpm3 with ⟨p0, hp0, hid, heq⟩ | ⟨hge, hk⟩
      · by_cases hc : p.2.id = F.nextInst
        · exfalso
          have hpt : p = (Info.Begin, t) :=
            post.uniq p hpm3 _ (mem_blockInsts (List.mem_of_getLast?_eq_some ht))
              (by rw [hc, htid])
          rw [hpt] at hpo
          simp only [htk, Kind.operands, List.mem_cons, List.mem_map] at hpo
          rcases hpo with h1 | ⟨e, he, h1⟩
          · exact hiv h1.symm
          · obtain ⟨j, _, h2⟩ := honly2 e he
            rw [h2] at h1
            cases h1
        · have hpp : p = p0 := heq hc
          rw [← hpp] at hp0
          rcases hmem2 p hp0 with ⟨h1, _⟩ | h1
          · exact ⟨hB p h1, hus p (mem_users.mpr ⟨h1, hpo⟩)⟩
          · exfalso
            rw [h1] at hc
            exact hc rfl
      · exfalso
        rcases hk with ⟨slot, hslot, hk⟩ | hk
        · rw [hk] at hpo
          simp only [Kind.operands, List.mem_singleton] at hpo
          injection hpo with hpo
          exact hgs (hpo ▸ hslot)
        · rw [hk] at hpo
          simp [Kind.operands] at hpo
    · show x ∈ F3.blockInsts Info.End
      rw [blockInsts_of_findBlock hE3, ← hEinsts]
      exact hx
  -- the user loop
  obtain ⟨F5, hrun5, inv5, _⟩ :=
    eraseUsers_spec GEP.id F3.nextInst
      (SwitchInv Ctx.ScalarGEPList Info GEP.id F.nextInst x.id F.nextInst F2.nextBlock
        F2.nextInst w N)
      (fun F p => switchInv_step hphi (Nat.le_refl _) (by omega) F p)
      ((F3.fresh).2.instsWithParent.length + 1) (F3.fresh).2 inv4 (Nat.lt_succ_self _)
  have hU6 : (F5.erase GEP.id).UniqueIds := uniqueIds_erase inv5.uniq _
  obtain ⟨x5, hx5, hx5id, _⟩ := inv5.keep
  have hx6 : x5 ∈ (F5.erase GEP.id).blockInsts Info.End :=
    mem_blockInsts_erase_of hx5 (by rw [hx5id]; exact hxid)
  obtain ⟨front, rest, hfront⟩ : ∃ front rest,
      (F5.erase GEP.id).blockInsts Info.End = front :: rest := by
    cases hl : (F5.erase GEP.id).blockInsts Info.End with
    | nil => rw [hl] at hx6; simp at hx6
    | cons a r => exact ⟨a, r, rfl⟩
  have hcase6 : ∀ j < N, ∃ slot l, Ctx.ScalarGEPList[j]? = some slot
      ∧ l ∈ (F5.erase GEP.id).blockInsts (F2.nextBlock + j)
      ∧ l.id = F2.nextInst + 2 * j + 1 ∧ l.kind = .load (.inst slot) false := by
    intro j hj
    obtain ⟨slot, l, h1, h2, h3, h4⟩ := inv5.cases j hj
    exact ⟨slot, l, h1, mem_blockInsts_erase_of h2 (by omega), h3, h4⟩
  have hparent : ∀ j < N, (F5.erase GEP.id).parentOf (F2.nextInst + 2 * j + 1)
      = some (F2.nextBlock + j) := by
    intro j hj
    obtain ⟨slot, l, _, h2, h3, _⟩ := hcase6 j hj
    have := parentOf_of_mem hU6 (mem_blockInsts h2)
    rw [← h3]
    exact this
  obtain ⟨inc, hinc, hincall⟩ := incomingOfLoads_spec (F5.erase GEP.id) out (by
    intro l hl
    rcases (post.loads l).mp hl with h | ⟨j, hj, rfl⟩
    · simp at h
    · exact ⟨_, hparent j hj⟩)
  refine ⟨(F5.erase GEP.id).insertBefore front.id
    { id := F3.nextInst, ty := phiType, kind := .phi inc, dbg := none }, ?_, ?_⟩
  · have hnotempty : Ctx.ScalarGEPList.isEmpty = false := by
      cases hl : Ctx.ScalarGEPList with
      | nil => rw [hl] at hs0; simp at hs0
      | cons a r => rfl
    unfold createBBSwitch
    simp only [hnotempty, Bool.false_eq_true, if_false, hbB, hbackB, hA, hw]
    have hrun2 : createCases Ctx Info (F.erase back.id).nextInst w 0 N
        ((F.erase back.id).fresh.2.insertAtEnd Info.Begin
          { id := (F.erase back.id).nextInst, ty := .void,
            kind := .switch Info.IdxValue Info.End [], dbg := none })
        [] = some (F3, out) := by
      rw [← hF2] at hrun
      exact hrun
    have hhead : (Ctx.ScalarGEPList.head?.bind
        fun s => (F3.typeOf (.inst s)).bind Ty.getPointerElementType) = some phiType := by
      rw [hs0]
      exact hphiType
    have hgep3 : (F3.findBlock Info.End).bind BasicBlock.getFirstNonPHIOrDbgOrLifetime
        = some GEP := by
      rw [hE3]
      exact hfirst
    simp only [hrun2, hhead, hgep3, hrun5, hfront, List.head?_cons, hinc]
  · obtain ⟨t5, ht5, ht5id, cs5, ht5k, hall5, honly5⟩ := inv5.switch
    refine ⟨t5, { id := F3.nextInst, ty := phiType, kind := .phi inc, dbg := none }, cs5,
      inc, ?_, ht5id, ht5k, ?_, ?_, rfl, ?_, ?_, ?_⟩
    · exact getLast?_blockInsts_insertBefore_of
        (getLast?_blockInsts_erase_of ht5 (by omega))
    · intro e he
      rw [← hnb2]
      exact honly5 e he
    · rw [blockInsts_insertBefore, hfront]
      unfold insertBeforeList
      simp
    · intro k hk
      obtain ⟨slot, l, h1, h2, h3, h4⟩ := hcase6 k hk
      have hcase := hall5 k hk
      rw [← hnb2]
      refine ⟨slot, l, h1, hcase, mem_blockInsts_insertBefore_of h2, h4, ?_⟩
      apply hincall l.id ((post.loads l.id).mpr (Or.inr ⟨k, hk, h3⟩))
      rw [h3]
      exact hparent k hk
    · rw [(incomingOfLoads_mem _ _ _ hinc).1,
        createCases_count Ctx Info F.nextInst w N 0 F2 [] F3 out hrun (fun x hx => by simp at hx)]
      simp
    · intro e he
      obtain ⟨l, hl, he1, he2⟩ := (incomingOfLoads_mem _ _ _ hinc).2 e he
      rcases (post.loads l).mp hl with h | ⟨k, hk, rfl⟩
      · simp at h
      rw [hparent k hk] at he2
      injection he2 with he2
      obtain ⟨slot, ld, h1, h2, h3, h4⟩ := hcase6 k hk
      have hBlt : Info.Begin < F.nextBlock := by
        have := hBB bB (findBlock_some hbB).1
        rw [(findBlock_some hbB).2] at this
        exact this
      have hnew : F.findBlock e.2 = none := by
        unfold Func.findBlock
        rw [List.find?_eq_none]
        intro b hb
        have := hBB b hb
        rw [← he2, hnb2]
        simp only [beq_iff_eq, ne_eq]
        omega
      refine ⟨by rw [← he2, hnb2]; omega, hnew, k, hk, by rw [← he2, hnb2], ld, ?_, ?_,
        slot, h1, h4⟩
      · rw [← he2]
        exact mem_blockInsts_insertBefore_of h2
      · rw [he1, h3]

/-- The case loop of `createBBSwitch` overflows its counter, so the function
does not return, for an element count above `INT_MAX`. -/
theorem createBBSwitch_overflow (F : Func) (Ctx : arrayScalarizeContext) (Info : splitBBInfo)
    (N : Nat) (elem : Ty) (hA : Ctx.ArrType = some (N, elem))
    (hs : Ctx.ScalarGEPList.isEmpty = false) (hN : INT_MAX < N) :
    createBBSwitch F Ctx Info = none := by
  unfold createBBSwitch
  simp only [hs, Bool.false_eq_true, if_false, hA]
  split
  · rfl
  · split
    · rename_i hm
      rename_i heq
      simp only [Option.some.injEq, Prod.mk.injEq] at heq
      obtain ⟨rfl, _⟩ := heq
      rw [createCases_overflow Ctx Info _ _ _ 0 _ [] (by unfold INT_MAX at hN; omega)
        (by omega)]
    · rfl

/-- The two halves of the behaviour of `createBBSwitch` on a well-formed
function: it returns when the element count is within `INT_MAX`, and whenever
it returns its result is the dispatch described in `createBBSwitch_full`. -/
theorem createBBSwitch_cases (F : Func) (Ctx : arrayScalarizeContext) (Info : splitBBInfo)
    (N w : Nat) (elem : Ty) (back GEP : Inst)
    (hU : F.UniqueIds) (hB : F.IdsBelow) (hBB : F.BlocksBelow)
    (hA : Ctx.ArrType = some (N, elem)) (hlen : Ctx.ScalarGEPList.length = N) (hpos : 0 < N)
    (hback : (F.blockInsts Info.Begin).getLast? = some back)
    (hw : F.typeBits Info.IdxValue = some w)
    (hty : ∀ s ∈ Ctx.ScalarGEPList,
      ((F.typeOf (.inst s)).bind Ty.getPointerElementType).isSome = true ∧ s ≠ back.id)
    (hne : Info.Begin ≠ Info.End)
    (hgep : (F.findBlock Info.End).bind BasicBlock.getFirstNonPHIOrDbgOrLifetime = some GEP)
    (hgs : GEP.id ∉ Ctx.ScalarGEPList)
    (hus : ∀ p ∈ F.users (.inst GEP.id),
      p.2.id ∉ Ctx.ScalarGEPList ∧ Info.IdxValue ≠ .inst p.2.id)
    (hiv : Info.IdxValue ≠ .inst GEP.id)
    (hkeep : ∃ x ∈ F.blockInsts Info.End, x.id ≠ GEP.id ∧ Value.inst GEP.id ∉ x.kind.operands) :
    (N ≤ INT_MAX → ∃ G, createBBSwitch F Ctx Info = some G)
    ∧ ∀ G, createBBSwitch F Ctx Info = some G →
      ∃ sw phi cases inc, (G.blockInsts Info.Begin).getLast? = some sw
        ∧ sw.id = F.nextInst
        ∧ sw.kind = .switch Info.IdxValue Info.End cases
        ∧ (∀ e ∈ cases, ∃ k < N, e = (Value.constInt w (k % 2 ^ w), F.nextBlock + k))
        ∧ (G.blockInsts Info.End).head? = some phi ∧ phi.kind = .phi inc
        ∧ (∀ k < N, ∃ slot load, Ctx.ScalarGEPList[k]? = some slot
            ∧ (Value.constInt w (k % 2 ^ w), F.nextBlock + k) ∈ cases
            ∧ load ∈ G.blockInsts (F.nextBlock + k) ∧ load.kind = .load (.inst slot) false
            ∧ (Value.inst load.id, F.nextBlock + k) ∈ inc)
        ∧ inc.length = N
        ∧ ∀ e ∈ inc, e.2 ≠ Info.Begin ∧ F.findBlock e.2 = none
            ∧ ∃ k < N, e.2 = F.nextBlock + k ∧ ∃ load ∈ G.blockInsts e.2,
              e.1 = .inst load.id
              ∧ ∃ slot, Ctx.ScalarGEPList[k]? = some slot
                ∧ load.kind = .load (.inst slot) false := by
  by_cases hN : N ≤ INT_MAX
  · obtain ⟨G0, hG0, h⟩ :=
      createBBSwitch_full F Ctx Info N w elem back GEP hU hB hBB hA hlen hpos hN hback hw hty
        hne hgep hgs hus hiv hkeep
    refine ⟨fun _ => ⟨G0, hG0⟩, ?_⟩
    intro G hG
    rw [hG0] at hG
    injection hG with hG
    rw [← hG]
    exact h
  · refine ⟨fun h => absurd h hN, ?_⟩
    intro G hG
    have hs : Ctx.ScalarGEPList.isEmpty = false := by
      cases hl : Ctx.ScalarGEPList with
      | nil => rw [hl] at hlen; simp at hlen; omega
      | cons a r => rfl
    rw [createBBSwitch_overflow F Ctx Info N elem hA hs (by omega)] at hG
    simp at hG

/-! ### The slots `insertScalars` places in the preheader -/

theorem length_insertBeforeList_of_mem {pos : Nat} {n : Inst} {l : List Inst}
    (h : ∃ x ∈ l, x.id = pos) : (insertBeforeList pos n l).length = l.length + 1 := by
  induction l with
  | nil => obtain ⟨x, hx, _⟩ := h; simp at hx
  | cons y rest ih =>
    unfold insertBeforeList
    by_cases hy : (y.id == pos) = true
    · rw [if_pos hy]
      simp
    · rw [if_neg hy]
      obtain ⟨x, hx, hid⟩ := h
      rcases List.mem_cons.mp hx with rfl | hx
      · exact absurd (by simpa using hid) hy
      · simp [ih ⟨x, hx, hid⟩]

theorem mem_insertBeforeList_new {pos : Nat} {n : Inst} {l : List Inst}
    (h : ∃ x ∈ l, x.id = pos) : n ∈ insertBeforeList pos n l := by
  induction l with
  | nil => obtain ⟨x, hx, _⟩ := h; simp at hx
  | cons y rest ih =>
    unfold insertBeforeList
    by_cases hy : (y.id == pos) = true
    · rw [if_pos hy]
      exact List.mem_cons_self _ _
    · rw [if_neg hy]
      obtain ⟨x, hx, hid⟩ := h
      rcases List.mem_cons.mp hx with rfl | hx
      · exact absurd (by simpa using hid) hy
      · exact List.mem_cons_of_mem _ (ih ⟨x, hx, hid⟩)

/-- The loop of `insertScalars`: `k` rounds from index `i`, when the counter
stays within `INT_MAX`, put `k` element accesses in the block of the
terminator `t`, with the indices `i`, `i + 1`, ... in this order, and append
their identities to the slot list. -/
theorem insertScalarsFrom_spec (V : Value) (n : Nat) (elem : Ty) (t ph : Nat) :
    ∀ (k i : Nat) (F : Func) (acc : List Nat),
      (∃ x ∈ F.blockInsts ph, x.id = t) → (∀ a ∈ acc, a < F.nextInst) → i + k ≤ INT_MAX →
      ∃ G out, insertScalarsFrom V n elem (some t) i k F acc = some (G, out)
        ∧ out.length = acc.length + k
        ∧ (G.blockInsts ph).length = (F.blockInsts ph).length + k
        ∧ (∀ x ∈ F.blockInsts ph, x ∈ G.blockInsts ph)
        ∧ (∀ m < acc.length, out[m]? = acc[m]?)
        ∧ (G.blockInsts ph).getLast? = (F.blockInsts ph).getLast?
        ∧ ∀ j < k, ∃ g ∈ G.blockInsts ph, out[acc.length + j]? = some g.id
            ∧ g.kind
              = .gep (.array n elem) V [.constInt 64 0, .constInt 64 ((i + j) % 2 ^ 64)] := by
  intro k
  induction k with
  | zero =>
    intro i F acc _ _ _
    exact ⟨F, acc, rfl, rfl, rfl, fun _ h => h, fun _ _ => rfl, rfl,
      fun j hj => absurd hj (Nat.not_lt_zero j)⟩
  | succ k ih =>
    intro i F acc ht hacc hik
    rw [insertScalarsFrom]
    dsimp only
    rw [if_pos (by omega : i + 1 ≤ INT_MAX)]
    generalize hgep : (⟨F.nextInst, .ptr elem,
      .gep (.array n elem) V [.constInt 64 0, .constInt 64 (i % 2 ^ 64)], none⟩ : Inst) = gep
    have hgid : gep.id = F.nextInst := by rw [← hgep]
    have hgk : gep.kind
        = .gep (.array n elem) V [.constInt 64 0, .constInt 64 (i % 2 ^ 64)] := by
      rw [← hgep]
    have hnot : F.nextInst ∉ acc := fun hc => Nat.lt_irrefl _ (hacc _ hc)
    rw [setInsert_of_not_mem hnot]
    have hblock : (((F.fresh).2).insertBefore t gep).blockInsts ph
        = insertBeforeList t gep (F.blockInsts ph) := blockInsts_insertBefore _ _ _ _
    have ht2 : ∃ x ∈ (((F.fresh).2).insertBefore t gep).blockInsts ph, x.id = t := by
      obtain ⟨x, hx, hid⟩ := ht
      exact ⟨x, by rw [hblock]; exact mem_insertBeforeList_of_mem hx, hid⟩
    have hacc2 : ∀ a ∈ acc ++ [F.nextInst], a < (((F.fresh).2).insertBefore t gep).nextInst := by
      intro a ha
      show a < F.nextInst + 1
      rcases List.mem_append.mp ha with h | h
      · exact Nat.lt_succ_of_lt (hacc a h)
      · rw [List.mem_singleton.mp h]
        exact Nat.lt_succ_self _
    obtain ⟨G, out, hrun, h1, h2, h3, h4, hlast, h5⟩ :=
      ih (i + 1) _ (acc ++ [F.nextInst]) ht2 hacc2 (by omega)
    have hlen2 : (acc ++ [F.nextInst]).length = acc.length + 1 := by simp
    refine ⟨G, out, hrun, by rw [h1, hlen2]; omega, ?_, ?_, ?_,
      by rw [hlast, hblock, getLast_insertBeforeList], ?_⟩
    · rw [h2, hblock, length_insertBeforeList_of_mem ht]
      omega
    · intro x hx
      exact h3 x (by rw [hblock]; exact mem_insertBeforeList_of_mem hx)
    · intro m hm
      rw [h4 m (by rw [hlen2]; omega), List.getElem?_append_left hm]
    · intro j hj
      cases j with
      | zero =>
        refine ⟨gep, h3 gep (by rw [hblock]; exact mem_insertBeforeList_new ht), ?_, hgk⟩
        have h6 := h4 acc.length (by rw [hlen2]; omega)
        simpa [hgid] using h6
      | succ j =>
        obtain ⟨g, hg, hgi, hgk2⟩ := h5 j (Nat.lt_of_succ_lt_succ hj)
        refine ⟨g, hg, ?_, ?_⟩
        · have e : acc.length + (j + 1) = (acc ++ [F.nextInst]).length + j := by
            rw [hlen2]; omega
          rw [e]
          exact hgi
        · have e : i + (j + 1) = i + 1 + j := by omega
          rw [e]
          exact hgk2

/-- The counter of the loop of `insertScalars` overflows when the loop is to
run past `INT_MAX`. -/
theorem insertScalarsFrom_overflow (V : Value) (n : Nat) (elem : Ty) (term : Option Nat) :
    ∀ (k i : Nat) (F : Func) (acc : List Nat), 0 < k → INT_MAX < i + k →
      insertScalarsFrom V n elem term i k F acc = none := by
  intro k
  induction k with
  | zero => intro i F acc h; exact absurd h (Nat.lt_irrefl 0)
  | succ k ih =>
    intro i F acc _ hik
    unfold insertScalarsFrom
    dsimp only
    by_cases hi : i + 1 ≤ INT_MAX
    · rw [if_pos hi]
      apply ih
      · omega
      · omega
    · rw [if_neg hi]

/-- A context of an array of more than `INT_MAX` elements: `insertScalars`
overflows its counter. -/
theorem insertScalars_overflow (F : Func) (Ctx : arrayScalarizeContext) (ph : Option Nat)
    (N : Nat) (elem : Ty) (hA : Ctx.ArrType = some (N, elem)) (hN : INT_MAX < N) :
    Ctx.insertScalars F ph = none := by
  unfold arrayScalarizeContext.insertScalars
  split
  · rename_i bb n e hph heq
    rw [hA] at heq
    simp only [Option.some.injEq, Prod.mk.injEq] at heq
    obtain ⟨rfl, _⟩ := heq
    split
    · rfl
    · rw [insertScalarsFrom_overflow _ _ _ _ _ 0 _ _ (by unfold INT_MAX at hN; omega)
        (by omega)]
  · rfl

/-- A fresh context on a preheader that ends in a terminator, for an element
count the loop counter can hold, gets exactly one slot per element, slot `i`
addressing the constant index `i`. -/
theorem insertScalars_spec (F : Func) (Ctx : arrayScalarizeContext) (ph N : Nat) (elem : Ty)
    (b : BasicBlock) (t : Inst) (hN : N ≤ INT_MAX)
    (hA : Ctx.ArrType = some (N, elem)) (hnil : Ctx.ScalarGEPList = [])
    (hb : F.findBlock ph = some b) (ht : b.getTerminator = some t) :
    ∃ G Ctx2, Ctx.insertScalars F (some ph) = some (G, Ctx2)
      ∧ Ctx2.V = Ctx.V ∧ Ctx2.ArrType = Ctx.ArrType
      ∧ Ctx2.ScalarGEPList.length = N
      ∧ (G.blockInsts ph).length = (F.blockInsts ph).length + N
      ∧ (∀ x ∈ F.blockInsts ph, x ∈ G.blockInsts ph)
      ∧ (G.blockInsts ph).getLast? = (F.blockInsts ph).getLast?
      ∧ ∀ i < N, ∃ g ∈ G.blockInsts ph, Ctx2.ScalarGEPList[i]? = some g.id
          ∧ g.kind = .gep (.array N elem) Ctx.V [.constInt 64 0, .constInt 64 i] := by
  have htmem : ∃ x ∈ F.blockInsts ph, x.id = t.id := by
    refine ⟨t, ?_, rfl⟩
    rw [blockInsts_of_findBlock hb]
    unfold BasicBlock.getTerminator at ht
    cases hl : b.insts.getLast? with
    | none => rw [hl] at ht; simp at ht
    | some u =>
      rw [hl] at ht
      dsimp only at ht
      split at ht
      · injection ht with ht
        rw [← ht]
        exact List.mem_of_getLast?_eq_some hl
      · simp at ht
  obtain ⟨G, out, hrun, h1, h2, h3, _, hlast, h5⟩ :=
    insertScalarsFrom_spec Ctx.V N elem t.id ph N 0 F [] htmem (fun a ha => by simp at ha)
      (by omega)
  refine ⟨G, { Ctx with ScalarGEPList := out }, ?_, rfl, rfl, ?_, h2, h3, hlast, ?_⟩
  · unfold arrayScalarizeContext.insertScalars
    simp only [hA, hb, ht, hnil, Option.map_some', hrun]
  · simpa using h1
  · intro i hi
    obtain ⟨g, hg, hgi, hgk⟩ := h5 i hi
    refine ⟨g, hg, ?_, ?_⟩
    · simpa using hgi
    · have hlt : i < 2 ^ 64 := by unfold INT_MAX at hN; omega
      rw [Nat.zero_add, Nat.mod_eq_of_lt hlt] at hgk
      exact hgk

/-- The two halves of the behaviour of `insertScalars` on a fresh context
and a preheader that ends in a terminator: it returns when the element count
is within `INT_MAX`, and whenever it returns there is exactly one slot per
element, slot `i` addressing the constant index `i`. -/
theorem insertScalars_cases (F : Func) (Ctx : arrayScalarizeContext) (ph N : Nat) (elem : Ty)
    (b : BasicBlock) (t : Inst)
    (hA : Ctx.ArrType = some (N, elem)) (hnil : Ctx.ScalarGEPList = [])
    (hb : F.findBlock ph = some b) (ht : b.getTerminator = some t) :
    (N ≤ INT_MAX → ∃ G Ctx2, Ctx.insertScalars F (some ph) = some (G, Ctx2))
    ∧ ∀ G Ctx2, Ctx.insertScalars F (some ph) = some (G, Ctx2) →
      Ctx2.V = Ctx.V ∧ Ctx2.ArrType = Ctx.ArrType
      ∧ Ctx2.ScalarGEPList.length = N
      ∧ (G.blockInsts ph).length = (F.blockInsts ph).length + N
      ∧ (∀ x ∈ F.blockInsts ph, x ∈ G.blockInsts ph)
      ∧ (G.blockInsts ph).getLast? = (F.blockInsts ph).getLast?
      ∧ ∀ i < N, ∃ g ∈ G.blockInsts ph, Ctx2.ScalarGEPList[i]? = some g.id
          ∧ g.kind = .gep (.array N elem) Ctx.V [.constInt 64 0, .constInt 64 i] := by
  by_cases hN : N ≤ INT_MAX
  · obtain ⟨G0, C0, h0, h⟩ := insertScalars_spec F Ctx ph N elem b t hN hA hnil hb ht
    refine ⟨fun _ => ⟨G0, C0, h0⟩, ?_⟩
    intro G Ctx2 hG
    rw [h0] at hG
    simp only [Option.some.injEq, Prod.mk.injEq] at hG
    rw [← hG.1, ← hG.2]
    exact h
  · refine ⟨fun h => absurd h hN, ?_⟩
    intro G Ctx2 hG
    rw [insertScalars_overflow F Ctx (some ph) N elem hA (by omega)] at hG
    simp at hG

/-- The pass has no result on a loop whose first candidate is an array of
more than `INT_MAX` elements: the counter of the loop of `insertScalars`
overflows. -/
theorem runOnLoop_overflow (fid : Nat) (GDM : List (Nat × DefUseSet)) (F : Func) (L : Loop)
    (Ctx : arrayScalarizeContext) (rest : List arrayScalarizeContext) (N : Nat) (elem : Ty)
    (hc : arrayCandidates fid GDM F L = some (Ctx :: rest))
    (hA : Ctx.ArrType = some (N, elem)) (hN : INT_MAX < N) :
    ArrayScalarizePass.runOnLoop fid GDM F L = none := by
  unfold ArrayScalarizePass.runOnLoop
  rw [hc]
  dsimp only
  unfold insertAllScalars
  rw [insertScalars_overflow F Ctx (L.getLoopPredecessor F) N elem hA hN]

/-- C5, counterexample.  In `narrowIndexFn` the index of `a[i]` over the
four-element array has the one-bit integer type.  The pass gives the dispatch
at the end of block 2 four cases whose constants are made in that type: the
constants of the indices 2 and 3 wrap to 0 and 1, so the dispatch has no case
for the value 2 or the value 3 and two cases for each of 0 and 1.  In
`hugeArrayFn` the array has `INT_MAX + 1` elements: the array is the
candidate of the loop, the `int` counter of the loop of `insertScalars`
overflows, and the pass has no result. -/
theorem narrow_index_cases_wrap :
    narrowIndexFn.typeBits (.inst 9) = some 1
    ∧ (ArrayScalarizePass.runOnLoop 0 [] narrowIndexFn localArrayLoop).map
        (fun G => (G.blockInsts 2).getLast?.map (fun i => i.kind))
      = some (some (.switch (.inst 9) 5
          [(.constInt 1 0, 6), (.constInt 1 1, 7), (.constInt 1 0, 8), (.constInt 1 1, 9)]))
    ∧ arrayCandidates 0 [] hugeArrayFn localArrayLoop
      = some [⟨.global 0, some (INT_MAX + 1, .double), []⟩]
    ∧ ArrayScalarizePass.runOnLoop 0 [] hugeArrayFn localArrayLoop = none :=
  ⟨by decide!, by decide!, by decide!,
   runOnLoop_overflow 0 [] hugeArrayFn localArrayLoop
     ⟨.global 0, some (INT_MAX + 1, .double), []⟩ [] (INT_MAX + 1) .double (by decide!) rfl
     (Nat.lt_succ_self _)⟩

/-- C5, amended (slot/index correspondence).  `insertScalars` on a fresh
context of an array of `N` elements, with a preheader that ends in a
terminator, returns when `N` is at most `INT_MAX`, the range of its `int`
counter; whenever it returns, it has added exactly `N` instructions to the
preheader and recorded `N` slots, slot `i` being an element access of the
array with the constant indices `0, i`.  On a well-formed function (unique
instruction identities below the next free one, block identities below the
next free one) with `N > 0` typed slots, at a split point whose after block
starts with the indexing instruction, whose users are not the index value,
and keeps one more instruction that does not use it, `createBBSwitch` returns
when `N` is at most `INT_MAX`; whenever it returns, the dispatch is the last
instruction of the before block, keyed on the index value, and has for every
`k < N` a case for the constant `k` reduced modulo `2 ^ w`, where `w` is the
width of the type of the index value, which is the value `k` itself when
`N ≤ 2 ^ w`; that case goes to a block holding a load of slot `k`, and the
merge node that heads the after block takes that load as its incoming value
from that block. -/
theorem slots_match_dispatch
    (F0 : Func) (Ctx0 : arrayScalarizeContext) (ph : Nat) (b : BasicBlock) (t : Inst)
    (F : Func) (Ctx : arrayScalarizeContext) (Info : splitBBInfo)
    (N w : Nat) (elem : Ty) (back GEP : Inst)
    (hA0 : Ctx0.ArrType = some (N, elem)) (hnil : Ctx0.ScalarGEPList = [])
    (hb : F0.findBlock ph = some b) (ht : b.getTerminator = some t)
    (hU : F.UniqueIds) (hB : F.IdsBelow) (hBB : F.BlocksBelow)
    (hA : Ctx.ArrType = some (N, elem)) (hlen : Ctx.ScalarGEPList.length = N) (hpos : 0 < N)
    (hback : (F.blockInsts Info.Begin).getLast? = some back)
    (hw : F.typeBits Info.IdxValue = some w)
    (hty : ∀ s ∈ Ctx.ScalarGEPList,
      ((F.typeOf (.inst s)).bind Ty.getPointerElementType).isSome = true ∧ s ≠ back.id)
    (hne : Info.Begin ≠ Info.End)
    (hgep : (F.findBlock Info.End).bind BasicBlock.getFirstNonPHIOrDbgOrLifetime = some GEP)
    (hgs : GEP.id ∉ Ctx.ScalarGEPList)
    (hus : ∀ p ∈ F.users (.inst GEP.id),
      p.2.id ∉ Ctx.ScalarGEPList ∧ Info.IdxValue ≠ .inst p.2.id)
    (hiv : Info.IdxValue ≠ .inst GEP.id)
    (hkeep : ∃ x ∈ F.blockInsts Info.End, x.id ≠ GEP.id ∧ Value.inst GEP.id ∉ x.kind.operands) :
    ((N ≤ INT_MAX → ∃ G Ctx2, Ctx0.insertScalars F0 (some ph) = some (G, Ctx2))
      ∧ ∀ G Ctx2, Ctx0.insertScalars F0 (some ph) = some (G, Ctx2) →
        Ctx2.V = Ctx0.V ∧ Ctx2.ArrType = Ctx0.ArrType
        ∧ Ctx2.ScalarGEPList.length = N
        ∧ (G.blockInsts ph).length = (F0.blockInsts ph).length + N
        ∧ ∀ i < N, ∃ g ∈ G.blockInsts ph, Ctx2.ScalarGEPList[i]? = some g.id
            ∧ g.kind = .gep (.array N elem) Ctx0.V [.constInt 64 0, .constInt 64 i])
    ∧ (N ≤ INT_MAX → ∃ G, createBBSwitch F Ctx Info = some G)
    ∧ ∀ G, createBBSwitch F Ctx Info = some G →
      ∃ sw phi cases inc, (G.blockInsts Info.Begin).getLast? = some sw
        ∧ sw.kind = .switch Info.IdxValue Info.End cases
        ∧ (G.blockInsts Info.End).head? = some phi ∧ phi.kind = .phi inc
        ∧ ∀ k < N, ∃ slot caseBB load, Ctx.ScalarGEPList[k]? = some slot
            ∧ (Value.constInt w (k % 2 ^ w), caseBB) ∈ cases
            ∧ (N ≤ 2 ^ w → (Value.constInt w k, caseBB) ∈ cases)
            ∧ load ∈ G.blockInsts caseBB ∧ load.kind = .load (.inst slot) false
            ∧ (Value.inst load.id, caseBB) ∈ inc := by
  have hs := insertScalars_cases F0 Ctx0 ph N elem b t hA0 hnil hb ht
  have hc := createBBSwitch_cases F Ctx Info N w elem back GEP hU hB hBB hA hlen hpos hback hw
    hty hne hgep hgs hus hiv hkeep
  refine ⟨⟨hs.1, ?_⟩, hc.1, ?_⟩
  · intro G Ctx2 hG
    obtain ⟨h1, h2, h3, h4, _, _, h6⟩ := hs.2 G Ctx2 hG
    exact ⟨h1, h2, h3, h4, h6⟩
  · intro G hG
    obtain ⟨sw, phi, cases, inc, h1, _, h3, _, h5, h6, h7, _, _⟩ := hc.2 G hG
    refine ⟨sw, phi, cases, inc, h1, h3, h5, h6, ?_⟩
    intro k hk
    obtain ⟨slot, load, a1, a2, a3, a4, a5⟩ := h7 k hk
    refine ⟨slot, F.nextBlock + k, load, a1, a2, ?_, a3, a4, a5⟩
    intro hNw
    rw [Nat.mod_eq_of_lt (Nat.lt_of_lt_of_le hk hNw)] at a2
    exact a2

theorem slots_match_dispatch_witness :
    globalArraySlots.2.ScalarGEPList = [18, 19, 20, 21]
    ∧ (∃ G Ctx2, globalArrayContext.insertScalars globalArrayFn (some 0) = some (G, Ctx2)
      ∧ Ctx2.ScalarGEPList.length = 4
      ∧ (G.blockInsts 0).length = (globalArrayFn.blockInsts 0).length + 4
      ∧ ∀ i < 4, ∃ g ∈ G.blockInsts 0, Ctx2.ScalarGEPList[i]? = some g.id
          ∧ g.kind = .gep (.array 4 .double) globalArrayContext.V
              [.constInt 64 0, .constInt 64 i])
    ∧ ∃ G, createBBSwitch globalArraySplit globalArraySlots.2 ⟨2, 5, .inst 9⟩ = some G ∧
      ∃ sw phi cases inc, (G.blockInsts 2).getLast? = some sw
        ∧ sw.kind = .switch (.inst 9) 5 cases
        ∧ (G.blockInsts 5).head? = some phi ∧ phi.kind = .phi inc
        ∧ ∀ k < 4, ∃ slot caseBB load, globalArraySlots.2.ScalarGEPList[k]? = some slot
            ∧ (Value.constInt 64 k, caseBB) ∈ cases
            ∧ load ∈ G.blockInsts caseBB ∧ load.kind = .load (.inst slot) false
            ∧ (Value.inst load.id, caseBB) ∈ inc :=
  have h := slots_match_dispatch globalArrayFn globalArrayContext 0
     ⟨0, globalArrayFn.blockInsts 0⟩ (mkInst 4 .void (.br 1))
     globalArraySplit globalArraySlots.2 ⟨2, 5, .inst 9⟩ 4 64 .double
     ⟨22, .void, .br 5, globalArrayGEP.dbg⟩ globalArrayGEP
     rfl rfl (by decide!) (by decide!)
     (by decide!) (by decide!) (by decide!) (by decide!) (by decide!) (by decide!)
     (by decide!) (by decide!) (by decide!) (by decide!) (by decide!) (by decide!)
     (by decide!) (by decide!) (by decide!)
  ⟨by decide!,
   (h.1.1 (by decide)).elim (fun G hG => hG.elim (fun Ctx2 hC =>
     ⟨G, Ctx2, hC, (h.1.2 G Ctx2 hC).2.2.1, (h.1.2 G Ctx2 hC).2.2.2.1,
       (h.1.2 G Ctx2 hC).2.2.2.2⟩)),
   (h.2.1 (by decide)).elim (fun G hG =>
     (h.2.2 G hG).elim (fun sw h1 => h1.elim (fun phi h2 => h2.elim (fun cases h3 =>
       h3.elim (fun inc h4 =>
         ⟨G, hG, sw, phi, cases, inc, h4.1, h4.2.1, h4.2.2.1, h4.2.2.2.1,
           fun k hk => (h4.2.2.2.2 k hk).elim (fun slot a1 => a1.elim (fun caseBB a2 =>
             a2.elim (fun load a3 =>
               ⟨slot, caseBB, load, a3.1, a3.2.2.1 (by decide), a3.2.2.2⟩)))⟩)))))⟩

/-- C13 (out-of-range index boundary).  On a well-formed function and a
split point with `N > 0` typed slots (the hypotheses of the dispatch
construction: unique instruction identities below the next free one, block
identities below the next free one, an after block that starts with the
indexing instruction, whose users are not the index value, and keeps one more
instruction that does not use it), `createBBSwitch` returns when `N` is at
most `INT_MAX`, the range of its `int` counter.  Whenever it returns, the
last instruction of the before block is the dispatch it created, keyed on the
index value of the split point, with the after block as default destination;
every case of the dispatch is the case of an index `k < N`, its constant
being `k` reduced to the width `w` of the index type and its destination a
block that `createBBSwitch` created, so that with `N ≤ 2 ^ w` no case is for
a value outside `[0, N)`; the merge node that heads the after block has
exactly `N` incoming values, one from each case block and each of them the
load of that block, none of them from the before block. -/
theorem default_edge_unmerged (F : Func) (Ctx : arrayScalarizeContext) (Info : splitBBInfo)
    (N w : Nat) (elem : Ty) (back GEP : Inst)
    (hU : F.UniqueIds) (hB : F.IdsBelow) (hBB : F.BlocksBelow)
    (hA : Ctx.ArrType = some (N, elem)) (hlen : Ctx.ScalarGEPList.length = N) (hpos : 0 < N)
    (hback : (F.blockInsts Info.Begin).getLast? = some back)
    (hw : F.typeBits Info.IdxValue = some w)
    (hty : ∀ s ∈ Ctx.ScalarGEPList,
      ((F.typeOf (.inst s)).bind Ty.getPointerElementType).isSome = true ∧ s ≠ back.id)
    (hne : Info.Begin ≠ Info.End)
    (hgep : (F.findBlock Info.End).bind BasicBlock.getFirstNonPHIOrDbgOrLifetime = some GEP)
    (hgs : GEP.id ∉ Ctx.ScalarGEPList)
    (hus : ∀ p ∈ F.users (.inst GEP.id),
      p.2.id ∉ Ctx.ScalarGEPList ∧ Info.IdxValue ≠ .inst p.2.id)
    (hiv : Info.IdxValue ≠ .inst GEP.id)
    (hkeep : ∃ x ∈ F.blockInsts Info.End, x.id ≠ GEP.id ∧ Value.inst GEP.id ∉ x.kind.operands) :
    (N ≤ INT_MAX → ∃ G, createBBSwitch F Ctx Info = some G)
    ∧ ∀ G, createBBSwitch F Ctx Info = some G →
      ∃ sw phi cases inc, (G.blockInsts Info.Begin).getLast? = some sw
        ∧ sw.id = F.nextInst
        ∧ sw.kind = .switch Info.IdxValue Info.End cases
        ∧ (∀ e ∈ cases, ∃ k < N, e.1 = Value.constInt w (k % 2 ^ w)
            ∧ e.2 ≠ Info.Begin ∧ F.findBlock e.2 = none)
        ∧ (N ≤ 2 ^ w → ∀ v bb, N ≤ v → (Value.constInt w v, bb) ∉ cases)
        ∧ (G.blockInsts Info.End).head? = some phi ∧ phi.kind = .phi inc
        ∧ inc.length = N
        ∧ (∀ k < N, ∃ caseBB load, (Value.constInt w (k % 2 ^ w), caseBB) ∈ cases
            ∧ load ∈ G.blockInsts caseBB ∧ (Value.inst load.id, caseBB) ∈ inc)
        ∧ ∀ e ∈ inc, e.2 ≠ Info.Begin ∧ F.findBlock e.2 = none
            ∧ ∃ k < N, ∃ load ∈ G.blockInsts e.2,
              (Value.constInt w (k % 2 ^ w), e.2) ∈ cases ∧ e.1 = .inst load.id := by
  have hc := createBBSwitch_cases F Ctx Info N w elem back GEP hU hB hBB hA hlen hpos hback hw
    hty hne hgep hgs hus hiv hkeep
  refine ⟨hc.1, ?_⟩
  intro G hG
  obtain ⟨sw, phi, cases, inc, h1, h2, h3, h4, h5, h6, h7, h8, h9⟩ := hc.2 G hG
  have hBlt : Info.Begin < F.nextBlock := by
    obtain ⟨bB, hbB, _⟩ := findBlock_isSome_of_mem (List.mem_of_getLast?_eq_some hback)
    have := hBB bB (findBlock_some hbB).1
    rw [(findBlock_some hbB).2] at this
    exact this
  have hnew : ∀ k, F.findBlock (F.nextBlock + k) = none := by
    intro k
    unfold Func.findBlock
    rw [List.find?_eq_none]
    intro b hb
    have := hBB b hb
    simp only [beq_iff_eq, ne_eq]
    omega
  refine ⟨sw, phi, cases, inc, h1, h2, h3, ?_, ?_, h5, h6, h8, ?_, ?_⟩
  · intro e he
    obtain ⟨k, hk, rfl⟩ := h4 e he
    exact ⟨k, hk, rfl, by show F.nextBlock + k ≠ Info.Begin; omega, hnew k⟩
  · intro hNw v bb hv hc2
    obtain ⟨k, hk, he⟩ := h4 _ hc2
    have e1 : Value.constInt w v = Value.constInt w (k % 2 ^ w) := congrArg Prod.fst he
    rw [Nat.mod_eq_of_lt (Nat.lt_of_lt_of_le hk hNw)] at e1
    injection e1 with _ e2
    omega
  · intro k hk
    obtain ⟨_, load, _, a2, a3, _, a5⟩ := h7 k hk
    exact ⟨F.nextBlock + k, load, a2, a3, a5⟩
  · intro e he
    obtain ⟨a1, a2, k, hk, a3, load, a4, a5, _⟩ := h9 e he
    obtain ⟨_, _, _, b2, _⟩ := h7 k hk
    exact ⟨a1, a2, k, hk, load, a4, by rw [a3]; exact b2, a5⟩

theorem default_edge_unmerged_witness :
    ∃ G, createBBSwitch globalArraySplit globalArraySlots.2 ⟨2, 5, .inst 9⟩ = some G ∧
      ∃ sw phi cases inc, (G.blockInsts 2).getLast? = some sw
        ∧ sw.id = globalArraySplit.nextInst
        ∧ sw.kind = .switch (.inst 9) 5 cases
        ∧ (∀ e ∈ cases, ∃ k < 4, e.1 = Value.constInt 64 (k % 2 ^ 64)
            ∧ e.2 ≠ 2 ∧ globalArraySplit.findBlock e.2 = none)
        ∧ (4 ≤ 2 ^ 64 → ∀ v bb, 4 ≤ v → (Value.constInt 64 v, bb) ∉ cases)
        ∧ (G.blockInsts 5).head? = some phi ∧ phi.kind = .phi inc
        ∧ inc.length = 4
        ∧ (∀ k < 4, ∃ caseBB load, (Value.constInt 64 (k % 2 ^ 64), caseBB) ∈ cases
            ∧ load ∈ G.blockInsts caseBB ∧ (Value.inst load.id, caseBB) ∈ inc)
        ∧ ∀ e ∈ inc, e.2 ≠ 2 ∧ globalArraySplit.findBlock e.2 = none
            ∧ ∃ k < 4, ∃ load ∈ G.blockInsts e.2,
              (Value.constInt 64 (k % 2 ^ 64), e.2) ∈ cases ∧ e.1 = .inst load.id :=
  have h := default_edge_unmerged globalArraySplit globalArraySlots.2 ⟨2, 5, .inst 9⟩ 4 64
    .double ⟨22, .void, .br 5, globalArrayGEP.dbg⟩ globalArrayGEP
    (by decide!) (by decide!) (by decide!) (by decide!) (by decide!) (by decide!) (by decide!)
    (by decide!) (by decide!) (by decide!) (by decide!) (by decide!) (by decide!) (by decide!)
    (by decide!)
  (h.1 (by decide)).elim (fun G hG => ⟨G, hG, h.2 G hG⟩)

/-- C11: in `twoAccessFn` block 2 of the loop holds two indexing instructions
against the candidate `a`, 10 and 12.  The scan records one split point, for
instruction 10: it moves 12 to the new block 5, which is not in the block
list of the loop and is never scanned.  After the dispatch is built, block 5,
which the dispatch of block 2 reaches and which branches on to block 3 of
the loop, still holds the indexing instruction 12 against `a` and the load
through it. -/
theorem second_access_not_split :
    (arrayCandidates 0 [] twoAccessFn localArrayLoop).map (fun Ctxs => Ctxs.map (fun c => c.V))
      = some [.global 0]
    ∧ ((twoAccessFn.blockInsts 2).filter (fun i => i.kind.isGEP)).map
        (fun i => (i.id, i.kind.getPointerOperand))
      = [(10, some (.global 0)), (12, some (.global 0))]
    ∧ (((arrayCandidates 0 [] twoAccessFn localArrayLoop).bind
          (fun Ctxs => insertAllScalars (localArrayLoop.getLoopPredecessor twoAccessFn) Ctxs
            twoAccessFn)).bind
        (fun r => (scanLoop localArrayLoop (r.1.instsWithParent.length + 2) r.1 []).map
          (fun q => q.2)))
      = some [{ Begin := 2, End := 5, IdxValue := .inst 9 }]
    ∧ (ArrayScalarizePass.runOnLoop 0 [] twoAccessFn localArrayLoop).map
        (fun F => (F.successors 2, F.successors 5,
          (F.blockInsts 5).map (fun i => (i.id, i.kind))))
      = some ([5, 6, 7, 8, 9], [3],
          [(34, .phi [(.inst 27, 6), (.inst 29, 7), (.inst 31, 8), (.inst 33, 9)]),
           (12, .gep (.array 4 .double) (.global 0) [.constInt 64 0, .inst 9]),
           (13, .load (.inst 12) false),
           (14, .br 3)]) := by
  decide!

/-- C12: in `otherArrayFn` only `a`, global 0, is a candidate, `b`, global 1,
being read by another function.  The scan for `a` records a split point at
the indexing instruction 10, whose base is `b`, as well as at 16, whose base
is `a`.  After the dispatches are built the read of `b[i]` is gone: the
dispatch at the end of block 2 selects among the loads of the four slots of
`a`, 22 to 25, and the value stored to `x` is the merge node 37 of these
loads. -/
theorem other_array_is_dispatched :
    (arrayCandidates 0 otherGDM otherArrayFn localArrayLoop).map
        (fun Ctxs => Ctxs.map (fun c => c.V))
      = some [.global 0]
    ∧ (otherArrayFn.findInst 10).map (fun i => i.kind.getPointerOperand)
      = some (some (.global 1))
    ∧ (((arrayCandidates 0 otherGDM otherArrayFn localArrayLoop).bind
          (fun Ctxs => insertAllScalars (localArrayLoop.getLoopPredecessor otherArrayFn) Ctxs
            otherArrayFn)).bind
        (fun r => (scanLoop localArrayLoop (r.1.instsWithParent.length + 2) r.1 []).map
          (fun q => (r.2.map (fun c => (c.V, c.ScalarGEPList)), q.2))))
      = some ([(.global 0, [22, 23, 24, 25])],
          [{ Begin := 2, End := 5, IdxValue := .inst 9 },
           { Begin := 3, End := 6, IdxValue := .inst 15 }])
    ∧ (ArrayScalarizePass.runOnLoop 0 otherGDM otherArrayFn localArrayLoop).map
        (fun F => ((F.blockInsts 2).getLast?.map (fun i => i.kind),
          (F.blockInsts 7).map (fun i => i.kind),
          (F.blockInsts 5).map (fun i => (i.id, i.kind)),
          (F.findInst 10).isSome, (F.findInst 11).isSome))
      = some (some (.switch (.inst 9) 5
            [(.constInt 64 0, 7), (.constInt 64 1, 8), (.constInt 64 2, 9),
             (.constInt 64 3, 10)]),
          [.load (.inst 22) false, .br 5],
          [(37, .phi [(.inst 30, 7), (.inst 32, 8), (.inst 34, 9), (.inst 36, 10)]),
           (12, .store (.inst 37) (.inst 1)),
           (13, .br 3)],
          false, false) :=
  ⟨by decide!, by decide!, by decide!, by decide!⟩

/-- C14, counterexample: in `otherArrayFn` both arrays are candidates, `b`
first.  The scan for `b` splits at both indexing instructions, so the scan
for `a` on the function that results records no split point; yet the four
slots of `a`, 26 to 29, that `insertScalars` put in the preheader are in the
function the pass returns. -/
theorem slots_without_split_points :
    otherArraySlots.2.map (fun c => (c.V, c.ScalarGEPList))
      = [(.global 1, [22, 23, 24, 25]), (.global 0, [26, 27, 28, 29])]
    ∧ scanLoop localArrayLoop (otherArrayFirst.instsWithParent.length + 2) otherArrayFirst []
      = some (otherArrayFirst, [])
    ∧ ArrayScalarizePass.runOnLoop 0 [] otherArrayFn localArrayLoop = some otherArrayFirst
    ∧ (otherArrayFn.blockInsts 0).map (fun i => i.id) = [1, 2, 3, 4]
    ∧ (otherArrayFirst.blockInsts 0).map (fun i => (i.id, i.kind.getPointerOperand))
      = [(1, none), (2, none), (3, some (.inst 2)),
         (22, some (.global 1)), (23, some (.global 1)), (24, some (.global 1)),
         (25, some (.global 1)), (26, some (.global 0)), (27, some (.global 0)),
         (28, some (.global 0)), (29, some (.global 0)), (4, none)] := by
  decide!

/-! ### The split scan without a split -/

/-- One pass of the scan only appends split points, and a pass that appends
none changes nothing and keeps the flag. -/
theorem scanBlocks_grows :
    ∀ (bs : List Nat) (F : Func) (BBInfo : List splitBBInfo) (hs : Bool)
      (F1 : Func) (B1 : List splitBBInfo) (hs1 : Bool),
      scanBlocks bs F BBInfo hs = some (F1, B1, hs1) →
      BBInfo.length ≤ B1.length
      ∧ (B1.length = BBInfo.length → F1 = F ∧ B1 = BBInfo ∧ hs1 = hs)
      ∧ (hs1 = true → hs = true ∨ BBInfo.length < B1.length) := by
  intro bs
  induction bs with
  | nil =>
    intro F BBInfo hs F1 B1 hs1 h
    rw [scanBlocks] at h
    simp only [Option.some.injEq, Prod.mk.injEq] at h
    obtain ⟨rfl, rfl, rfl⟩ := h
    exact ⟨Nat.le_refl _, fun _ => ⟨rfl, rfl, rfl⟩, fun h => Or.inl h⟩
  | cons BB rest ih =>
    intro F BBInfo hs F1 B1 hs1 h
    rw [scanBlocks] at h
    split at h
    · exact ih F BBInfo hs F1 B1 hs1 h
    · split at h
      · simp at h
      · obtain ⟨h1, _, _⟩ := ih _ _ _ F1 B1 hs1 h
        rw [List.length_append, List.length_singleton] at h1
        exact ⟨by omega, fun he => by omega, fun _ => Or.inr (by omega)⟩

/-- The repeated scan only appends split points, and when it appends none the
function is the one it started from. -/
theorem scanLoop_grows (L : Loop) :
    ∀ (fuel : Nat) (F : Func) (BBInfo : List splitBBInfo) (F1 : Func) (B1 : List splitBBInfo),
      scanLoop L fuel F BBInfo = some (F1, B1) →
      BBInfo.length ≤ B1.length ∧ (B1.length = BBInfo.length → F1 = F) := by
  intro fuel
  induction fuel with
  | zero => intro F BBInfo F1 B1 h; rw [scanLoop] at h; simp at h
  | succ fuel ih =>
    intro F BBInfo F1 B1 h
    rw [scanLoop] at h
    split at h
    · simp at h
    · rename_i F2 B2 hs hscan
      obtain ⟨h1, h2, h3⟩ := scanBlocks_grows _ _ _ _ _ _ _ hscan
      by_cases hc : hs = true
      · rw [if_pos hc] at h
        obtain ⟨h4, _⟩ := ih _ _ _ _ h
        rcases h3 hc with h5 | h5
        · simp at h5
        · exact ⟨by omega, fun he => by omega⟩
      · rw [if_neg hc] at h
        simp only [Option.some.injEq, Prod.mk.injEq] at h
        obtain ⟨rfl, rfl⟩ := h
        exact ⟨h1, fun he => (h2 he).1⟩

/-! ### The candidates and their slots in the pass -/

theorem arrayCandidates_fresh {fid : Nat} {GDM : List (Nat × DefUseSet)} {F : Func} {L : Loop}
    {Ctxs : List arrayScalarizeContext} (h : arrayCandidates fid GDM F L = some Ctxs) :
    ∀ c ∈ Ctxs, c.ScalarGEPList = [] := by
  intro c hc
  unfold arrayCandidates makeContexts at h
  split at h
  · rename_i gs ls h1 h2
    simp only [Option.some.injEq] at h
    subst h
    rcases List.mem_append.mp hc with h3 | h3
    · obtain ⟨g, _, hf⟩ := mem_mapContexts h1 h3
      unfold globalContext at hf
      split at hf
      · split at hf
        · simp only [Option.some.injEq] at hf
          subst hf
          rfl
        · simp at hf
      · simp at hf
    · obtain ⟨a, _, hf⟩ := mem_mapContexts h2 h3
      unfold localContext at hf
      split at hf
      · simp only [Option.some.injEq] at hf
        subst hf
        rfl
      · simp at hf
  · simp at h

/-- One call of `insertScalars` that returns, on a fresh context and a
preheader that ends in a terminator: the preheader keeps its instructions and
its terminator and gains the slots of the context, one per element. -/
theorem insertScalars_step {F G : Func} {Ctx Ctx2 : arrayScalarizeContext} {ph : Nat}
    (hnil : Ctx.ScalarGEPList = [])
    (hterm : ∃ t, (F.blockInsts ph).getLast? = some t ∧ t.kind.isTerminator = true)
    (h : Ctx.insertScalars F (some ph) = some (G, Ctx2)) :
    (∃ t, (G.blockInsts ph).getLast? = some t ∧ t.kind.isTerminator = true)
    ∧ (∀ x ∈ F.blockInsts ph, x ∈ G.blockInsts ph)
    ∧ ∃ N elem, Ctx.ArrType = some (N, elem) ∧ N ≤ INT_MAX ∧ Ctx2.V = Ctx.V
      ∧ Ctx2.ScalarGEPList.length = N
      ∧ (G.blockInsts ph).length = (F.blockInsts ph).length + N
      ∧ ∀ i < N, ∃ g ∈ G.blockInsts ph, Ctx2.ScalarGEPList[i]? = some g.id
          ∧ g.kind = .gep (.array N elem) Ctx.V [.constInt 64 0, .constInt 64 i] := by
  obtain ⟨t, ht, htk⟩ := hterm
  obtain ⟨b, hb, _⟩ := findBlock_isSome_of_mem (List.mem_of_getLast?_eq_some ht)
  have htb : b.getTerminator = some t := by
    unfold BasicBlock.getTerminator
    rw [← blockInsts_of_findBlock hb, ht]
    simp [htk]
  obtain ⟨N, elem, hA⟩ : ∃ N elem, Ctx.ArrType = some (N, elem) := by
    cases hA : Ctx.ArrType with
    | none =>
      unfold arrayScalarizeContext.insertScalars at h
      rw [hA] at h
      simp at h
    | some p => exact ⟨p.1, p.2, rfl⟩
  have hN : N ≤ INT_MAX := by
    by_contra hc
    rw [insertScalars_overflow F Ctx (some ph) N elem hA (by omega)] at h
    simp at h
  obtain ⟨h1, _, h3, h4, h5, h6, h7⟩ :=
    (insertScalars_cases F Ctx ph N elem b t hA hnil hb htb).2 G Ctx2 h
  exact ⟨⟨t, by rw [h6]; exact ht, htk⟩, h5, N, elem, hA, hN, h1, h3, h4, h7⟩

/-- The loop `for (auto &Ctx : Ctxs) Ctx.insertScalars(...)`, when it returns,
on fresh contexts and a preheader that ends in a terminator: every context
has got its slots, one per element, and all of them are in the preheader,
which has grown by the number of slots. -/
theorem insertAllScalars_spec (ph : Nat) :
    ∀ (Ctxs : List arrayScalarizeContext) (F G : Func) (Ctxs1 : List arrayScalarizeContext),
      insertAllScalars (some ph) Ctxs F = some (G, Ctxs1) →
      (∀ c ∈ Ctxs, c.ScalarGEPList = []) →
      (∃ t, (F.blockInsts ph).getLast? = some t ∧ t.kind.isTerminator = true) →
      (∀ x ∈ F.blockInsts ph, x ∈ G.blockInsts ph)
      ∧ (G.blockInsts ph).length
          = (F.blockInsts ph).length + (Ctxs1.map (fun c => c.ScalarGEPList.length)).sum
      ∧ ∀ (j : Nat) (c0 c : arrayScalarizeContext), Ctxs[j]? = some c0 → Ctxs1[j]? = some c →
          ∃ N elem, c0.ArrType = some (N, elem) ∧ N ≤ INT_MAX ∧ c.V = c0.V
            ∧ c.ScalarGEPList.length = N
            ∧ ∀ i < N, ∃ g ∈ G.blockInsts ph, c.ScalarGEPList[i]? = some g.id
                ∧ g.kind = .gep (.array N elem) c0.V [.constInt 64 0, .constInt 64 i] := by
  intro Ctxs
  induction Ctxs with
  | nil =>
    intro F G Ctxs1 h _ _
    simp only [insertAllScalars, Option.some.injEq, Prod.mk.injEq] at h
    obtain ⟨rfl, rfl⟩ := h
    exact ⟨fun _ hx => hx, by simp, fun j c0 c h0 => by simp at h0⟩
  | cons c0 rest ih =>
    intro F G Ctxs1 h hnil hterm
    unfold insertAllScalars at h
    split at h
    · simp at h
    · rename_i F2 c1 h1
      split at h
      · simp at h
      · rename_i F3 rest1 h2
        simp only [Option.some.injEq, Prod.mk.injEq] at h
        obtain ⟨rfl, rfl⟩ := h
        obtain ⟨hterm2, hkeep, N, elem, hA, hN, hV, hlen, hgrow, hslots⟩ :=
          insertScalars_step (hnil c0 (List.mem_cons_self _ _)) hterm h1
        obtain ⟨hkeep2, hgrow2, hall⟩ :=
          ih F2 F3 rest1 h2 (fun c hc => hnil c (List.mem_cons_of_mem _ hc)) hterm2
        refine ⟨fun x hx => hkeep2 x (hkeep x hx), ?_, ?_⟩
        · rw [hgrow2, hgrow, List.map_cons, List.sum_cons, hlen]
          omega
        · intro j a b ha hb
          cases j with
          | zero =>
            simp only [List.getElem?_cons_zero, Option.some.injEq] at ha hb
            subst ha
            subst hb
            refine ⟨N, elem, hA, hN, hV, hlen, ?_⟩
            intro i hi
            obtain ⟨g, hg, hgi, hgk⟩ := hslots i hi
            exact ⟨g, hkeep2 g hg, hgi, hgk⟩
          | succ j =>
            simp only [List.getElem?_cons_succ] at ha hb
            exact hall j a b ha hb

theorem getElem?_append_cons {α : Type} (xs : List α) (a : α) (ys : List α) :
    (xs ++ a :: ys)[xs.length]? = some a := by
  induction xs with
  | nil => simp
  | cons x rest ih => simpa using ih

theorem scalarizeAll_append (L : Loop) :
    ∀ (xs ys : List arrayScalarizeContext) (F : Func),
      scalarizeAll L (xs ++ ys) F = (scalarizeAll L xs F).bind (scalarizeAll L ys) := by
  intro xs
  induction xs with
  | nil => intro ys F; rfl
  | cons x rest ih =>
    intro ys F
    rw [List.cons_append, scalarizeAll, scalarizeAll]
    cases scanLoop L (F.instsWithParent.length + 2) F [] with
    | none => rfl
    | some r =>
      obtain ⟨F1, B⟩ := r
      dsimp only
      cases createAllSwitches x B F1 with
      | none => rfl
      | some F2 => exact ih ys F2

/-- When the scan of a function records no split point, the loop over the
contexts, whatever contexts are left, returns that function. -/
theorem scalarizeAll_no_split (L : Loop) (H F1 : Func)
    (h : scanLoop L (H.instsWithParent.length + 2) H [] = some (F1, [])) :
    ∀ cs : List arrayScalarizeContext, scalarizeAll L cs H = some H := by
  have hF : F1 = H := (scanLoop_grows L _ _ _ _ _ h).2 rfl
  subst hF
  intro cs
  induction cs with
  | nil => rfl
  | cons c rest ih =>
    rw [scalarizeAll, h]
    exact ih

/-- C14, amended.  Take a loop whose preheader ends in a terminator, a
candidate `Ctx0` of the pass, the function `G` and the context `Ctx` the slot
insertion loop returns for it, and the function `H` the scan-and-dispatch loop
has reached when the turn of the candidate comes.  If the scan of that turn
records no split point, then the scan leaves `H` as it is, no dispatch is
built, and `H` is the function the pass returns for the loop.  The function is
not what it was before the pass worked on the candidate: the slot insertion
loop ran `insertScalars` on it, so the candidate is an array of some
`N ≤ INT_MAX` elements that has `N` slots, slot `i` an element access with the
constant indices `0, i`, all of them in the preheader of `G`, which is longer
than the preheader of the input by the slots of all candidates. -/
theorem no_split_points_no_dispatch (fid : Nat) (GDM : List (Nat × DefUseSet)) (F : Func)
    (L : Loop) (ph : Nat) (pre0 rest0 : List arrayScalarizeContext)
    (Ctx0 : arrayScalarizeContext) (G : Func) (pre rest : List arrayScalarizeContext)
    (Ctx : arrayScalarizeContext) (H F1 : Func)
    (hph : L.getLoopPredecessor F = some ph)
    (hterm : ∃ t, (F.blockInsts ph).getLast? = some t ∧ t.kind.isTerminator = true)
    (hcand : arrayCandidates fid GDM F L = some (pre0 ++ Ctx0 :: rest0))
    (hins : insertAllScalars (some ph) (pre0 ++ Ctx0 :: rest0) F
      = some (G, pre ++ Ctx :: rest))
    (hlen : pre.length = pre0.length)
    (hturn : scalarizeAll L pre G = some H)
    (hscan : scanLoop L (H.instsWithParent.length + 2) H [] = some (F1, [])) :
    F1 = H ∧ createAllSwitches Ctx [] F1 = some H
    ∧ scalarizeAll L (Ctx :: rest) H = some H
    ∧ ArrayScalarizePass.runOnLoop fid GDM F L = some H
    ∧ ∃ N elem, Ctx0.ArrType = some (N, elem) ∧ N ≤ INT_MAX ∧ Ctx.V = Ctx0.V
      ∧ Ctx.ScalarGEPList.length = N
      ∧ (∀ i < N, ∃ g ∈ G.blockInsts ph, Ctx.ScalarGEPList[i]? = some g.id
          ∧ g.kind = .gep (.array N elem) Ctx0.V [.constInt 64 0, .constInt 64 i])
      ∧ (G.blockInsts ph).length
          = (F.blockInsts ph).length
            + ((pre ++ Ctx :: rest).map (fun c => c.ScalarGEPList.length)).sum
      ∧ (F.blockInsts ph).length + N ≤ (G.blockInsts ph).length := by
  have hF : F1 = H := (scanLoop_grows L _ _ _ _ _ hscan).2 rfl
  have hrest := scalarizeAll_no_split L H F1 hscan (Ctx :: rest)
  obtain ⟨_, hgrow, hall⟩ :=
    insertAllScalars_spec ph _ F G _ hins (arrayCandidates_fresh hcand) hterm
  obtain ⟨N, elem, hA, hN, hV, hl, hslots⟩ :=
    hall pre0.length Ctx0 Ctx (getElem?_append_cons pre0 Ctx0 rest0)
      (by rw [← hlen]; exact getElem?_append_cons pre Ctx rest)
  refine ⟨hF, by rw [hF]; rfl, hrest, ?_, N, elem, hA, hN, hV, hl, hslots, hgrow, ?_⟩
  · unfold ArrayScalarizePass.runOnLoop
    rw [hcand]
    dsimp only
    rw [hph, hins]
    dsimp only
    rw [scalarizeAll_append, hturn]
    exact hrest
  · rw [hgrow, List.map_append, List.sum_append, List.map_cons, List.sum_cons, hl]
    omega

theorem no_split_points_no_dispatch_witness :
    otherArraySlots.2 = [⟨.global 1, some (4, .double), [22, 23, 24, 25]⟩,
                         ⟨.global 0, some (4, .double), [26, 27, 28, 29]⟩]
    ∧ ArrayScalarizePass.runOnLoop 0 [] otherArrayFn localArrayLoop = some otherArrayFirst
    ∧ (otherArrayFn.blockInsts 0).length + 4 ≤ (otherArraySlots.1.blockInsts 0).length
    ∧ ∀ i < 4, ∃ g ∈ otherArraySlots.1.blockInsts 0,
        ([26, 27, 28, 29] : List Nat)[i]? = some g.id
        ∧ g.kind = .gep (.array 4 .double) (.global 0) [.constInt 64 0, .constInt 64 i] :=
  have h := no_split_points_no_dispatch 0 [] otherArrayFn localArrayLoop 0
    [⟨.global 1, some (4, .double), []⟩] [] ⟨.global 0, some (4, .double), []⟩
    otherArraySlots.1 [⟨.global 1, some (4, .double), [22, 23, 24, 25]⟩] []
    ⟨.global 0, some (4, .double), [26, 27, 28, 29]⟩ otherArrayFirst otherArrayFirst
    (by decide!) (by decide!) (by decide!) (by decide!) rfl (by decide!) (by decide!)
  ⟨by decide!, h.2.2.2.1,
   h.2.2.2.2.elim (fun N hN => hN.elim (fun elem hq =>
     have e : N = 4 := by
       have := hq.2.2.2.1
       simpa using this.symm
     by rw [e] at hq; exact hq.2.2.2.2.2.2)),
   h.2.2.2.2.elim (fun N hN => hN.elim (fun elem hq =>
     have e : some (4, Ty.double) = some (N, elem) := hq.1
     by
       simp only [Option.some.injEq, Prod.mk.injEq] at e
       obtain ⟨e1, e2⟩ := e
       subst e1
       subst e2
       exact hq.2.2.2.2.1))⟩

/-! ### Maps kept as association lists -/

/-- C16, counterexample: in `twoExitsFn` the first located instruction of
block 2 is the load 7, line 7.  The pass inserts the debug value 19 of the
new value 8 in that block; its location is line 2, the location of the
debug declaration of `x` in the entry block, not a location of block 2,
whose first located instruction is at line 8 after the rewrite. -/
theorem debug_value_not_at_block_location :
    firstDebugLocInRange (twoExitsFn.blockInsts 2) = some { line := 7, col := 1, scope := 0 }
    ∧ (PointerReductionPass.runOnLoop noAlias noDebug true false (poolOn (.inst 1))
          twoExitsLoop (twoExitsFn, [])).map
        (fun r => (firstDebugLocInRange (r.1.1.blockInsts 2),
          (r.1.1.blockInsts 2).map (fun i => (i.id, i.kind, i.dbg.map (fun d => d.line)))))
      = some (some { line := 8, col := 1, scope := 0 },
          [(8, .add (.inst 15) (.constInt 32 1), some 8),
           (19, .dbgValue (.inst 8) (some varX) [], some 2),
           (10, .icmpSlt (.inst 8) (.constInt 32 3), some 10),
           (11, .condBr (.inst 10) 1 3, some 11)]) :=
  ⟨by decide!, by decide!⟩

/-- C16, amended: when `insertDbgValueCall` returns, the debug variable and
the debug location of the context are set and the block of the instruction
has a located instruction (its location is only read, not used).  The one
instruction the call adds, in front of `pos` in every block that holds `pos`,
is a debug value of the instruction with the debug variable of the context,
an empty location expression and the debug location of the context as its
location.  Every other instruction of the result is an instruction of the
function before the call in the same block and with the same kind, and with
the same location unless the call was asked to give the instruction the
debug location of the context. -/
theorem debug_value_at_context_location (ctx ctx' : PtrRedContext) (I pos : Nat) (add : Bool)
    (hB : ctx.F.IdsBelow)
    (h : insertDbgValueCall ctx I (some pos) add = some ctx') :
    ∃ var loc parent closest, ctx.DbgVar = some var ∧ ctx.DbgLoc = some loc
      ∧ ctx.F.parentOf I = some parent
      ∧ firstDebugLocInRange (ctx.F.blockInsts parent) = some closest
      ∧ (∀ bb, (∃ x ∈ ctx.F.blockInsts bb, x.id = pos) →
          ∃ call ∈ ctx'.F.blockInsts bb, call.id = ctx.F.nextInst)
      ∧ ∀ p ∈ ctx'.F.instsWithParent,
          (p.2.id = ctx.F.nextInst ∧ p.2.kind = .dbgValue (.inst I) (some var) []
            ∧ p.2.dbg = some loc)
          ∨ (p.2.id < ctx.F.nextInst ∧ ∃ p0 ∈ ctx.F.instsWithParent, p0.1 = p.1
              ∧ p0.2.id = p.2.id ∧ p0.2.kind = p.2.kind
              ∧ (p.2.dbg = p0.2.dbg ∨ (add = true ∧ p.2.id = I ∧ p.2.dbg = some loc))) := by
  unfold insertDbgValueCall at h
  split at h
  · simp at h
  · rename_i parent hparent
    split at h
    · simp at h
    · rename_i closest hclosest
      dsimp only at h
      split at h
      · rename_i var loc hvar hloc
        simp only [Option.some.injEq] at h
        subst h
        refine ⟨var, loc, parent, closest, hvar, hloc, hparent, hclosest, ?_, ?_⟩
        · intro bb hx
          refine ⟨⟨(if add = true then ctx.F.setDebugLoc I ctx.DbgLoc else ctx.F).nextInst,
            .void, .dbgValue (.inst I) (some var) [], some loc⟩, ?_, by split <;> rfl⟩
          rw [blockInsts_insertBefore]
          apply mem_insertBeforeList_new
          obtain ⟨x, hx1, hx2⟩ := hx
          by_cases ha : add = true
          · rw [if_pos ha]
            refine ⟨(fun i : Inst => if i.id == I then { i with dbg := ctx.DbgLoc } else i) x,
              ?_, ?_⟩
            · show _ ∈ (ctx.F.mapInsts _).blockInsts bb
              rw [blockInsts_mapInsts]
              exact List.mem_map_of_mem _ hx1
            · dsimp only
              split <;> exact hx2
          · rw [if_neg ha]
            exact ⟨x, hx1, hx2⟩
        · intro p hp
          have hnext : (if add = true then ctx.F.setDebugLoc I ctx.DbgLoc else ctx.F).nextInst
              = ctx.F.nextInst := by
            split <;> rfl
          have hold : ∀ q ∈ (if add = true then ctx.F.setDebugLoc I ctx.DbgLoc
                else ctx.F).instsWithParent,
              q.2.id < ctx.F.nextInst ∧ ∃ p0 ∈ ctx.F.instsWithParent, p0.1 = q.1
                ∧ p0.2.id = q.2.id ∧ p0.2.kind = q.2.kind
                ∧ (q.2.dbg = p0.2.dbg ∨ (add = true ∧ q.2.id = I ∧ q.2.dbg = some loc)) := by
            intro q hq
            by_cases ha : add = true
            · rw [if_pos ha] at hq
              unfold Func.setDebugLoc at hq
              rw [instsWithParent_mapInsts] at hq
              obtain ⟨p0, hp0, rfl⟩ := List.mem_map.mp hq
              by_cases hid : (p0.2.id == I) = true
              · refine ⟨?_, p0, hp0, rfl, ?_, ?_, Or.inr ⟨ha, ?_, ?_⟩⟩
                · simp only [hid, if_true]
                  exact hB p0 hp0
                · simp only [hid, if_true]
                · simp only [hid, if_true]
                · simp only [hid, if_true]
                  simpa using hid
                · simp only [hid, if_true]
                  exact hloc
              · refine ⟨?_, p0, hp0, rfl, ?_, ?_, Or.inl ?_⟩
                · simp only [hid, Bool.false_eq_true, if_false]
                  exact hB p0 hp0
                · simp only [hid, Bool.false_eq_true, if_false]
                · simp only [hid, Bool.false_eq_true, if_false]
                · simp only [hid, Bool.false_eq_true, if_false]
            · rw [if_neg ha] at hq
              exact ⟨hB q hq, q, hq, rfl, rfl, rfl, Or.inl rfl⟩
          rcases mem_instsWithParent_insertBefore hp with h1 | ⟨h1, _⟩
          · exact Or.inr (hold p h1)
          · left
            rw [h1]
            exact ⟨hnext, rfl, rfl⟩
      · simp at h

theorem debug_value_at_context_location_witness :
    doWhileAccepted.DbgLoc = some { line := 2, col := 1, scope := 0 }
    ∧ firstDebugLocInRange (doWhileAccepted.F.blockInsts 1)
        = some { line := 5, col := 1, scope := 0 }
    ∧ ∃ var loc parent closest, doWhileAccepted.DbgVar = some var
      ∧ doWhileAccepted.DbgLoc = some loc
      ∧ doWhileAccepted.F.parentOf 5 = some parent
      ∧ firstDebugLocInRange (doWhileAccepted.F.blockInsts parent) = some closest
      ∧ (∀ bb, (∃ x ∈ doWhileAccepted.F.blockInsts bb, x.id = 6) →
          ∃ call ∈ ((insertDbgValueCall doWhileAccepted 5 (some 6) false).getD
              doWhileAccepted).F.blockInsts bb,
            call.id = doWhileAccepted.F.nextInst)
      ∧ ∀ p ∈ ((insertDbgValueCall doWhileAccepted 5 (some 6) false).getD
            doWhileAccepted).F.instsWithParent,
          (p.2.id = doWhileAccepted.F.nextInst ∧ p.2.kind = .dbgValue (.inst 5) (some var) []
            ∧ p.2.dbg = some loc)
          ∨ (p.2.id < doWhileAccepted.F.nextInst
              ∧ ∃ p0 ∈ doWhileAccepted.F.instsWithParent, p0.1 = p.1
              ∧ p0.2.id = p.2.id ∧ p0.2.kind = p.2.kind
              ∧ (p.2.dbg = p0.2.dbg ∨ (false = true ∧ p.2.id = 5 ∧ p.2.dbg = some loc))) :=
  ⟨by decide!, by decide!,
   debug_value_at_context_location doWhileAccepted
     ((insertDbgValueCall doWhileAccepted 5 (some 6) false).getD doWhileAccepted) 5 6 false
     (by decide!) (by decide!)⟩

/-- Without a debug record of the candidate the search for it changes
nothing. -/
theorem findDbgRecord_of_no_record (ctx : PtrRedContext)
    (h : hasDbgRecord ctx.F ctx.V = false) : findDbgRecord ctx = ctx := by
  unfold findDbgRecord
  unfold hasDbgRecord at h
  have key : ∀ (l : List (Nat × Inst)) (c : PtrRedContext),
      l.any (fun p => refersTo c.V p.2) = false →
      l.foldl (fun c p =>
        match p.2.kind with
        | .dbgValue v var _ =>
          if v == c.V then { c with DbgLoc := p.2.dbg, DbgVar := var } else c
        | .dbgDeclare a var =>
          if a == c.V then { c with DbgLoc := p.2.dbg, DbgVar := some var } else c
        | _ => c) c = c := by
    intro l
    induction l with
    | nil => intro c _; rfl
    | cons p rest ih =>
      intro c hc
      rw [List.any_cons, Bool.or_eq_false_iff] at hc
      obtain ⟨h1, h2⟩ := hc
      rw [List.foldl_cons]
      have hstep : (match p.2.kind with
          | .dbgValue v var _ =>
            if v == c.V then { c with DbgLoc := p.2.dbg, DbgVar := var } else c
          | .dbgDeclare a var =>
            if a == c.V then { c with DbgLoc := p.2.dbg, DbgVar := some var } else c
          | _ => c) = c := by
        unfold refersTo at h1
        split
        · rename_i v var e hk
          rw [hk] at h1
          simp only at h1
          rw [if_neg (by rw [h1]; simp)]
        · rename_i a var hk
          rw [hk] at h1
          simp only at h1
          rw [if_neg (by rw [h1]; simp)]
        · rfl
      rw [hstep]
      exact ih c h2
  exact key _ ctx h

/-- C17: a candidate that is no global, that passes the legality gate and
that no debug value or debug declaration of the function refers to makes the
pass fault before any rewriting: the debug variable of the context is still
unset when `ctx.DbgVar->getType()` reads it, so the body of the candidate
loop has no result. -/
theorem missing_debug_record_faults (AT : AliasTree) (DO : DebugOracle) (L : Loop)
    (st : Func × List MDLink) (Val : Value)
    (hgate : gateAccepts AT (candidateContext st.1 L Val) = true)
    (hlocal : (candidateContext st.1 L Val).V.isGlobalValue = false)
    (hnone : hasDbgRecord st.1 (candidateContext st.1 L Val).V = false) :
    setupDebugInfo AT DO (candidateContext st.1 L Val) st.2 = none
    ∧ processCandidate AT DO L st Val = none := by
  have hF : (candidateContext st.1 L Val).F = st.1 := rfl
  have hL : (candidateContext st.1 L Val).L = L := rfl
  have hD : (candidateContext st.1 L Val).DbgVar = none := rfl
  have hrec := findDbgRecord_of_no_record (candidateContext st.1 L Val) (by rw [hF]; exact hnone)
  have hsetup : setupDebugInfo AT DO (candidateContext st.1 L Val) st.2 = none := by
    unfold setupDebugInfo
    simp only [hrec, hlocal, Bool.false_eq_true, if_false, hD]
  refine ⟨hsetup, ?_⟩
  unfold gateAccepts at hgate
  simp only [Bool.and_eq_true, Bool.not_eq_true', hL] at hgate
  obtain ⟨⟨h1, h2⟩, h3⟩ := hgate
  unfold processCandidate
  simp only [h1, h2, h3, hsetup, Bool.not_true, Bool.false_eq_true, if_false]

theorem missing_debug_record_faults_witness :
    pointerCandidates doWhileNoDbgFn doWhileLoop (poolOn (.inst 1)) = [.inst 1]
    ∧ PointerReductionPass.runOnLoop noAlias noDebug true false (poolOn (.inst 1)) doWhileLoop
        (doWhileNoDbgFn, []) = none
    ∧ setupDebugInfo noAlias noDebug (candidateContext doWhileNoDbgFn doWhileLoop (.inst 1)) []
        = none
    ∧ processCandidate noAlias noDebug doWhileLoop (doWhileNoDbgFn, []) (.inst 1) = none :=
  ⟨by decide!, by decide!,
   missing_debug_record_faults noAlias noDebug doWhileLoop (doWhileNoDbgFn, []) (.inst 1)
     (by decide!) (by decide!) (by decide!)⟩

end Tsar
